import Mathlib

/-!
# go-perun: allocation model, channel messages and their surroundings

A shallow embedding of `channel/allocation.go` and `wire/msg/channelmsg.go`,
of `backend/ethereum/channel/eth_depositor.go`, of `sigFromRSV` in
`backend/ethereum/channel/test/transactor.go`, of the expected balances of
`backend/ethereum/client/dispute_test.go`, of `wire/net/test/pipeconn.go`, and
of the envelope cache that `wire/cache_internal_test.go` tests.

* A Go slice is `Option (List α)`: `none` is the nil slice, `some []` an empty
  non-nil slice.
* A balance (`Bal = *big.Int`) is `Option Int`: `none` is the nil pointer,
  `some v` a pointer to a `big.Int` of value `v`. Where sharing of the
  pointed-to integers matters (`Clone`), memory is modelled explicitly by a
  `Heap`, in which a balance is nil or an address.
* A Go `error` result is an `Option` (`none` is `nil`), a panic is the
  `Except.error` branch of an `Except Panic`.
-/

namespace channel

/-! ## Data model -/

/-- A Go slice seen as a value: `none` is the nil slice. -/
abbrev Slice (α : Type) := Option (List α)

namespace Slice

/-- The Go builtin `len`; the length of a nil slice is zero. -/
def len {α : Type} (s : Slice α) : Nat :=
  match s with
  | none => 0
  | some xs => xs.length

/-- The elements a `range` loop visits; none for a nil slice. -/
def elems {α : Type} (s : Slice α) : List α :=
  match s with
  | none => []
  | some xs => xs

end Slice

/-- A balance `Bal = *big.Int`: `none` is the nil pointer, `some v` a pointer
to a `big.Int` of value `v`, an integer of arbitrary size. -/
abbrev Bal := Option Int

/-- The number a balance holds; a nil balance holds none, and counts as zero
wherever a number is asked of it. -/
def balValue (b : Bal) : Int :=
  match b with
  | some v => v
  | none => 0

/-- A non-nil slice of non-nil balances with the given values. -/
def balances (vs : List Int) : Slice Bal :=
  some (vs.map some)

/-- An `Asset = io.Serializable` is opaque to the allocation code; it is
identified by a number. -/
abbrev Asset := Nat

/-- The channel identifier `ID`, a fixed-size byte array declared outside these
sources; it is identified by its numeric value. -/
abbrev ID := Nat

/-- The Go struct `SubAlloc`. -/
structure SubAlloc where
  ID : channel.ID
  Bals : Slice Bal
  deriving DecidableEq, Repr

/-- The Go struct `Allocation`. -/
structure Allocation where
  Assets : Slice Asset
  OfParts : Slice (Slice Bal)
  Locked : Slice SubAlloc
  deriving DecidableEq, Repr

/-- The errors built by `valid` and `equalSum`, one constructor per message. -/
inductive Error where
  /-- "assets and participant balances must not be of length zero" -/
  | zeroLength
  /-- "dimension mismatch of participant %d's balance vector" -/
  | participantDim (i : Nat)
  /-- "dimension mismatch of app-channel balance vector (ID: %x)" -/
  | lockedDim (id : ID)
  /-- "dimension mismatch" -/
  | dimensionMismatch
  deriving DecidableEq, Repr

/-- The ways a call can abort. -/
inductive Panic where
  /-- `log.Panic(err)` -/
  | logPanic (err : Error)
  /-- An index expression `s[i]` with `i` not below `len(s)`. -/
  | indexOutOfRange (i n : Nat)
  /-- A nil pointer was dereferenced. -/
  | nilDereference
  /-- An address that holds no object of the type the access expects; a state
  the Go type system excludes. -/
  | invalidMemory
  deriving DecidableEq, Repr

deriving instance DecidableEq for Except

/-! ## `valid` -/

/-- The loop `for i, pa := range a.OfParts` of `valid`, entered at index `i`. -/
def validParts (n : Nat) : Nat → List (Slice Bal) → Option Error
  | _, [] => none
  | i, pa :: rest =>
    if pa.len ≠ n then some (Error.participantDim i) else validParts n (i + 1) rest

/-- The loop `for _, l := range a.Locked` of `valid`. -/
def validLocked (n : Nat) : List SubAlloc → Option Error
  | [] => none
  | l :: rest =>
    if l.Bals.len ≠ n then some (Error.lockedDim l.ID) else validLocked n rest

/-- The method `Allocation.valid`; `none` is the `nil` error. -/
def Allocation.valid (a : Allocation) : Option Error :=
  if a.Assets.len = 0 ∨ a.OfParts.len = 0 then
    some Error.zeroLength
  else
    match validParts a.Assets.len 0 a.OfParts.elems with
    | some err => some err
    | none => validLocked a.Assets.len a.Locked.elems

/-! ## `Sum` -/

/-- The statement `totals[i].Add(totals[i], bal)`: `totals[i]` is indexed
first, and `Add` dereferences `bal`. -/
def addAt (totals : List Int) (i : Nat) (bal : Bal) : Except Panic (List Int) :=
  match totals[i]? with
  | none => Except.error (Panic.indexOutOfRange i totals.length)
  | some t =>
    match bal with
    | none => Except.error Panic.nilDereference
    | some v => Except.ok (totals.set i (t + v))

/-- The inner loop `for i, bal := range bals` of `Sum`, entered at index `i`. -/
def addBals : List Int → Nat → List Bal → Except Panic (List Int)
  | totals, _, [] => Except.ok totals
  | totals, i, bal :: rest =>
    match addAt totals i bal with
    | Except.ok totals1 => addBals totals1 (i + 1) rest
    | Except.error p => Except.error p

/-- The outer loop `for _, bals := range a.OfParts` of `Sum`. -/
def addParts : List Int → List (Slice Bal) → Except Panic (List Int)
  | totals, [] => Except.ok totals
  | totals, bals :: rest =>
    match addBals totals 0 bals.elems with
    | Except.ok totals1 => addParts totals1 rest
    | Except.error p => Except.error p

/-- The outer loop `for _, a := range a.Locked` of `Sum`. -/
def addLocked : List Int → List SubAlloc → Except Panic (List Int)
  | totals, [] => Except.ok totals
  | totals, l :: rest =>
    match addBals totals 0 l.Bals.elems with
    | Except.ok totals1 => addLocked totals1 rest
    | Except.error p => Except.error p

/-- The method `Allocation.Sum`. The totals are made by `make` and
`new(big.Int)`: the slice returned and its elements are never nil, and the
result is the list of the values of the totals. -/
def Allocation.Sum (a : Allocation) : Except Panic (List Int) :=
  match a.valid with
  | some err => Except.error (Panic.logPanic err)
  | none =>
    match addParts (List.replicate a.Assets.len 0) a.OfParts.elems with
    | Except.ok totals => addLocked totals a.Locked.elems
    | Except.error p => Except.error p

/-! ## `equalSum` -/

/-- The method `Cmp` of `big.Int`: -1, 0 or +1. -/
def Cmp (x y : Int) : Int :=
  if x < y then -1 else if x = y then 0 else 1

/-- The loop `for i := 0; i < n; i++` of `equalSum`, entered at index `i` with
`k` iterations left. -/
def equalSumLoop (s0 s1 : List Int) : Nat → Nat → Except Panic (Bool × Option Error)
  | 0, _ => Except.ok (true, none)
  | k + 1, i =>
    match s0[i]?, s1[i]? with
    | some x, some y =>
      if Cmp x y ≠ 0 then Except.ok (false, none) else equalSumLoop s0 s1 k (i + 1)
    | none, _ => Except.error (Panic.indexOutOfRange i s0.length)
    | _, none => Except.error (Panic.indexOutOfRange i s1.length)

/-- The function `equalSum`, on two allocations. -/
def equalSum (b0 b1 : Allocation) : Except Panic (Bool × Option Error) :=
  match b0.Sum, b1.Sum with
  | Except.ok s0, Except.ok s1 =>
    if s0.length ≠ s1.length then Except.ok (false, some Error.dimensionMismatch)
    else equalSumLoop s0 s1 s0.length 0
  | Except.error p, _ => Except.error p
  | _, Except.error p => Except.error p

/-- No balance of the allocation, in `OfParts` or in `Locked`, is a nil
pointer. -/
def Allocation.nonNil (a : Allocation) : Bool :=
  a.OfParts.elems.all (fun pa => pa.elems.all (fun b => b.isSome))
    && a.Locked.elems.all (fun l => l.Bals.elems.all (fun b => b.isSome))

/-- The total of asset `i` the specification asks of `Sum`: the balances of
asset `i` of all participants plus those of all locked sub-allocations. -/
def columnTotal (a : Allocation) (i : Nat) : Int :=
  (a.OfParts.elems.map (fun pa => balValue (pa.elems.getD i none))).sum
    + (a.Locked.elems.map (fun l => balValue (l.Bals.elems.getD i none))).sum

/-- The balance vectors of an allocation in order: the rows of `OfParts`, then
the `Bals` of the entries of `Locked`. -/
def Allocation.balanceRows (a : Allocation) : List (List Bal) :=
  a.OfParts.elems.map (fun pa => pa.elems) ++ a.Locked.elems.map (fun l => l.Bals.elems)

/-- The balance of asset `k` in balance vector `r`: the number `OfParts[r][k]`
holds for `r` below `len(OfParts)`, and the number
`Locked[r - len(OfParts)].Bals[k]` holds from there on. -/
def Allocation.entry (a : Allocation) (r k : Nat) : Int :=
  balValue ((a.balanceRows.getD r []).getD k none)

/-- An allocation of one asset that passes `valid` and holds a nil balance. -/
def nilBalance : Allocation :=
  { Assets := some [1], OfParts := some [some [none]], Locked := none }

/-! ## Memory: slices and balances as objects on a heap

`Clone` is about which objects a copy shares with its original, so it is
embedded over an explicit heap. Every `big.Int` and every backing array of a
slice is an object with an address; a slice is nil or a header naming its
backing array, and a `Bal` is nil or the address of a `big.Int`. -/

namespace mem

/-- The header of a non-nil slice: the address of its backing array, the
offset of its first element in that array and its length. -/
structure SliceHdr where
  arr : Nat
  off : Nat
  len : Nat
  deriving DecidableEq, Repr

/-- A slice in memory: `none` is the nil slice. -/
abbrev SliceRef := Option SliceHdr

/-- A pointer `*big.Int`: `none` is the nil pointer. -/
abbrev Ptr := Option Nat

/-- The Go struct `SubAlloc` in memory. -/
structure SubAlloc where
  ID : channel.ID
  Bals : SliceRef
  deriving DecidableEq, Repr

/-- The Go struct `Allocation` in memory: three slice headers. -/
structure Allocation where
  Assets : SliceRef
  OfParts : SliceRef
  Locked : SliceRef
  deriving DecidableEq, Repr

/-- The objects on the heap: a `big.Int`, or the backing array of a `[]Bal`,
of a `[][]Bal`, of a `[]SubAlloc` or of a `[]Asset`. -/
inductive Obj where
  | bigInt (v : Int)
  | bals (slots : List Ptr)
  | rows (slots : List SliceRef)
  | subs (slots : List SubAlloc)
  | assets (slots : List Asset)
  deriving DecidableEq, Repr

/-- The heap: the object at each address. Allocation appends an object. -/
abbrev Heap := List Obj

/-- The slots of a backing array of `[]Bal`. -/
def Obj.asBals : Obj → Option (List Ptr)
  | Obj.bals slots => some slots
  | _ => none

/-- The slots of a backing array of `[][]Bal`. -/
def Obj.asRows : Obj → Option (List SliceRef)
  | Obj.rows slots => some slots
  | _ => none

/-- The slots of a backing array of `[]SubAlloc`. -/
def Obj.asSubs : Obj → Option (List SubAlloc)
  | Obj.subs slots => some slots
  | _ => none

/-- The slots of a backing array of `[]Asset`. -/
def Obj.asAssets : Obj → Option (List Asset)
  | Obj.assets slots => some slots
  | _ => none

/-- The elements of the slice with header `r`, read through `proj` from its
backing array. -/
def window {α : Type} (proj : Obj → Option (List α)) (h : Heap) (r : SliceHdr) :
    Option (List α) :=
  match h[r.arr]? with
  | none => none
  | some o =>
    match proj o with
    | none => none
    | some slots =>
      if r.off + r.len ≤ slots.length then some ((slots.drop r.off).take r.len) else none

/-- The index expression `s[i]` on a non-nil slice. -/
def index {α : Type} (proj : Obj → Option (List α)) (h : Heap) (r : SliceHdr) (i : Nat) :
    Except Panic α :=
  match window proj h r with
  | none => Except.error Panic.invalidMemory
  | some xs =>
    match xs[i]? with
    | none => Except.error (Panic.indexOutOfRange i r.len)
    | some x => Except.ok x

/-- The assignment `s[i] = x` on a non-nil slice: the slot `off + i` of the
backing array is overwritten in place. -/
def assign {α : Type} (proj : Obj → Option (List α)) (inj : List α → Obj)
    (h : Heap) (r : SliceHdr) (i : Nat) (x : α) : Except Panic Heap :=
  match h[r.arr]? with
  | none => Except.error Panic.invalidMemory
  | some o =>
    match proj o with
    | none => Except.error Panic.invalidMemory
    | some slots =>
      if r.off + r.len ≤ slots.length then
        if i < r.len then Except.ok (h.set r.arr (inj (slots.set (r.off + i) x)))
        else Except.error (Panic.indexOutOfRange i r.len)
      else Except.error Panic.invalidMemory

/-- The builtin `make([]T, n)`: a new backing array of `n` zero values, and
the header of the slice over it. -/
def make {α : Type} (inj : List α → Obj) (n : Nat) (zero : α) (h : Heap) : Heap × SliceHdr :=
  (h ++ [inj (List.replicate n zero)], { arr := h.length, off := 0, len := n })

/-- The loop `for i := 0; i < len(clone); i++ { clone[i] = F(orig[i]) }`,
entered at index `i` with `k` iterations left. -/
def copyLoop {α : Type} (proj : Obj → Option (List α)) (inj : List α → Obj)
    (F : Heap → α → Except Panic (Heap × α)) (orig clone : SliceHdr) :
    Nat → Nat → Heap → Except Panic Heap
  | 0, _, h => Except.ok h
  | k + 1, i, h =>
    match index proj h orig i with
    | Except.error p => Except.error p
    | Except.ok x =>
      match F h x with
      | Except.error p => Except.error p
      | Except.ok (h1, y) =>
        match assign proj inj h1 clone i y with
        | Except.error p => Except.error p
        | Except.ok h2 => copyLoop proj inj F orig clone k (i + 1) h2

/-- The balance a pointer is: nil, or a pointer to a `big.Int` with its value;
`none` when the address holds no `big.Int`. -/
def loadBal (h : Heap) (p : Ptr) : Option Bal :=
  match p with
  | none => some none
  | some a =>
    match h[a]? with
    | some (Obj.bigInt v) => some (some v)
    | _ => none

/-- The expression `new(big.Int)`: a new `big.Int` of value zero. -/
def newBigInt (h : Heap) : Heap × Ptr :=
  (h ++ [Obj.bigInt 0], some h.length)

/-- The method `z.Set(x)` of `big.Int`: the value of `x` is stored in `z`, and
`z` is returned; a nil `x` or `z` is dereferenced. -/
def BigIntSet (h : Heap) (z x : Ptr) : Except Panic (Heap × Ptr) :=
  match loadBal h x with
  | none => Except.error Panic.invalidMemory
  | some none => Except.error Panic.nilDereference
  | some (some v) =>
    match z with
    | none => Except.error Panic.nilDereference
    | some a =>
      match h[a]? with
      | some (Obj.bigInt _) => Except.ok (h.set a (Obj.bigInt v), z)
      | _ => Except.error Panic.invalidMemory

/-- The expression `new(big.Int).Set(x)`. -/
def newBigIntSet (h : Heap) (x : Ptr) : Except Panic (Heap × Ptr) :=
  BigIntSet (newBigInt h).1 (newBigInt h).2 x

/-- The function `CloneBals`. -/
def CloneBals (h : Heap) (orig : SliceRef) : Except Panic (Heap × SliceRef) :=
  match orig with
  | none => Except.ok (h, none)
  | some r =>
    let clone := make Obj.bals r.len none h
    match copyLoop Obj.asBals Obj.bals newBigIntSet r clone.2 clone.2.len 0 clone.1 with
    | Except.error p => Except.error p
    | Except.ok h1 => Except.ok (h1, some clone.2)

/-- The first block of `Clone`: `clone.Assets`. An asset is copied as it is. -/
def cloneAssets (h : Heap) (orig : SliceRef) : Except Panic (Heap × SliceRef) :=
  match orig with
  | none => Except.ok (h, none)
  | some r =>
    let clone := make Obj.assets r.len 0 h
    match copyLoop Obj.asAssets Obj.assets (fun h1 x => Except.ok (h1, x)) r clone.2
        clone.2.len 0 clone.1 with
    | Except.error p => Except.error p
    | Except.ok h1 => Except.ok (h1, some clone.2)

/-- The second block of `Clone`: `clone.OfParts`. -/
def cloneOfParts (h : Heap) (orig : SliceRef) : Except Panic (Heap × SliceRef) :=
  match orig with
  | none => Except.ok (h, none)
  | some r =>
    let clone := make Obj.rows r.len none h
    match copyLoop Obj.asRows Obj.rows CloneBals r clone.2 clone.2.len 0 clone.1 with
    | Except.error p => Except.error p
    | Except.ok h1 => Except.ok (h1, some clone.2)

/-- The composite literal `SubAlloc{ID: l.ID, Bals: CloneBals(l.Bals)}`. -/
def cloneSubAlloc (h : Heap) (l : SubAlloc) : Except Panic (Heap × SubAlloc) :=
  match CloneBals h l.Bals with
  | Except.error p => Except.error p
  | Except.ok (h1, bals) => Except.ok (h1, { ID := l.ID, Bals := bals })

/-- The third block of `Clone`: `clone.Locked`. -/
def cloneLocked (h : Heap) (orig : SliceRef) : Except Panic (Heap × SliceRef) :=
  match orig with
  | none => Except.ok (h, none)
  | some r =>
    let clone := make Obj.subs r.len { ID := 0, Bals := none } h
    match copyLoop Obj.asSubs Obj.subs cloneSubAlloc r clone.2 clone.2.len 0 clone.1 with
    | Except.error p => Except.error p
    | Except.ok h1 => Except.ok (h1, some clone.2)

/-- The method `Allocation.Clone`: the heap after the call and the clone. -/
def Allocation.Clone (h : Heap) (orig : Allocation) : Except Panic (Heap × Allocation) :=
  match cloneAssets h orig.Assets with
  | Except.error p => Except.error p
  | Except.ok (h1, assets) =>
    match cloneOfParts h1 orig.OfParts with
    | Except.error p => Except.error p
    | Except.ok (h2, ofParts) =>
      match cloneLocked h2 orig.Locked with
      | Except.error p => Except.error p
      | Except.ok (h3, locked) =>
        Except.ok (h3, { Assets := assets, OfParts := ofParts, Locked := locked })

/-- The shape shared by `CloneBals` and the three blocks of `Clone`: nil for a
nil slice, and otherwise `make` followed by the copy loop. -/
def cloneSlice {α : Type} (proj : Obj → Option (List α)) (inj : List α → Obj) (zero : α)
    (F : Heap → α → Except Panic (Heap × α)) (h : Heap) (orig : SliceRef) :
    Except Panic (Heap × SliceRef) :=
  match orig with
  | none => Except.ok (h, none)
  | some r =>
    let clone := make inj r.len zero h
    match copyLoop proj inj F r clone.2 clone.2.len 0 clone.1 with
    | Except.error p => Except.error p
    | Except.ok h1 => Except.ok (h1, some clone.2)

/-! ### The value held in memory, and the objects it is held in -/

/-- The values of a list of elements, if every one of them has a value. -/
def loadAll {α β : Type} (f : α → Option β) : List α → Option (List β)
  | [] => some []
  | x :: xs =>
    match f x, loadAll f xs with
    | some v, some vs => some (v :: vs)
    | _, _ => none

/-- The value of a slice in memory, given the value of an element. -/
def loadSlice {α β : Type} (proj : Obj → Option (List α)) (loadElem : Heap → α → Option β)
    (h : Heap) (s : SliceRef) : Option (Slice β) :=
  match s with
  | none => some none
  | some r =>
    match window proj h r with
    | none => none
    | some xs =>
      match loadAll (loadElem h) xs with
      | none => none
      | some vs => some (some vs)

/-- The addresses of the objects that hold a slice: its backing array and the
objects that hold its elements. -/
def reachSlice {α : Type} (proj : Obj → Option (List α)) (reachElem : Heap → α → List Nat)
    (h : Heap) (s : SliceRef) : List Nat :=
  match s with
  | none => []
  | some r =>
    match window proj h r with
    | none => [r.arr]
    | some xs => r.arr :: xs.flatMap (reachElem h)

/-- The address of the `big.Int` a balance points to. -/
def reachBal (_h : Heap) (p : Ptr) : List Nat :=
  match p with
  | none => []
  | some a => [a]

/-- The value of a `[]Bal` in memory. -/
def loadBals (h : Heap) (s : SliceRef) : Option (Slice Bal) :=
  loadSlice Obj.asBals loadBal h s

/-- The objects that hold a `[]Bal`: its backing array and its `big.Int`s. -/
def reachBals (h : Heap) (s : SliceRef) : List Nat :=
  reachSlice Obj.asBals reachBal h s

/-- The value of a `SubAlloc` in memory. -/
def loadSubAlloc (h : Heap) (l : SubAlloc) : Option channel.SubAlloc :=
  match loadBals h l.Bals with
  | none => none
  | some bals => some { ID := l.ID, Bals := bals }

/-- The value of an `Allocation` in memory; `none` when an address holds no
object of the expected type. -/
def load (h : Heap) (a : Allocation) : Option channel.Allocation :=
  match loadSlice Obj.asAssets (fun _ x => some x) h a.Assets,
      loadSlice Obj.asRows loadBals h a.OfParts,
      loadSlice Obj.asSubs loadSubAlloc h a.Locked with
  | some assets, some ofParts, some locked =>
    some { Assets := assets, OfParts := ofParts, Locked := locked }
  | _, _, _ => none

/-- The addresses of the objects that hold an `Allocation`: the backing arrays
of `Assets`, `OfParts` and `Locked`, those of every balance vector, and every
`big.Int`. -/
def reach (h : Heap) (a : Allocation) : List Nat :=
  reachSlice Obj.asAssets (fun _ _ => []) h a.Assets
    ++ reachSlice Obj.asRows reachBals h a.OfParts
    ++ reachSlice Obj.asSubs (fun h1 l => reachBals h1 l.Bals) h a.Locked

/-- The heap `h1` extends `h`: every object of `h` is still at its address. -/
def Extends (h h1 : Heap) : Prop :=
  h.length ≤ h1.length ∧ ∀ a, a < h.length → h1[a]? = h[a]?

/-- The value `load` reads depends only on the objects `reach` lists, and
these exist. -/
structure Framed {α β : Type} (load : Heap → α → Option β) (reach : Heap → α → List Nat) :
    Prop where
  bound : ∀ h x v, load h x = some v → ∀ a ∈ reach h x, a < h.length
  frame : ∀ h h1 x v, load h x = some v → (∀ a ∈ reach h x, h1[a]? = h[a]?) →
    load h1 x = some v ∧ reach h1 x = reach h x

/-- The function `F` returns a copy of every element whose value is `good`
(holds no nil balance): the copy has the same value, the heap is extended, and
the copy is held in objects that did not exist before. -/
def Copies {α β : Type} (F : Heap → α → Except Panic (Heap × α))
    (load : Heap → α → Option β) (reach : Heap → α → List Nat) (good : β → Prop) : Prop :=
  ∀ h x v, load h x = some v → good v →
    ∃ h1 y, F h x = Except.ok (h1, y) ∧ Extends h h1 ∧ load h1 y = some v ∧
      ∀ a ∈ reach h1 y, h.length ≤ a

/-- The function `F` panics on every element whose value is not `good`. -/
def Fails {α β : Type} (F : Heap → α → Except Panic (Heap × α))
    (load : Heap → α → Option β) (good : β → Prop) : Prop :=
  ∀ h x v, load h x = some v → ¬ good v → ∃ p, F h x = Except.error p

/-- Every element of a slice value is `good`. -/
def sliceGood {β : Type} (good : β → Prop) (s : Slice β) : Prop :=
  ∀ v ∈ s.elems, good v

/-- The balance is not nil. -/
def balGood (b : Bal) : Prop :=
  b.isSome = true

/-- No balance of the sub-allocation is nil. -/
def subAllocGood (l : channel.SubAlloc) : Prop :=
  sliceGood balGood l.Bals

/-- Every value can be held in memory, on top of any heap. -/
def Storable {α β : Type} (load : Heap → α → Option β) : Prop :=
  ∀ (v : β) (h : Heap), ∃ h1 x, Extends h h1 ∧ load h1 x = some v

/-- A heap holding one allocation of two assets: two participant rows and one
locked sub-allocation whose balance vector lies inside the backing array of the
second row, so that balances are shared within the allocation. -/
def exampleHeap : Heap :=
  [Obj.assets [11, 12],
   Obj.bigInt 3, Obj.bigInt 4, Obj.bigInt 5,
   Obj.bals [some 1, some 2], Obj.bals [some 3, some 1, some 2],
   Obj.rows [some ⟨4, 0, 2⟩, some ⟨5, 0, 2⟩, none],
   Obj.subs [⟨9, some ⟨5, 1, 2⟩⟩]]

/-- The allocation held in `exampleHeap`. -/
def exampleOrig : Allocation :=
  { Assets := some ⟨0, 0, 2⟩, OfParts := some ⟨6, 0, 2⟩, Locked := some ⟨7, 0, 1⟩ }

/-- The value of `exampleOrig` in `exampleHeap`. -/
def exampleValue : channel.Allocation :=
  { Assets := some [11, 12], OfParts := some [balances [3, 4], balances [5, 3]],
    Locked := some [{ ID := 9, Bals := balances [3, 4] }] }

/-- A heap holding the allocation `nilBalance`: one asset, one participant
row, and in it a nil balance. -/
def nilHeap : Heap :=
  [Obj.assets [1], Obj.bals [none], Obj.rows [some ⟨1, 0, 1⟩]]

/-- The allocation held in `nilHeap`. -/
def nilOrig : Allocation :=
  { Assets := some ⟨0, 0, 1⟩, OfParts := some ⟨2, 0, 1⟩, Locked := none }

end mem

end channel

namespace msg

/-! ## Channel message types (`wire/msg/channelmsg.go`) -/

/-- An `io.Writer`: the bytes written so far and, when `room` is `some n`, the
number of bytes it still accepts before `Write` fails. -/
structure Writer where
  out : List Nat
  room : Option Nat
  deriving DecidableEq, Repr

/-- An `io.Reader`: the bytes still to be read. -/
abbrev Reader := List Nat

/-- The errors of the reader and of the writer. -/
inductive IOError where
  /-- `io.EOF`: nothing was left to read. -/
  | EOF
  /-- `io.ErrUnexpectedEOF`: the input ended inside the requested bytes. -/
  | ErrUnexpectedEOF
  /-- The writer did not take the bytes. -/
  | writeFailed
  deriving DecidableEq, Repr

/-- The method `Write` of an `io.Writer`. -/
def Writer.Write (w : Writer) (p : List Nat) : Except IOError Writer :=
  match w.room with
  | none => Except.ok { out := w.out ++ p, room := none }
  | some n =>
    if p.length ≤ n then Except.ok { out := w.out ++ p, room := some (n - p.length) }
    else Except.error IOError.writeFailed

/-- The function `io.ReadFull` for a buffer of `n` bytes: the bytes read and
the reader after them. -/
def ReadFull (reader : Reader) (n : Nat) : Except IOError (List Nat × Reader) :=
  if n ≤ reader.length then Except.ok (reader.take n, reader.drop n)
  else if reader.length = 0 then Except.error IOError.EOF
  else Except.error IOError.ErrUnexpectedEOF

/-- The type `ChannelMsgType`, a `uint8`. -/
abbrev ChannelMsgType := Nat

/-- The dummy channel message type, the first value of the enumeration. -/
def ChannelDummy : ChannelMsgType := 0

/-- The first invalid value of the enumeration. -/
def channelMsgTypeEnd : ChannelMsgType := 1

/-- The errors of `ChannelMsgType.Encode` and `ChannelMsgType.Decode`. -/
inductive TypeError where
  /-- "failed to write channel message type" around the writer error. -/
  | failedToWrite (cause : IOError)
  /-- "failed to read channel message type" around the reader error. -/
  | failedToRead (cause : IOError)
  /-- "invalid channel message type encoding: " followed by the type. -/
  | invalidEncoding (t : ChannelMsgType)
  deriving DecidableEq, Repr

/-- The method `ChannelMsgType.Valid`. -/
def ChannelMsgType.Valid (t : ChannelMsgType) : Bool :=
  decide (t < channelMsgTypeEnd)

/-- The method `ChannelMsgType.Encode`: the writer after the call, or the
error. -/
def ChannelMsgType.Encode (t : ChannelMsgType) (writer : Writer) : Except TypeError Writer :=
  match writer.Write [t % 256] with
  | Except.ok w => Except.ok w
  | Except.error err => Except.error (TypeError.failedToWrite err)

/-- The method `ChannelMsgType.Decode` on a receiver holding `t`: the receiver
and the reader after the call, and the error returned (`none` is `nil`). -/
def ChannelMsgType.Decode (t : ChannelMsgType) (reader : Reader) :
    ChannelMsgType × Reader × Option TypeError :=
  match ReadFull reader 1 with
  | Except.error err => (t, reader, some (TypeError.failedToRead err))
  | Except.ok (buf, rest) =>
    let t1 : ChannelMsgType := buf.getD 0 0 % 256
    if ¬ ChannelMsgType.Valid t1 then (t1, rest, some (TypeError.invalidEncoding t1))
    else (t1, rest, none)

/-! ### Channel messages

The array type `channel.ID` is declared outside these sources; its length in
bytes is the parameter `idLen` below, and an ID is identified with the number
its bytes spell, most significant byte first. The methods `encode` and `decode`
of a message body are those of the message types, declared outside these
sources as well; they are the parameter `codec`. -/

/-- The bytes `id[:]` of an ID of `n` bytes. -/
def idBytes : Nat → channel.ID → List Nat
  | 0, _ => []
  | n + 1, id => idBytes n (id / 256) ++ [id % 256]

/-- The ID held by an array of bytes. -/
def idOfBytes (bs : List Nat) : channel.ID :=
  bs.foldl (fun acc b => acc * 256 + b % 256) 0

/-- An error of the `encode` or `decode` method of a message body, opaque. -/
abbrev BodyError := Nat

/-- The methods `encode` and `decode` of a message body. -/
structure BodyCodec (Body : Type) where
  encode : Body → Writer → Except BodyError Writer
  decode : Reader → Except BodyError (Body × Reader)

/-- The Go struct `channelMsg`. -/
structure channelMsg where
  channelID : channel.ID
  deriving DecidableEq, Repr

/-- The method `channelMsg.ChannelID`. -/
def channelMsg.ChannelID (m : channelMsg) : channel.ID :=
  m.channelID

/-- A value of the interface `ChannelMsg`: what `Type()` returns (the field
`MsgType`, `Type` being reserved), the embedded `channelMsg`, and the body that
`encode` writes and `decode` reads. -/
structure ChannelMsg (Body : Type) where
  MsgType : ChannelMsgType
  channelMsg : channelMsg
  body : Body
  deriving DecidableEq, Repr

/-- The method `ChannelID` of a `ChannelMsg`, promoted from its `channelMsg`. -/
def ChannelMsg.ChannelID {Body : Type} (m : ChannelMsg Body) : channel.ID :=
  m.channelMsg.ChannelID

/-- The composite literal `&DummyChannelMsg{channelMsg: m}` once its body is
decoded. `DummyChannelMsg` is the message type whose `Type()` is
`ChannelDummy`, as the name table of `ChannelMsgType.String` has it. -/
def DummyChannelMsg {Body : Type} (m : channelMsg) (body : Body) : ChannelMsg Body :=
  { MsgType := ChannelDummy, channelMsg := m, body := body }

/-- The errors of `decodeChannelMsg`. -/
inductive DecodeError where
  /-- "failed to read the message type" around the error of `Decode`. -/
  | failedToReadType (cause : TypeError)
  /-- "failed to read the channel ID" around the reader error. -/
  | failedToReadChannelID (cause : IOError)
  /-- "failed to decode %v" with the type, around the error of the body. -/
  | failedToDecode (t : ChannelMsgType) (cause : BodyError)
  deriving DecidableEq, Repr

/-- The errors of `encodeChannelMsg`. -/
inductive EncodeError where
  /-- "failed to write the message type" around the error of `Encode`. -/
  | failedToWriteType (cause : TypeError)
  /-- "failed to write the channel id" around the writer error. -/
  | failedToWriteChannelID (cause : IOError)
  /-- "failed to write the message contents" around the error of the body. -/
  | failedToWriteContents (cause : BodyError)
  deriving DecidableEq, Repr

/-- The panic of `decodeChannelMsg`. -/
inductive Panic where
  /-- "decodeChannelMsg(): Unhandled channel message type: %v" -/
  | unhandledType (t : ChannelMsgType)
  deriving DecidableEq, Repr

/-- The function `decodeChannelMsg`: a panic, or the error or the message it
returns. -/
def decodeChannelMsg {Body : Type} (idLen : Nat) (codec : BodyCodec Body) (reader : Reader) :
    Except Panic (Except DecodeError (ChannelMsg Body)) :=
  match ChannelMsgType.Decode 0 reader with
  | (_, _, some err) => Except.ok (Except.error (DecodeError.failedToReadType err))
  | (t, reader1, none) =>
    match ReadFull reader1 idLen with
    | Except.error err => Except.ok (Except.error (DecodeError.failedToReadChannelID err))
    | Except.ok (buf, reader2) =>
      let m : channelMsg := { channelID := idOfBytes buf }
      if t = ChannelDummy then
        match codec.decode reader2 with
        | Except.error err => Except.ok (Except.error (DecodeError.failedToDecode t err))
        | Except.ok (body, _) => Except.ok (Except.ok (DummyChannelMsg m body))
      else Except.error (Panic.unhandledType t)

/-- The function `encodeChannelMsg`: the writer after the call, or the error. -/
def encodeChannelMsg {Body : Type} (idLen : Nat) (codec : BodyCodec Body) (m : ChannelMsg Body)
    (writer : Writer) : Except EncodeError Writer :=
  match ChannelMsgType.Encode m.MsgType writer with
  | Except.error err => Except.error (EncodeError.failedToWriteType err)
  | Except.ok writer1 =>
    match writer1.Write (idBytes idLen m.ChannelID) with
    | Except.error err => Except.error (EncodeError.failedToWriteChannelID err)
    | Except.ok writer2 =>
      match codec.encode m.body writer2 with
      | Except.error err => Except.error (EncodeError.failedToWriteContents err)
      | Except.ok writer3 => Except.ok writer3

/-- A body of one byte: `encode` writes it, `decode` reads it. -/
def byteCodec : BodyCodec Nat where
  encode := fun b w =>
    match w.Write [b % 256] with
    | Except.ok w1 => Except.ok w1
    | Except.error _ => Except.error 1
  decode := fun r =>
    match ReadFull r 1 with
    | Except.ok (buf, rest) => Except.ok (buf.getD 0 0, rest)
    | Except.error _ => Except.error 2

end msg

namespace ethtest

/-! ## Signature bytes (`backend/ethereum/channel/test/transactor.go`) -/

/-- The constant `elemLen` of `sigFromRSV`. -/
def elemLen : Nat := 32

/-- The constant `sigLen` of `sigFromRSV`. -/
def sigLen : Nat := elemLen * 2 + 1

/-- The constant `sigVAdd` of `sigFromRSV`. -/
def sigVAdd : Nat := 35

/-- The constant `sigVSubtract` of `sigFromRSV`. -/
def sigVSubtract : Nat := 27

/-- The bytes of a number, least significant first, without zero bytes at the
end; `fuel` bounds their number. -/
def bytesLE : Nat → Nat → List Nat
  | 0, _ => []
  | fuel + 1, n => if n = 0 then [] else n % 256 :: bytesLE fuel (n / 256)

/-- The method `Bytes` of `big.Int` on a non-negative number: its bytes, most
significant first, without leading zero bytes. -/
def Bytes (n : Nat) : List Nat :=
  (bytesLE n n).reverse

/-- The method `Uint64` of `big.Int` on a non-negative number: its low 64
bits. -/
def Uint64 (n : Nat) : Nat :=
  n % 2 ^ 64

/-- The result of an `int64` operation: the mathematical result wrapped into
the range of `int64`. -/
def wrapInt64 (x : Int) : Int :=
  (x + 2 ^ 63) % 2 ^ 64 - 2 ^ 63

/-- The conversion `byte(x)` of an `int64`: its low 8 bits. -/
def byteOfInt64 (x : Int) : Nat :=
  (x % 256).toNat

/-- The subtraction `a - b` of two bytes, modulo 256. -/
def subByte (a b : Nat) : Nat :=
  (a % 256 + 256 - b % 256) % 256

/-- The ways `sigFromRSV` can end without a signature. -/
inductive Failure where
  /-- A slice expression out of the bounds of `sig`. -/
  | sliceBounds
  /-- The index `sigLen-1` is not below `len(sig)`. -/
  | indexOutOfRange
  /-- The check `require.Contains(t, []byte{0, 1}, ...)` fails: "Invalid v". -/
  | invalidV (b : Nat)
  deriving DecidableEq, Repr

/-- The statement `copy(sig[hi-len(src):hi], src)`. -/
def copyRightAligned (sig : List Nat) (hi : Nat) (src : List Nat) : Except Failure (List Nat) :=
  if src.length ≤ hi ∧ hi ≤ sig.length then
    Except.ok (sig.take (hi - src.length) ++ src ++ sig.drop hi)
  else Except.error Failure.sliceBounds

/-- The function `sigFromRSV`, for non-negative `r`, `s` and `_v`. The constant
`wallet.SigLen` is declared outside these sources; it is the parameter
`SigLen`. -/
def sigFromRSV (SigLen : Nat) (r s _v : Nat) (chainID : Int) : Except Failure (List Nat) :=
  match copyRightAligned (List.replicate SigLen 0) elemLen (Bytes r) with
  | Except.error e => Except.error e
  | Except.ok sig1 =>
    match copyRightAligned sig1 (elemLen * 2) (Bytes s) with
    | Except.error e => Except.error e
    | Except.ok sig2 =>
      let v := Uint64 _v % 256
      let last :=
        if chainID = 0 then subByte v sigVSubtract
        else subByte v (byteOfInt64 (wrapInt64 (wrapInt64 (chainID * 2) + sigVAdd)))
      if sigLen - 1 < sig2.length then
        if last = 0 ∨ last = 1 then Except.ok (sig2.set (sigLen - 1) last)
        else Except.error (Failure.invalidV last)
      else Except.error Failure.indexOutOfRange

end ethtest

namespace ethchannel

/-! ## The ETH depositor (`backend/ethereum/channel/eth_depositor.go`) -/

/-- The constant `ETHDepositorGasLimit`. -/
def ETHDepositorGasLimit : Nat := 50000

/-- A transaction `*types.Transaction`, opaque; `none` is the nil pointer. -/
abbrev Transaction := Option Nat

/-- An error of the code `Deposit` calls, opaque. -/
abbrev ExternalError := Nat

/-- The errors `Deposit` returns. -/
inductive DepositError where
  /-- "binding AssetHolderETH contract at: %x" around the binding error. -/
  | bindingContract (cause : ExternalError)
  /-- "creating transactor for asset: %x" around the transactor error. -/
  | creatingTransactor (cause : ExternalError)
  /-- "AssetHolderETH depositing" around the checked error of the contract. -/
  | depositing (cause : ExternalError)
  deriving DecidableEq, Repr

/-- The Go struct `DepositReq`, declared outside these sources, with the fields
`Deposit` reads. -/
structure DepositReq where
  Balance : channel.Bal
  CB : Nat
  Account : Nat
  Asset : Nat
  FundingID : Nat
  deriving DecidableEq, Repr

/-- The transaction options `*bind.TransactOpts`: an opaque part and the field
`Value`. -/
structure TransactOpts where
  base : Nat
  Value : channel.Bal
  deriving DecidableEq, Repr

/-- What the code outside these sources returns to `Deposit`: the binding of
the contract, the creation of the transactor, the `Deposit` method of the
contract and the function `CheckIsChainNotReachableError`. -/
structure Backend where
  NewAssetHolderETH : Nat → Nat → Except ExternalError Nat
  NewTransactor : Nat → Nat → Nat → Except ExternalError TransactOpts
  contractDeposit : Nat → TransactOpts → Nat → channel.Bal → Transaction × Option ExternalError
  CheckIsChainNotReachableError : Option ExternalError → Option ExternalError

/-- The function `errors.WithMessage(err, "AssetHolderETH depositing")`: nil
for a nil error. -/
def withMessageDepositing (err : Option ExternalError) : Option DepositError :=
  match err with
  | none => none
  | some e => some (DepositError.depositing e)

/-- The method `ETHDepositor.Deposit`: the transactions and the error. -/
def Deposit (env : Backend) (req : DepositReq) :
    channel.Slice Transaction × Option DepositError :=
  match env.NewAssetHolderETH req.Asset req.CB with
  | Except.error err => (none, some (DepositError.bindingContract err))
  | Except.ok contract =>
    match env.NewTransactor req.CB ETHDepositorGasLimit req.Account with
    | Except.error err => (none, some (DepositError.creatingTransactor err))
    | Except.ok opts =>
      let opts1 : TransactOpts := { opts with Value := req.Balance }
      let r := env.contractDeposit contract opts1 req.FundingID req.Balance
      let err := env.CheckIsChainNotReachableError r.2
      (some [r.1], withMessageDepositing err)

/-- The method `ETHDepositor.NumTX`. -/
def NumTX : Nat := 1

/-- A backend on which every call succeeds. -/
def goodBackend : Backend where
  NewAssetHolderETH := fun asset _ => Except.ok asset
  NewTransactor := fun _ gas _ => Except.ok { base := gas, Value := none }
  contractDeposit := fun _ _ fid _ => (some fid, none)
  CheckIsChainNotReachableError := fun e => e

/-- A backend on which the contract cannot be bound. -/
def unboundBackend : Backend where
  NewAssetHolderETH := fun _ _ => Except.error 3
  NewTransactor := fun _ gas _ => Except.ok { base := gas, Value := none }
  contractDeposit := fun _ _ fid _ => (some fid, none)
  CheckIsChainNotReachableError := fun e => e

end ethchannel

namespace wire

/-! ## The envelope cache

The cache itself (`wire/cache.go`) is not among these sources; its test
`TestCache` is. -/

/-- A message of an envelope, as far as `TestCache` looks at it: a ping or a
pong with its time of creation. -/
inductive Msg where
  | Ping (created : Nat)
  | Pong (created : Nat)
  deriving DecidableEq, Repr

/-- An envelope `*Envelope`: the address of the envelope object and what it
holds. -/
structure Envelope where
  addr : Nat
  Sender : Nat
  Recipient : Nat
  Msg : Msg
  deriving DecidableEq, Repr

/-- A predicate on envelopes. -/
abbrev Predicate := Envelope → Bool

/-- Modelled from the spec: the envelope cache, which `wire/cache.go` declares
outside these sources. It holds the cached envelopes in the order they were
put, and the registered predicates, each under the handle (`&isPing` in
`TestCache`) it was registered with. -/
structure Cache where
  msgs : List Envelope
  preds : List (Nat × Predicate)

/-- Modelled from the spec: `MakeCache`, missing from these sources, makes an
empty cache without predicates. -/
def MakeCache : Cache :=
  { msgs := [], preds := [] }

/-- Modelled from the spec: `Size`, missing from these sources, is the number of
cached envelopes. -/
def Cache.Size (c : Cache) : Nat :=
  c.msgs.length

/-- Modelled from the spec: `Release(predicate-handle)`, missing from these
sources, unregisters the predicate; cached envelopes stay. -/
def Cache.Release (c : Cache) (handle : Nat) : Cache :=
  { c with preds := c.preds.filter (fun q => q.1 ≠ handle) }

/-- Modelled from the spec: `Put`, missing from these sources, is accepted
exactly when at least one registered predicate matches, and the envelope is
then retained; with no matching predicate it is a no-op. -/
def Cache.Put (c : Cache) (e : Envelope) : Cache × Bool :=
  if c.preds.any (fun q => q.2 e) then ({ c with msgs := c.msgs ++ [e] }, true)
  else (c, false)

/-- Modelled from the spec: `Messages` (drain), missing from these sources,
returns the cached envelopes that match the filter and removes them from the
cache. -/
def Cache.Messages (c : Cache) (f : Predicate) : Cache × List Envelope :=
  ({ c with msgs := c.msgs.filter (fun e => ! f e) }, c.msgs.filter f)

/-- Modelled from the spec: `Flush`, missing from these sources, clears all
cached envelopes and predicates. -/
def Cache.Flush (_c : Cache) : Cache :=
  { msgs := [], preds := [] }

set_option linter.dupNamespace false in
/-- Modelled from the spec: `Cache(predicate-handle)`, missing from these
sources, registers interest in the envelopes the predicate matches. -/
def Cache.Cache (c : wire.Cache) (handle : Nat) (p : Predicate) : wire.Cache :=
  { c with preds := c.preds ++ [(handle, p)] }

/-- The predicate `isPing` of `TestCache`. -/
def isPing : Predicate := fun e =>
  match e.Msg with
  | Msg.Ping _ => true
  | Msg.Pong _ => false

/-- The envelope `ping0` of `TestCache`. -/
def ping0 : Envelope := { addr := 1, Sender := 10, Recipient := 11, Msg := Msg.Ping 100 }

/-- The envelope `pong` of `TestCache`. -/
def pong : Envelope := { addr := 2, Sender := 12, Recipient := 13, Msg := Msg.Pong 101 }

/-- The envelope `ping1` of `TestCache`. -/
def ping1 : Envelope := { addr := 3, Sender := 14, Recipient := 15, Msg := Msg.Ping 102 }

/-- The envelope `ping2` of `TestCache`. -/
def ping2 : Envelope := { addr := 4, Sender := 16, Recipient := 17, Msg := Msg.Ping 103 }

/-- The second filter of `TestCache`: a ping created when `ping0` was. -/
def isPing0 : Predicate := fun e =>
  match e.Msg, ping0.Msg with
  | Msg.Ping t, Msg.Ping t0 => decide (t = t0)
  | _, _ => false

/-- The cache of `TestCache` after `c.Cache(&isPing)` and the three `Put`
that follow; `7` stands for the address `&isPing`. -/
def testCache : Cache :=
  ((((MakeCache.Cache 7 isPing).Put ping0).1.Put pong).1.Put ping1).1

end wire

namespace disputetest

/-! ## The dispute test (`backend/ethereum/client/dispute_test.go`) -/

/-- The configuration of `TestDisputeMalloryCarol`, as far as the expected
balances read it: the initial balances given to `MakeBaseExecConfig`, which
`InitBals()` returns (both declared outside these sources), `NumPayments` and
`TxAmounts`. The balances and amounts are the values of the `big.Int`s, which
the test makes with `big.NewInt`. -/
structure MalloryCarolExecConfig where
  initBals : Int × Int
  NumPayments : Int × Int
  TxAmounts : Int × Int
  deriving DecidableEq, Repr

/-- The method `InitBals` of the configuration. -/
def MalloryCarolExecConfig.InitBals (c : MalloryCarolExecConfig) : Int × Int :=
  c.initBals

/-- The configuration `execConfig` of `TestDisputeMalloryCarol`. -/
def execConfig : MalloryCarolExecConfig :=
  { initBals := (100, 1), NumPayments := (5, 0), TxAmounts := (20, 0) }

/-- The value `netTransfer` of `TestDisputeMalloryCarol`, computed in
`int64`. -/
def netTransfer (c : MalloryCarolExecConfig) : Int :=
  ethtest.wrapInt64
    (ethtest.wrapInt64 (ethtest.wrapInt64 c.NumPayments.1 * ethtest.wrapInt64 c.TxAmounts.1)
      - ethtest.wrapInt64 (ethtest.wrapInt64 c.NumPayments.2 * ethtest.wrapInt64 c.TxAmounts.2))

/-- The array `finalBal` of `TestDisputeMalloryCarol`: the balances the test
expects on chain. -/
def finalBal (c : MalloryCarolExecConfig) : Int × Int :=
  (c.InitBals.1 - netTransfer c, c.InitBals.2 + netTransfer c)

end disputetest

namespace wirenettest

/-! ## The test connection (`wire/net/test/pipeconn.go`) -/

/-- The Go struct `TestConn`: the address of its `atomic.Bool` and its
underlying connection. -/
structure TestConn where
  closed : Nat
  conn : Nat
  deriving DecidableEq, Repr

/-- The state the connections live in: the value of every `atomic.Bool`, the
number of connections made, and the underlying connections on which `Close`
was called, in the order of the calls. -/
structure World where
  flags : List Bool
  conns : Nat
  closeCalls : List Nat
  deriving DecidableEq, Repr

/-- An error of an underlying connection, opaque. -/
abbrev ConnError := Nat

/-- The errors of a `TestConn`. -/
inductive Error where
  /-- "already closed" -/
  | alreadyClosed
  /-- The error of the underlying connection. -/
  | conn (err : ConnError)
  deriving DecidableEq, Repr

/-- The method `TrySet` of `atomic.Bool`, declared outside these sources: it
sets the flag and tells whether this call set it. -/
def TrySet (w : World) (flag : Nat) : World × Bool :=
  match w.flags[flag]? with
  | some false => ({ w with flags := w.flags.set flag true }, true)
  | _ => (w, false)

/-- The method `IsSet` of `atomic.Bool`, declared outside these sources. -/
def IsSet (w : World) (flag : Nat) : Bool :=
  match w.flags[flag]? with
  | some b => b
  | none => false

/-- The method `Close` of the underlying connection: the call is recorded, and
the connection returns `res`. -/
def connClose (w : World) (conn : Nat) (res : Option ConnError) : World × Option Error :=
  ({ w with closeCalls := w.closeCalls ++ [conn] }, res.map Error.conn)

/-- The method `TestConn.Close`, where the underlying `Close` returns `res`. -/
def TestConn.Close (c : TestConn) (res : Option ConnError) (w : World) : World × Option Error :=
  match TrySet w c.closed with
  | (w1, false) => (w1, some Error.alreadyClosed)
  | (w1, true) => connClose w1 c.conn res

/-- The method `TestConn.Send`, where the underlying `Send` returns `sendRes`
and the underlying `Close`, if called, returns `res`. -/
def TestConn.Send (c : TestConn) (sendRes res : Option ConnError) (w : World) :
    World × Option Error :=
  match sendRes with
  | some err => ((c.Close res w).1, some (Error.conn err))
  | none => (w, none)

/-- The method `TestConn.Recv`, where the underlying `Recv` returns `recvRes`
and the underlying `Close`, if called, returns `res`. -/
def TestConn.Recv (c : TestConn) (recvRes res : Option ConnError) (w : World) :
    World × Option Error :=
  match recvRes with
  | some err => ((c.Close res w).1, some (Error.conn err))
  | none => (w, none)

/-- The method `TestConn.IsClosed`. -/
def TestConn.IsClosed (c : TestConn) (w : World) : Bool :=
  IsSet w c.closed

/-- The function `NewTestConnPair`: a new `atomic.Bool`, the two ends of a new
pipe, and the two endpoints over them. -/
def NewTestConnPair (w : World) : World × TestConn × TestConn :=
  ({ w with flags := w.flags ++ [false], conns := w.conns + 2 },
   { closed := w.flags.length, conn := w.conns },
   { closed := w.flags.length, conn := w.conns + 1 })

/-- A call on an endpoint of a pair, with what the underlying connection
returns to it: `first` tells whether the call is on the first endpoint. -/
inductive Call where
  | Close (first : Bool) (res : Option ConnError)
  | Send (first : Bool) (sendRes res : Option ConnError)
  | Recv (first : Bool) (recvRes res : Option ConnError)
  deriving DecidableEq, Repr

/-- The state after a call on an endpoint of the pair `(a, b)`. -/
def Call.run (a b : TestConn) (w : World) : Call → World
  | Call.Close first res => ((if first then a else b).Close res w).1
  | Call.Send first sendRes res => ((if first then a else b).Send sendRes res w).1
  | Call.Recv first recvRes res => ((if first then a else b).Recv recvRes res w).1

/-- The state after a sequence of calls on the endpoints of the pair. -/
def runCalls (a b : TestConn) (w : World) (calls : List Call) : World :=
  calls.foldl (Call.run a b) w

end wirenettest

namespace channel

/-! ## Theorems: `valid` -/

theorem validParts_eq_none_iff (n : Nat) (rows : List (Slice Bal)) (i : Nat) :
    validParts n i rows = none ↔ ∀ pa ∈ rows, pa.len = n := by
  induction rows generalizing i with
  | nil => simp [validParts]
  | cons pa rest ih =>
    by_cases h : pa.len = n
    · simp [validParts, h, ih]
    · simp [validParts, h]

theorem validLocked_eq_none_iff (n : Nat) (ls : List SubAlloc) :
    validLocked n ls = none ↔ ∀ l ∈ ls, l.Bals.len = n := by
  induction ls with
  | nil => simp [validLocked]
  | cons l rest ih =>
    by_cases h : l.Bals.len = n
    · simp [validLocked, h, ih]
    · simp [validLocked, h]

theorem valid_none_iff_dims (a : Allocation) :
    a.valid = none ↔
      0 < a.Assets.len ∧ 0 < a.OfParts.len ∧
      (∀ pa ∈ a.OfParts.elems, pa.len = a.Assets.len) ∧
      (∀ l ∈ a.Locked.elems, l.Bals.len = a.Assets.len) := by
  unfold Allocation.valid
  by_cases h0 : a.Assets.len = 0 ∨ a.OfParts.len = 0
  · rw [if_pos h0]
    constructor
    · intro h; cases h
    · rintro ⟨h1, h2, -, -⟩; omega
  · rw [if_neg h0]
    have h1 : 0 < a.Assets.len ∧ 0 < a.OfParts.len := by omega
    cases hp : validParts a.Assets.len 0 a.OfParts.elems with
    | some err =>
      have hne : ¬ validParts a.Assets.len 0 a.OfParts.elems = none := by simp [hp]
      rw [validParts_eq_none_iff] at hne
      constructor
      · intro h; cases h
      · rintro ⟨-, -, h3, -⟩; exact absurd h3 hne
    | none =>
      rw [validParts_eq_none_iff] at hp
      simp only [validLocked_eq_none_iff]
      exact ⟨fun h => ⟨h1.1, h1.2, hp, h⟩, fun h => h.2.2.2⟩

/-- C1: `valid` returns nil exactly when `Assets` and `OfParts` are non-empty,
every row of `OfParts` has length `len(Assets)` and every entry of `Locked` has
a `Bals` vector of length `len(Assets)`; with an empty or nil `Locked` the last
condition is void. -/
theorem valid_eq_none_iff (a : Allocation) :
    (a.valid = none ↔
      0 < a.Assets.len ∧ 0 < a.OfParts.len ∧
      (∀ pa ∈ a.OfParts.elems, pa.len = a.Assets.len) ∧
      (∀ l ∈ a.Locked.elems, l.Bals.len = a.Assets.len)) ∧
    (a.Locked.len = 0 →
      (a.valid = none ↔
        0 < a.Assets.len ∧ 0 < a.OfParts.len ∧
        (∀ pa ∈ a.OfParts.elems, pa.len = a.Assets.len))) := by
  refine ⟨valid_none_iff_dims a, fun hl => ?_⟩
  rw [valid_none_iff_dims]
  have he : a.Locked.elems = [] := by
    cases hL : a.Locked with
    | none => rfl
    | some xs =>
      rw [hL] at hl
      simp only [Slice.len, List.length_eq_zero] at hl
      simp [Slice.elems, hl]
  simp [he]

/-- Instance of C1 with a nil and with an empty `Locked`. -/
theorem valid_eq_none_iff_witness :
    (Allocation.mk (some [1, 2]) (some [balances [3, 4], balances [5, 6]]) none).valid = none ∧
    (Allocation.mk (some [1, 2]) (some [balances [3, 4], balances [5, 6]]) (some [])).valid
      = none :=
  ⟨((valid_eq_none_iff _).2 (by decide)).2 (by decide),
   ((valid_eq_none_iff _).2 (by decide)).2 (by decide)⟩

/-! ## Theorems: `Sum` -/

theorem nonNil_iff (a : Allocation) :
    a.nonNil = true ↔
      (∀ pa ∈ a.OfParts.elems, ∀ b ∈ pa.elems, b.isSome = true) ∧
      (∀ l ∈ a.Locked.elems, ∀ b ∈ l.Bals.elems, b.isSome = true) := by
  simp [Allocation.nonNil, List.all_eq_true]

theorem addAt_append (pre t : List Int) (x v : Int) :
    addAt (pre ++ x :: t) pre.length (some v) = Except.ok (pre ++ (x + v) :: t) := by
  have h : (pre ++ x :: t)[pre.length]? = some x := by
    rw [List.getElem?_append_right (Nat.le_refl _)]
    simp
  unfold addAt
  rw [h]
  simp

theorem addBals_append (bals : List Bal) :
    ∀ (pre t : List Int), bals.length ≤ t.length → (∀ b ∈ bals, b.isSome = true) →
      addBals (pre ++ t) pre.length bals
        = Except.ok (pre ++ (List.zipWith (fun x b => x + balValue b) t bals
            ++ t.drop bals.length)) := by
  induction bals with
  | nil => intro pre t _ _; simp [addBals]
  | cons b rest ih =>
    intro pre t ht hnn
    cases t with
    | nil => simp at ht
    | cons x t1 =>
      cases b with
      | none =>
        have := hnn none (List.mem_cons_self _ _)
        simp at this
      | some v =>
        have hlen : rest.length ≤ t1.length := by simpa using ht
        have h := ih (pre ++ [x + v]) t1 hlen (fun c hc => hnn c (List.mem_cons_of_mem _ hc))
        simp only [List.append_assoc, List.singleton_append, List.length_append,
          List.length_singleton] at h
        simp [addBals, addAt_append, h, balValue]

theorem addBals_zero (totals : List Int) (bals : List Bal) (h : bals.length = totals.length)
    (hnn : ∀ b ∈ bals, b.isSome = true) :
    addBals totals 0 bals = Except.ok (List.zipWith (fun x b => x + balValue b) totals bals) := by
  have := addBals_append bals [] totals (by omega) hnn
  simpa [h] using this

theorem Slice.len_eq_length_elems {α : Type} (s : Slice α) : s.len = s.elems.length := by
  cases s <;> rfl

theorem zipWith_add_getD (t : List Int) :
    ∀ (r : List Bal) (i : Nat), r.length = t.length →
      (List.zipWith (fun x b => x + balValue b) t r).getD i 0
        = t.getD i 0 + balValue (r.getD i none) := by
  induction t with
  | nil => intro r i h; simp [List.length_eq_zero.mp h, balValue]
  | cons x t1 ih =>
    intro r i h
    cases r with
    | nil => simp at h
    | cons y r1 =>
      cases i with
      | zero => simp
      | succ j => simpa using ih r1 j (by simpa using h)

theorem addParts_ok (rows : List (Slice Bal)) :
    ∀ totals : List Int, (∀ pa ∈ rows, pa.len = totals.length) →
      (∀ pa ∈ rows, ∀ b ∈ pa.elems, b.isSome = true) →
      ∃ res, addParts totals rows = Except.ok res ∧ res.length = totals.length ∧
        ∀ i, res.getD i 0
          = totals.getD i 0 + (rows.map (fun pa => balValue (pa.elems.getD i none))).sum := by
  induction rows with
  | nil => intro totals _ _; exact ⟨totals, rfl, rfl, by simp⟩
  | cons pa rest ih =>
    intro totals h hnn
    have hpa : pa.elems.length = totals.length := by
      rw [← Slice.len_eq_length_elems]; exact h pa (List.mem_cons_self _ _)
    have hlen : (List.zipWith (fun x b => x + balValue b) totals pa.elems).length
        = totals.length := by
      simp [hpa]
    obtain ⟨res, hres, hl, hv⟩ := ih (List.zipWith (fun x b => x + balValue b) totals pa.elems)
      (by intro q hq; rw [hlen]; exact h q (List.mem_cons_of_mem _ hq))
      (fun q hq => hnn q (List.mem_cons_of_mem _ hq))
    refine ⟨res, ?_, by rw [hl, hlen], ?_⟩
    · simp [addParts, addBals_zero totals pa.elems hpa (hnn pa (List.mem_cons_self _ _)), hres]
    · intro i
      rw [hv i, zipWith_add_getD totals pa.elems i hpa]
      simp [add_assoc]

theorem addLocked_ok (ls : List SubAlloc) :
    ∀ totals : List Int, (∀ l ∈ ls, l.Bals.len = totals.length) →
      (∀ l ∈ ls, ∀ b ∈ l.Bals.elems, b.isSome = true) →
      ∃ res, addLocked totals ls = Except.ok res ∧ res.length = totals.length ∧
        ∀ i, res.getD i 0
          = totals.getD i 0 + (ls.map (fun l => balValue (l.Bals.elems.getD i none))).sum := by
  induction ls with
  | nil => intro totals _ _; exact ⟨totals, rfl, rfl, by simp⟩
  | cons l rest ih =>
    intro totals h hnn
    have hpa : l.Bals.elems.length = totals.length := by
      rw [← Slice.len_eq_length_elems]; exact h l (List.mem_cons_self _ _)
    have hlen : (List.zipWith (fun x b => x + balValue b) totals l.Bals.elems).length
        = totals.length := by
      simp [hpa]
    obtain ⟨res, hres, hl, hv⟩ := ih
      (List.zipWith (fun x b => x + balValue b) totals l.Bals.elems)
      (by intro q hq; rw [hlen]; exact h q (List.mem_cons_of_mem _ hq))
      (fun q hq => hnn q (List.mem_cons_of_mem _ hq))
    refine ⟨res, ?_, by rw [hl, hlen], ?_⟩
    · simp [addLocked, addBals_zero totals l.Bals.elems hpa (hnn l (List.mem_cons_self _ _)),
        hres]
    · intro i
      rw [hv i, zipWith_add_getD totals l.Bals.elems i hpa]
      simp [add_assoc]

/-- For a valid allocation without nil balance `Sum` returns, and what it
returns is the list of the column totals. -/
theorem Sum_of_valid (a : Allocation) (hv : a.valid = none) (hn : a.nonNil = true) :
    ∃ totals, a.Sum = Except.ok totals ∧ totals.length = a.Assets.len ∧
      ∀ i, totals.getD i 0 = columnTotal a i := by
  obtain ⟨-, -, hp, hl⟩ := (valid_none_iff_dims a).mp hv
  obtain ⟨n1, n2⟩ := (nonNil_iff a).mp hn
  obtain ⟨t1, ht1, hl1, hv1⟩ := addParts_ok a.OfParts.elems (List.replicate a.Assets.len 0)
    (by simpa using hp) n1
  obtain ⟨t2, ht2, hl2, hv2⟩ := addLocked_ok a.Locked.elems t1 (by
    intro l hmem; rw [hl1]; simpa using hl l hmem) n2
  refine ⟨t2, ?_, by rw [hl2, hl1]; simp, ?_⟩
  · simp [Allocation.Sum, hv, ht1, ht2]
  · intro i
    have h0 : (List.replicate a.Assets.len (0 : Int)).getD i 0 = 0 := by
      simp [List.getD_eq_getElem?_getD, List.getElem?_replicate]
      split <;> rfl
    rw [hv2 i, hv1 i, h0]
    simp [columnTotal]

theorem getElem?_of_getD {l : List Int} {i : Nat} (h : i < l.length) :
    l[i]? = some (l.getD i 0) := by
  simp [List.getD_eq_getElem?_getD, List.getElem?_eq_getElem h]

/-- The claim C2 as stated fails: the allocation `nilBalance` passes `valid`,
and `Sum` panics on it, dereferencing the nil balance. -/
theorem Sum_panics_on_nilBalance :
    nilBalance.valid = none ∧ nilBalance.Sum = Except.error Panic.nilDereference ∧
    ¬ ∃ totals, nilBalance.Sum = Except.ok totals := by
  refine ⟨by decide, by decide, ?_⟩
  rintro ⟨totals, h⟩
  have e : nilBalance.Sum = Except.error Panic.nilDereference := by decide
  rw [e] at h
  cases h

/-- C2, amended: for an allocation that passes `valid` and holds no nil
balance, `Sum` returns a vector of length `len(Assets)` whose `i`-th entry is
the sum of `OfParts[p][i]` over all participants plus the sum of
`Locked[l].Bals[i]` over all locked sub-allocations, which is the participant
sum alone when `Locked` is empty. -/
theorem Sum_eq_columnTotal (a : Allocation) (hv : a.valid = none) (hn : a.nonNil = true) :
    ∃ totals, a.Sum = Except.ok totals ∧ totals.length = a.Assets.len ∧
      (∀ i, i < a.Assets.len → totals[i]? = some
        ((a.OfParts.elems.map (fun pa => balValue (pa.elems.getD i none))).sum
          + (a.Locked.elems.map (fun l => balValue (l.Bals.elems.getD i none))).sum)) ∧
      (a.Locked.len = 0 → ∀ i, i < a.Assets.len → totals[i]? = some
        ((a.OfParts.elems.map (fun pa => balValue (pa.elems.getD i none))).sum)) := by
  obtain ⟨totals, hs, hl, hc⟩ := Sum_of_valid a hv hn
  refine ⟨totals, hs, hl, ?_, ?_⟩
  · intro i hi
    rw [getElem?_of_getD (by omega), hc i]
    rfl
  · intro h0 i hi
    have he : a.Locked.elems = [] := by
      rw [Slice.len_eq_length_elems] at h0
      exact List.length_eq_zero.mp h0
    rw [getElem?_of_getD (by omega), hc i]
    simp [columnTotal, he]

/-- Instance of C2: two participants, one locked sub-allocation, two assets. -/
theorem Sum_eq_columnTotal_witness :
    ∃ totals,
      (Allocation.mk (some [1, 2]) (some [balances [3, 4], balances [5, 6]])
        (some [⟨9, balances [10, 20]⟩])).Sum = Except.ok totals ∧ totals.length = 2 :=
  let ⟨t, h1, h2, _⟩ := Sum_eq_columnTotal
    (Allocation.mk (some [1, 2]) (some [balances [3, 4], balances [5, 6]])
      (some [⟨9, balances [10, 20]⟩])) (by decide) (by decide)
  ⟨t, h1, h2⟩

theorem validParts_first_bad (n : Nat) (rows : List (Slice Bal)) :
    ∀ (s i : Nat) (pa : Slice Bal), rows[i]? = some pa → pa.len ≠ n →
      (∀ j, j < i → ∀ pb, rows[j]? = some pb → pb.len = n) →
      validParts n s rows = some (Error.participantDim (s + i)) := by
  induction rows with
  | nil => intro s i pa h; simp at h
  | cons r rest ih =>
    intro s i pa h hbad hgood
    cases i with
    | zero =>
      simp only [List.getElem?_cons_zero, Option.some.injEq] at h
      subst h
      simp [validParts, hbad]
    | succ k =>
      have hr : r.len = n := hgood 0 (Nat.succ_pos k) r (by simp)
      have := ih (s + 1) k pa (by simpa using h) hbad (by
        intro j hj pb hpb
        exact hgood (j + 1) (by omega) pb (by simpa using hpb))
      simp only [validParts, hr, ne_eq, not_true_eq_false, if_false, this]
      congr 2
      omega

theorem validLocked_first_bad (n : Nat) (ls : List SubAlloc) :
    ∀ (i : Nat) (l : SubAlloc), ls[i]? = some l → l.Bals.len ≠ n →
      (∀ j, j < i → ∀ m, ls[j]? = some m → m.Bals.len = n) →
      validLocked n ls = some (Error.lockedDim l.ID) := by
  induction ls with
  | nil => intro i l h; simp at h
  | cons r rest ih =>
    intro i l h hbad hgood
    cases i with
    | zero =>
      simp only [List.getElem?_cons_zero, Option.some.injEq] at h
      subst h
      simp [validLocked, hbad]
    | succ k =>
      have hr : r.Bals.len = n := hgood 0 (Nat.succ_pos k) r (by simp)
      have := ih k l (by simpa using h) hbad (by
        intro j hj m hm
        exact hgood (j + 1) (by omega) m (by simpa using hm))
      simp only [validLocked, hr, ne_eq, not_true_eq_false, if_false, this]

theorem addAt_nil_fails (totals : List Int) (i : Nat) :
    ∃ p, addAt totals i none = Except.error p := by
  unfold addAt
  cases totals[i]? <;> exact ⟨_, rfl⟩

theorem addBals_nil_fails (bals : List Bal) :
    ∀ (totals : List Int) (i : Nat), none ∈ bals →
      ∃ p, addBals totals i bals = Except.error p := by
  induction bals with
  | nil => intro _ _ h; simp at h
  | cons b rest ih =>
    intro totals i hmem
    cases h : addAt totals i b with
    | error p => exact ⟨p, by simp [addBals, h]⟩
    | ok t1 =>
      have hr : none ∈ rest := by
        rcases List.mem_cons.mp hmem with e | e
        · subst e
          obtain ⟨p, hp⟩ := addAt_nil_fails totals i
          rw [hp] at h
          cases h
        · exact e
      obtain ⟨p, hp⟩ := ih t1 (i + 1) hr
      exact ⟨p, by simp [addBals, h, hp]⟩

theorem addParts_nil_fails (rows : List (Slice Bal)) :
    ∀ totals : List Int, (∃ pa ∈ rows, none ∈ pa.elems) →
      ∃ p, addParts totals rows = Except.error p := by
  induction rows with
  | nil => intro _ h; simp at h
  | cons r rest ih =>
    intro totals hbad
    cases h : addBals totals 0 r.elems with
    | error p => exact ⟨p, by simp [addParts, h]⟩
    | ok t1 =>
      have hr : ∃ pa ∈ rest, none ∈ pa.elems := by
        obtain ⟨pa, hmem, hn⟩ := hbad
        rcases List.mem_cons.mp hmem with e | e
        · subst e
          obtain ⟨p, hp⟩ := addBals_nil_fails pa.elems totals 0 hn
          rw [hp] at h
          cases h
        · exact ⟨pa, e, hn⟩
      obtain ⟨p, hp⟩ := ih t1 hr
      exact ⟨p, by simp [addParts, h, hp]⟩

theorem addLocked_nil_fails (ls : List SubAlloc) :
    ∀ totals : List Int, (∃ l ∈ ls, none ∈ l.Bals.elems) →
      ∃ p, addLocked totals ls = Except.error p := by
  induction ls with
  | nil => intro _ h; simp at h
  | cons r rest ih =>
    intro totals hbad
    cases h : addBals totals 0 r.Bals.elems with
    | error p => exact ⟨p, by simp [addLocked, h]⟩
    | ok t1 =>
      have hr : ∃ l ∈ rest, none ∈ l.Bals.elems := by
        obtain ⟨l, hmem, hn⟩ := hbad
        rcases List.mem_cons.mp hmem with e | e
        · subst e
          obtain ⟨p, hp⟩ := addBals_nil_fails l.Bals.elems totals 0 hn
          rw [hp] at h
          cases h
        · exact ⟨l, e, hn⟩
      obtain ⟨p, hp⟩ := ih t1 hr
      exact ⟨p, by simp [addLocked, h, hp]⟩

theorem nonNil_eq_false (a : Allocation) (h : a.nonNil = false) :
    (∃ pa ∈ a.OfParts.elems, none ∈ pa.elems) ∨ (∃ l ∈ a.Locked.elems, none ∈ l.Bals.elems) := by
  by_contra hc
  have hc1 := not_or.mp hc
  have : a.nonNil = true := by
    rw [nonNil_iff]
    constructor
    · intro pa hpa b hb
      cases b with
      | none => exact absurd ⟨pa, hpa, hb⟩ hc1.1
      | some v => rfl
    · intro l hl b hb
      cases b with
      | none => exact absurd ⟨l, hl, hb⟩ hc1.2
      | some v => rfl
  rw [this] at h
  cases h

/-- On an allocation that holds a nil balance `Sum` panics. -/
theorem Sum_nil_fails (a : Allocation) (h : a.nonNil = false) :
    ∃ p, a.Sum = Except.error p := by
  cases hv : a.valid with
  | some err => exact ⟨Panic.logPanic err, by simp [Allocation.Sum, hv]⟩
  | none =>
    cases hp : addParts (List.replicate a.Assets.len 0) a.OfParts.elems with
    | error p => exact ⟨p, by simp [Allocation.Sum, hv, hp]⟩
    | ok t1 =>
      rcases nonNil_eq_false a h with hbad | hbad
      · obtain ⟨p, hq⟩ := addParts_nil_fails a.OfParts.elems (List.replicate a.Assets.len 0) hbad
        rw [hq] at hp
        cases hp
      · obtain ⟨p, hq⟩ := addLocked_nil_fails a.Locked.elems t1 hbad
        exact ⟨p, by simp [Allocation.Sum, hv, hp, hq]⟩

theorem addAt_append_nil (pre t : List Int) (x : Int) :
    addAt (pre ++ x :: t) pre.length none = Except.error Panic.nilDereference := by
  have h : (pre ++ x :: t)[pre.length]? = some x := by
    rw [List.getElem?_append_right (Nat.le_refl _)]
    simp
  unfold addAt
  rw [h]

theorem addBals_ok_or_nil (bals : List Bal) :
    ∀ (pre t : List Int), bals.length ≤ t.length →
      (∃ r, addBals (pre ++ t) pre.length bals = Except.ok r ∧
        r.length = pre.length + t.length) ∨
      addBals (pre ++ t) pre.length bals = Except.error Panic.nilDereference := by
  induction bals with
  | nil => intro pre t _; exact Or.inl ⟨pre ++ t, rfl, by simp⟩
  | cons b rest ih =>
    intro pre t ht
    cases t with
    | nil => simp at ht
    | cons x t1 =>
      cases b with
      | none => exact Or.inr (by simp [addBals, addAt_append_nil])
      | some v =>
        have hlen : rest.length ≤ t1.length := by simpa using ht
        have h := ih (pre ++ [x + v]) t1 hlen
        simp only [List.append_assoc, List.singleton_append, List.length_append,
          List.length_singleton] at h
        rcases h with ⟨r, hr, hl⟩ | hr
        · exact Or.inl ⟨r, by simp [addBals, addAt_append, hr], by
            rw [hl, List.length_cons]; omega⟩
        · exact Or.inr (by simp [addBals, addAt_append, hr])

theorem addBals_zero_ok_or_nil (totals : List Int) (bals : List Bal)
    (h : bals.length = totals.length) :
    (∃ r, addBals totals 0 bals = Except.ok r ∧ r.length = totals.length) ∨
    addBals totals 0 bals = Except.error Panic.nilDereference := by
  have := addBals_ok_or_nil bals [] totals (by omega)
  simpa using this

theorem addParts_ok_or_nil (rows : List (Slice Bal)) :
    ∀ totals : List Int, (∀ pa ∈ rows, pa.len = totals.length) →
      (∃ r, addParts totals rows = Except.ok r ∧ r.length = totals.length) ∨
      addParts totals rows = Except.error Panic.nilDereference := by
  induction rows with
  | nil => intro totals _; exact Or.inl ⟨totals, rfl, rfl⟩
  | cons pa rest ih =>
    intro totals h
    have hpa : pa.elems.length = totals.length := by
      rw [← Slice.len_eq_length_elems]; exact h pa (List.mem_cons_self _ _)
    rcases addBals_zero_ok_or_nil totals pa.elems hpa with ⟨t1, ht1, hl1⟩ | he
    · rcases ih t1 (by intro q hq; rw [hl1]; exact h q (List.mem_cons_of_mem _ hq)) with
        ⟨r, hr, hl⟩ | hr
      · exact Or.inl ⟨r, by simp [addParts, ht1, hr], by rw [hl, hl1]⟩
      · exact Or.inr (by simp [addParts, ht1, hr])
    · exact Or.inr (by simp [addParts, he])

theorem addLocked_ok_or_nil (ls : List SubAlloc) :
    ∀ totals : List Int, (∀ l ∈ ls, l.Bals.len = totals.length) →
      (∃ r, addLocked totals ls = Except.ok r ∧ r.length = totals.length) ∨
      addLocked totals ls = Except.error Panic.nilDereference := by
  induction ls with
  | nil => intro totals _; exact Or.inl ⟨totals, rfl, rfl⟩
  | cons l rest ih =>
    intro totals h
    have hpa : l.Bals.elems.length = totals.length := by
      rw [← Slice.len_eq_length_elems]; exact h l (List.mem_cons_self _ _)
    rcases addBals_zero_ok_or_nil totals l.Bals.elems hpa with ⟨t1, ht1, hl1⟩ | he
    · rcases ih t1 (by intro q hq; rw [hl1]; exact h q (List.mem_cons_of_mem _ hq)) with
        ⟨r, hr, hl⟩ | hr
      · exact Or.inl ⟨r, by simp [addLocked, ht1, hr], by rw [hl, hl1]⟩
      · exact Or.inr (by simp [addLocked, ht1, hr])
    · exact Or.inr (by simp [addLocked, he])

/-- On a valid allocation `Sum` returns or panics with a nil dereference. -/
theorem Sum_ok_or_nil (a : Allocation) (hv : a.valid = none) :
    (∃ t, a.Sum = Except.ok t) ∨ a.Sum = Except.error Panic.nilDereference := by
  obtain ⟨-, -, hp, hl⟩ := (valid_none_iff_dims a).mp hv
  rcases addParts_ok_or_nil a.OfParts.elems (List.replicate a.Assets.len 0)
    (by simpa using hp) with ⟨t1, ht1, hl1⟩ | he
  · rcases addLocked_ok_or_nil a.Locked.elems t1 (by
      intro l hmem; rw [hl1]; simpa using hl l hmem) with ⟨t2, ht2, -⟩ | he2
    · exact Or.inl ⟨t2, by simp [Allocation.Sum, hv, ht1, ht2]⟩
    · exact Or.inr (by simp [Allocation.Sum, hv, ht1, he2])
  · exact Or.inr (by simp [Allocation.Sum, hv, he])

/-- On a valid allocation that holds a nil balance `Sum` panics with a nil
dereference. -/
theorem Sum_valid_nil (a : Allocation) (hv : a.valid = none) (hn : a.nonNil = false) :
    a.Sum = Except.error Panic.nilDereference := by
  rcases Sum_ok_or_nil a hv with ⟨t, ht⟩ | h
  · obtain ⟨p, hp⟩ := Sum_nil_fails a hn
    rw [ht] at hp
    cases hp
  · exact h

/-- On two valid allocations one of which holds a nil balance `equalSum`
panics with a nil dereference. -/
theorem equalSum_valid_nil (x y : Allocation) (hx : x.valid = none) (hy : y.valid = none)
    (h : x.nonNil = false ∨ y.nonNil = false) :
    equalSum x y = Except.error Panic.nilDereference := by
  unfold equalSum
  rcases Sum_ok_or_nil x hx with ⟨s, hs⟩ | hs
  · rcases Sum_ok_or_nil y hy with ⟨t, ht⟩ | ht
    · rcases h with h | h
      · rw [Sum_valid_nil x hx h] at hs
        cases hs
      · rw [Sum_valid_nil y hy h] at ht
        cases ht
    · rw [hs, ht]
  · rw [hs]
    cases y.Sum <;> rfl

/-- The claim C3 as stated fails: on the allocation `nilBalance` the method
`Sum` panics although `valid` returns no error. -/
theorem Sum_panics_valid_passes :
    ¬ ((∃ p, nilBalance.Sum = Except.error p) ↔ ∃ err, nilBalance.valid = some err) := by
  intro h
  obtain ⟨err, he⟩ := h.mp ⟨Panic.nilDereference, by decide⟩
  have hv : nilBalance.valid = none := by decide
  rw [hv] at he
  cases he

/-- C3, amended: `Sum` panics exactly when `valid` returns an error or the
allocation holds a nil balance, so on an allocation without nil balance it
panics exactly when `valid` returns an error; the panic of an invalid
allocation carries the error of `valid`; in particular an allocation with a
participant row or a locked sub-allocation of a length other than
`len(Assets)` fails `valid`, and `Sum` panics on it. -/
theorem Sum_panics_iff_valid_fails (a : Allocation) :
    ((∃ p, a.Sum = Except.error p) ↔ ((∃ err, a.valid = some err) ∨ a.nonNil = false)) ∧
    (a.nonNil = true → ((∃ p, a.Sum = Except.error p) ↔ ∃ err, a.valid = some err)) ∧
    (∀ err, a.valid = some err → a.Sum = Except.error (Panic.logPanic err)) ∧
    (((∃ pa ∈ a.OfParts.elems, pa.len ≠ a.Assets.len) ∨
        (∃ l ∈ a.Locked.elems, l.Bals.len ≠ a.Assets.len)) →
      ∃ err, a.valid = some err ∧ a.Sum = Except.error (Panic.logPanic err)) := by
  have hpanic : ∀ err, a.valid = some err → a.Sum = Except.error (Panic.logPanic err) := by
    intro err h
    simp [Allocation.Sum, h]
  have hexact : (∃ p, a.Sum = Except.error p) ↔
      ((∃ err, a.valid = some err) ∨ a.nonNil = false) := by
    constructor
    · rintro ⟨p, hp⟩
      cases hv : a.valid with
      | some err => exact Or.inl ⟨err, rfl⟩
      | none =>
        cases hn : a.nonNil with
        | false => exact Or.inr rfl
        | true =>
          obtain ⟨t, ht, -, -⟩ := Sum_of_valid a hv hn
          rw [ht] at hp
          cases hp
    · rintro (⟨err, h⟩ | h)
      · exact ⟨_, hpanic err h⟩
      · exact Sum_nil_fails a h
  refine ⟨hexact, ?_, hpanic, ?_⟩
  · intro hn
    rw [hexact, hn]
    simp
  · intro hbad
    cases hv : a.valid with
    | some err => exact ⟨err, rfl, hpanic err hv⟩
    | none =>
      obtain ⟨-, -, hp, hl⟩ := (valid_none_iff_dims a).mp hv
      rcases hbad with ⟨pa, hmem, hne⟩ | ⟨l, hmem, hne⟩
      · exact absurd (hp pa hmem) hne
      · exact absurd (hl l hmem) hne

/-- Instance of C3: the second participant row has one entry, not two. -/
theorem Sum_panics_iff_valid_fails_witness :
    ∃ err, (Allocation.mk (some [1, 2]) (some [balances [3, 4], balances [5]]) none).valid
        = some err ∧
      (Allocation.mk (some [1, 2]) (some [balances [3, 4], balances [5]]) none).Sum
        = Except.error (Panic.logPanic err) :=
  (Sum_panics_iff_valid_fails
    (Allocation.mk (some [1, 2]) (some [balances [3, 4], balances [5]]) none)).2.2.2
    (Or.inl ⟨balances [5], by decide, by decide⟩)

/-- C9: with `Assets` and `OfParts` non-empty, `valid` names the offending row:
the smallest participant index whose row has a length other than `len(Assets)`
when there is one, and otherwise the ID of the first locked sub-allocation
whose `Bals` has a length other than `len(Assets)`. -/
theorem valid_names_offending_row (a : Allocation)
    (hA : 0 < a.Assets.len) (hP : 0 < a.OfParts.len) :
    (∀ (i : Nat) (pa : Slice Bal), a.OfParts.elems[i]? = some pa → pa.len ≠ a.Assets.len →
      (∀ j, j < i → ∀ pb, a.OfParts.elems[j]? = some pb → pb.len = a.Assets.len) →
      a.valid = some (Error.participantDim i)) ∧
    ((∀ pa ∈ a.OfParts.elems, pa.len = a.Assets.len) →
      ∀ (i : Nat) (l : SubAlloc), a.Locked.elems[i]? = some l → l.Bals.len ≠ a.Assets.len →
      (∀ j, j < i → ∀ m, a.Locked.elems[j]? = some m → m.Bals.len = a.Assets.len) →
      a.valid = some (Error.lockedDim l.ID)) := by
  have h0 : ¬ (a.Assets.len = 0 ∨ a.OfParts.len = 0) := by omega
  constructor
  · intro i pa hi hbad hgood
    have := validParts_first_bad a.Assets.len a.OfParts.elems 0 i pa hi hbad hgood
    simp only [Nat.zero_add] at this
    simp [Allocation.valid, h0, this]
  · intro hrows i l hi hbad hgood
    have hp := (validParts_eq_none_iff a.Assets.len a.OfParts.elems 0).mpr hrows
    have := validLocked_first_bad a.Assets.len a.Locked.elems i l hi hbad hgood
    simp [Allocation.valid, h0, hp, this]

/-- Instance of C9: rows 1 and 2 are too short and row 1 is named; with good
rows, locked entries 1 and 2 are too short and the ID of entry 1 is named. -/
theorem valid_names_offending_row_witness :
    (Allocation.mk (some [1, 2]) (some [balances [3, 4], balances [5], none])
        (some [⟨7, none⟩])).valid = some (Error.participantDim 1) ∧
    (Allocation.mk (some [1, 2]) (some [balances [3, 4]])
        (some [⟨7, balances [1, 1]⟩, ⟨8, none⟩, ⟨9, balances [1]⟩])).valid
      = some (Error.lockedDim 8) :=
  ⟨(valid_names_offending_row _ (by decide) (by decide)).1 1 (balances [5]) (by decide)
      (by decide)
      (by decide),
   (valid_names_offending_row _ (by decide) (by decide)).2 (by decide) 1 ⟨8, none⟩ (by decide)
      (by decide) (by decide)⟩

/-! ## Theorems: `equalSum` -/

theorem Cmp_eq_zero_iff (x y : Int) : Cmp x y = 0 ↔ x = y := by
  unfold Cmp
  by_cases h1 : x < y
  · simp [h1, ne_of_lt h1]
  · by_cases h2 : x = y
    · simp [h2]
    · simp [h1, h2]

theorem equalSumLoop_eq (s0 s1 : List Int) (hlen : s0.length = s1.length) :
    ∀ (k i : Nat), i + k = s0.length →
      equalSumLoop s0 s1 k i
        = Except.ok (if s0.drop i = s1.drop i then (true, none) else (false, none)) := by
  intro k
  induction k with
  | zero =>
    intro i hi
    have h0 : s0.drop i = [] := List.drop_eq_nil_of_le (by omega)
    have h1 : s1.drop i = [] := List.drop_eq_nil_of_le (by omega)
    simp [equalSumLoop, h0, h1]
  | succ k ih =>
    intro i hi
    have hi0 : i < s0.length := by omega
    have hi1 : i < s1.length := by omega
    obtain ⟨x, g0, d0⟩ : ∃ x, s0[i]? = some x ∧ s0.drop i = x :: s0.drop (i + 1) :=
      ⟨s0[i], List.getElem?_eq_getElem hi0, List.drop_eq_getElem_cons hi0⟩
    obtain ⟨y, g1, d1⟩ : ∃ y, s1[i]? = some y ∧ s1.drop i = y :: s1.drop (i + 1) :=
      ⟨s1[i], List.getElem?_eq_getElem hi1, List.drop_eq_getElem_cons hi1⟩
    unfold equalSumLoop
    rw [g0, g1, d0, d1]
    by_cases hc : x = y
    · have hz : Cmp x y = 0 := (Cmp_eq_zero_iff _ _).mpr hc
      simp only [hz, ne_eq, not_true_eq_false, if_false]
      rw [ih (i + 1) (by omega), hc]
      simp
    · have hz : Cmp x y ≠ 0 := fun h => hc ((Cmp_eq_zero_iff _ _).mp h)
      simp [hz, hc]

/-- What `equalSum` returns on two allocations whose `Sum` returns. -/
theorem equalSum_of_Sum (b0 b1 : Allocation) (s0 s1 : List Int)
    (h0 : b0.Sum = Except.ok s0) (h1 : b1.Sum = Except.ok s1) :
    equalSum b0 b1 = Except.ok
      (if s0.length ≠ s1.length then (false, some Error.dimensionMismatch)
        else if s0 = s1 then (true, none) else (false, none)) := by
  unfold equalSum
  rw [h0, h1]
  by_cases hl : s0.length = s1.length
  · simp only [hl, ne_eq, not_true_eq_false, if_false]
    rw [← hl, equalSumLoop_eq s0 s1 hl s0.length 0 (by omega)]
    simp
  · simp [hl]

/-- The claim C5 as stated fails: `nilBalance` and an allocation of one asset
without nil balance are both valid, and `equalSum` returns nothing on them, in
either order: it panics on the nil balance. -/
theorem equalSum_panics_on_valid :
    nilBalance.valid = none ∧
    (Allocation.mk (some [1]) (some [balances [3]]) none).valid = none ∧
    equalSum nilBalance (Allocation.mk (some [1]) (some [balances [3]]) none)
      = Except.error Panic.nilDereference ∧
    equalSum (Allocation.mk (some [1]) (some [balances [3]]) none) nilBalance
      = Except.error Panic.nilDereference ∧
    (∀ r, equalSum nilBalance (Allocation.mk (some [1]) (some [balances [3]]) none)
      ≠ Except.ok r) := by
  refine ⟨by decide, by decide, by decide, by decide, ?_⟩
  intro r h
  have e : equalSum nilBalance (Allocation.mk (some [1]) (some [balances [3]]) none)
      = Except.error Panic.nilDereference := by decide
  rw [e] at h
  cases h

/-- C5, amended: on valid allocations without nil balance `equalSum` returns;
its error is non-nil exactly when the two `Sum` vectors differ in length (the
allocations differ in their number of assets), and the boolean is then false;
when the lengths agree it returns `(true, nil)` exactly when the sums agree at
every index, and `(false, nil)` otherwise. -/
theorem equalSum_spec (b0 b1 : Allocation) (hv0 : b0.valid = none) (hv1 : b1.valid = none)
    (hn0 : b0.nonNil = true) (hn1 : b1.nonNil = true) :
    ∃ s0 s1 r, b0.Sum = Except.ok s0 ∧ b1.Sum = Except.ok s1 ∧
      s0.length = b0.Assets.len ∧ s1.length = b1.Assets.len ∧
      equalSum b0 b1 = Except.ok r ∧
      (r.2 ≠ none ↔ s0.length ≠ s1.length) ∧
      (s0.length ≠ s1.length → r.1 = false) ∧
      (s0.length = s1.length →
        (r = (true, none) ↔ ∀ i, i < s0.length → s0[i]? = s1[i]?) ∧
        (r ≠ (true, none) → r = (false, none))) := by
  obtain ⟨s0, h0, l0, -⟩ := Sum_of_valid b0 hv0 hn0
  obtain ⟨s1, h1, l1, -⟩ := Sum_of_valid b1 hv1 hn1
  refine ⟨s0, s1, _, h0, h1, l0, l1, equalSum_of_Sum b0 b1 s0 s1 h0 h1, ?_, ?_, ?_⟩
  · by_cases hl : s0.length = s1.length
    · by_cases he : s0 = s1 <;> simp [hl, he]
    · simp [hl]
  · intro hl
    simp [hl]
  · intro hl
    have hext : s0 = s1 ↔ ∀ i, i < s0.length → s0[i]? = s1[i]? := by
      constructor
      · intro h i _; rw [h]
      · intro h
        apply List.ext_getElem? 
        intro i
        by_cases hi : i < s0.length
        · exact h i hi
        · rw [List.getElem?_eq_none (by omega), List.getElem?_eq_none (by omega)]
    rw [← hext]
    by_cases he : s0 = s1 <;> simp [hl, he]

/-- Instance of C5: both allocations hold 7 units of the one asset. -/
theorem equalSum_spec_witness :
    ∃ s0 s1 r,
      (Allocation.mk (some [1]) (some [balances [3], balances [4]]) none).Sum = Except.ok s0 ∧
      (Allocation.mk (some [1]) (some [balances [5]]) (some [⟨9, balances [2]⟩])).Sum
        = Except.ok s1 ∧
      equalSum (Allocation.mk (some [1]) (some [balances [3], balances [4]]) none)
        (Allocation.mk (some [1]) (some [balances [5]]) (some [⟨9, balances [2]⟩]))
        = Except.ok r :=
  let ⟨s0, s1, r, h0, h1, _, _, hr, _⟩ := equalSum_spec
    (Allocation.mk (some [1]) (some [balances [3], balances [4]]) none)
    (Allocation.mk (some [1]) (some [balances [5]]) (some [⟨9, balances [2]⟩]))
    (by decide) (by decide) (by decide) (by decide)
  ⟨s0, s1, r, h0, h1, hr⟩

/-! ## Theorems: conservation -/

theorem list_sum_eq_sum_range (u : List Int) :
    u.sum = ∑ j in Finset.range u.length, u.getD j 0 := by
  induction u with
  | nil => simp
  | cons x t ih =>
    rw [List.length_cons, Finset.sum_range_succ', List.sum_cons, ih]
    simp [add_comm]

theorem entry_eq_getD_map (a : Allocation) (r k : Nat) :
    a.entry r k = (a.balanceRows.map (fun row => balValue (row.getD k none))).getD r 0 := by
  unfold Allocation.entry
  by_cases hr : r < a.balanceRows.length
  · simp [List.getD_eq_getElem?_getD, List.getElem?_eq_getElem hr]
  · simp [List.getD_eq_getElem?_getD, List.getElem?_eq_none (Nat.le_of_not_lt hr), balValue]

theorem balanceRows_length (a : Allocation) :
    a.balanceRows.length = a.OfParts.len + a.Locked.len := by
  simp [Allocation.balanceRows, Slice.len_eq_length_elems]

theorem columnTotal_eq_sum_range (a : Allocation) (k : Nat) :
    columnTotal a k = ∑ r in Finset.range (a.OfParts.len + a.Locked.len), a.entry r k := by
  have h : columnTotal a k
      = (a.balanceRows.map (fun row => balValue (row.getD k none))).sum := by
    simp [columnTotal, Allocation.balanceRows, Function.comp_def]
  rw [h, list_sum_eq_sum_range, List.length_map, balanceRows_length]
  exact Finset.sum_congr rfl (fun r _ => (entry_eq_getD_map a r k).symm)

/-- Two valid allocations without nil balance and with the same number of
assets are `equalSum` exactly when all their column totals agree. -/
theorem equalSum_of_valid (A A1 : Allocation) (hv : A.valid = none) (hv1 : A1.valid = none)
    (hn : A.nonNil = true) (hn1 : A1.nonNil = true)
    (hA : A1.Assets.len = A.Assets.len) :
    equalSum A A1 = Except.ok
      (if ∀ i, i < A.Assets.len → columnTotal A i = columnTotal A1 i then (true, none)
        else (false, none)) := by
  obtain ⟨s0, h0, l0, c0⟩ := Sum_of_valid A hv hn
  obtain ⟨s1, h1, l1, c1⟩ := Sum_of_valid A1 hv1 hn1
  have hl : s0.length = s1.length := by rw [l0, l1, hA]
  have hiff : s0 = s1 ↔ ∀ i, i < A.Assets.len → columnTotal A i = columnTotal A1 i := by
    constructor
    · intro h i _
      rw [← c0 i, ← c1 i, h]
    · intro h
      apply List.ext_getElem?
      intro i
      by_cases hi : i < s0.length
      · rw [getElem?_of_getD hi, getElem?_of_getD (by omega), c0 i, c1 i, h i (by omega)]
      · rw [List.getElem?_eq_none (by omega), List.getElem?_eq_none (by omega)]
  rw [equalSum_of_Sum A A1 s0 s1 h0 h1]
  by_cases hc : ∀ i, i < A.Assets.len → columnTotal A i = columnTotal A1 i
  · rw [if_pos hc]
    simp [hl, hiff.mpr hc]
  · rw [if_neg hc]
    have he : ¬ s0 = s1 := fun h => hc (hiff.mp h)
    simp [hl, he]

/-- The claim C6 as stated fails: the two allocations are valid, of the same
dimensions, and the second is the first with 4 units of the asset moved from
participant 0 to participant 1, every other balance being as it was;
participant 2 holds a nil balance in both, and `equalSum` panics on them
instead of returning `(true, nil)`. -/
theorem redistribution_panics_on_nil :
    (Allocation.mk (some [1]) (some [balances [10], balances [0], some [none]]) none).valid
      = none ∧
    (Allocation.mk (some [1]) (some [balances [6], balances [4], some [none]]) none).valid
      = none ∧
    (Allocation.mk (some [1]) (some [balances [6], balances [4], some [none]]) none).OfParts
      = some [some [some (10 - 4)], some [some (0 + 4)], some [none]] ∧
    equalSum
      (Allocation.mk (some [1]) (some [balances [10], balances [0], some [none]]) none)
      (Allocation.mk (some [1]) (some [balances [6], balances [4], some [none]]) none)
      = Except.error Panic.nilDereference ∧
    equalSum
      (Allocation.mk (some [1]) (some [balances [10], balances [0], some [none]]) none)
      (Allocation.mk (some [1]) (some [balances [6], balances [4], some [none]]) none)
      ≠ Except.ok (true, none) := by
  refine ⟨by decide, by decide, by decide, by decide, by decide⟩

/-- C6, amended: let `A` and `A1` be valid allocations of the same dimensions
that hold no nil balance. If `A1` is `A` with `d` subtracted from participant
`p`'s balance of asset `k` and added to the balance of asset `k` of another
balance vector `q` (a participant for `q` below `len(OfParts)`, a locked
sub-allocation from there on), then `equalSum(A, A1) = (true, nil)`; if `A1`
differs from `A` in exactly one balance, then
`equalSum(A, A1) = (false, nil)`. -/
theorem equalSum_redistribution (A A1 : Allocation)
    (hv : A.valid = none) (hv1 : A1.valid = none)
    (hn : A.nonNil = true) (hn1 : A1.nonNil = true)
    (hA : A1.Assets.len = A.Assets.len) (hP : A1.OfParts.len = A.OfParts.len)
    (hL : A1.Locked.len = A.Locked.len) :
    (∀ (p q k : Nat) (d : Int), p < A.OfParts.len → q < A.OfParts.len + A.Locked.len →
      p ≠ q → k < A.Assets.len →
      A1.entry p k = A.entry p k - d → A1.entry q k = A.entry q k + d →
      (∀ r, r < A.OfParts.len + A.Locked.len → ∀ i, i < A.Assets.len →
        (r, i) ≠ (p, k) → (r, i) ≠ (q, k) → A1.entry r i = A.entry r i) →
      equalSum A A1 = Except.ok (true, none)) ∧
    (∀ (r k : Nat), r < A.OfParts.len + A.Locked.len → k < A.Assets.len →
      A1.entry r k ≠ A.entry r k →
      (∀ r1, r1 < A.OfParts.len + A.Locked.len → ∀ i, i < A.Assets.len →
        (r1, i) ≠ (r, k) → A1.entry r1 i = A.entry r1 i) →
      equalSum A A1 = Except.ok (false, none)) := by
  have key : ∀ i, columnTotal A1 i - columnTotal A i
      = ∑ r in Finset.range (A.OfParts.len + A.Locked.len), (A1.entry r i - A.entry r i) := by
    intro i
    rw [columnTotal_eq_sum_range, columnTotal_eq_sum_range, hP, hL, Finset.sum_sub_distrib]
  constructor
  · intro p q k d hp hq hpq hk e1 e2 hrest
    rw [equalSum_of_valid A A1 hv hv1 hn hn1 hA]
    have hall : ∀ i, i < A.Assets.len → columnTotal A i = columnTotal A1 i := by
      intro i hi
      have hsum := key i
      by_cases hik : i = k
      · subst hik
        rw [Finset.sum_eq_add_of_mem p q (Finset.mem_range.mpr (by omega))
          (Finset.mem_range.mpr hq) hpq] at hsum
        · rw [e1, e2] at hsum
          linarith
        · rintro c hc ⟨hc1, hc2⟩
          rw [hrest c (Finset.mem_range.mp hc) i hi (by simpa using hc1) (by simpa using hc2)]
          simp
      · rw [Finset.sum_eq_zero] at hsum
        · linarith
        · intro c hc
          rw [hrest c (Finset.mem_range.mp hc) i hi (by simp [hik]) (by simp [hik])]
          simp
    rw [if_pos hall]
  · intro r k hr hk hne hrest
    rw [equalSum_of_valid A A1 hv hv1 hn hn1 hA]
    have hnot : ¬ ∀ i, i < A.Assets.len → columnTotal A i = columnTotal A1 i := by
      intro hall
      have hsum := key k
      rw [Finset.sum_eq_single_of_mem r (Finset.mem_range.mpr hr)] at hsum
      · have := hall k hk
        apply hne
        linarith
      · intro c hm hc
        rw [hrest c (Finset.mem_range.mp hm) k hk (by simp [hc])]
        simp
    rw [if_neg hnot]

/-- Instance of C6: 4 units of asset 0 move from participant 0 to participant 1
and to the locked sub-allocation; then participant 1 alone gains one unit. -/
theorem equalSum_redistribution_witness :
    equalSum (Allocation.mk (some [1, 2]) (some [balances [10, 5], balances [0, 7]]) (some [⟨9, balances [3, 4]⟩]))
      (Allocation.mk (some [1, 2]) (some [balances [6, 5], balances [4, 7]]) (some [⟨9, balances [3, 4]⟩]))
      = Except.ok (true, none) ∧
    equalSum (Allocation.mk (some [1, 2]) (some [balances [10, 5], balances [0, 7]]) (some [⟨9, balances [3, 4]⟩]))
      (Allocation.mk (some [1, 2]) (some [balances [6, 5], balances [0, 7]]) (some [⟨9, balances [7, 4]⟩]))
      = Except.ok (true, none) ∧
    equalSum (Allocation.mk (some [1, 2]) (some [balances [10, 5], balances [0, 7]]) (some [⟨9, balances [3, 4]⟩]))
      (Allocation.mk (some [1, 2]) (some [balances [10, 5], balances [1, 7]]) (some [⟨9, balances [3, 4]⟩]))
      = Except.ok (false, none) :=
  ⟨(equalSum_redistribution _ _ (by decide) (by decide) (by decide) (by decide) (by decide)
      (by decide) (by decide)).1
      0 1 0 4 (by decide) (by decide) (by decide) (by decide) (by decide) (by decide) (by decide),
   (equalSum_redistribution _ _ (by decide) (by decide) (by decide) (by decide) (by decide)
      (by decide) (by decide)).1
      0 2 0 4 (by decide) (by decide) (by decide) (by decide) (by decide) (by decide) (by decide),
   (equalSum_redistribution _ _ (by decide) (by decide) (by decide) (by decide) (by decide)
      (by decide) (by decide)).2
      1 0 (by decide) (by decide) (by decide) (by decide)⟩

end channel

namespace msg

/-! ## Theorems: channel message types -/

/-- C10: for a valid channel message type `t`, `Encode` writes exactly one
byte, the numeric value of `t`, to a writer that takes it, and `Decode` on that
output succeeds and sets its receiver to `t`. -/
theorem ChannelMsgType.Decode_Encode (t : ChannelMsgType) (ht : ChannelMsgType.Valid t = true)
    (w w1 : Writer) (hw : w.Write [t % 256] = Except.ok w1) :
    ChannelMsgType.Encode t w = Except.ok w1 ∧ w1.out = w.out ++ [t] ∧
      ∀ (t0 : ChannelMsgType) (rest : Reader),
        ChannelMsgType.Decode t0 ([t] ++ rest) = (t, rest, none) := by
  have ht1 : t < 1 := by simpa [ChannelMsgType.Valid, channelMsgTypeEnd] using ht
  have ht0 : t = 0 := Nat.lt_one_iff.mp ht1
  subst ht0
  refine ⟨by simp [ChannelMsgType.Encode, hw], ?_, ?_⟩
  · unfold Writer.Write at hw
    cases hr : w.room with
    | none =>
      rw [hr] at hw
      cases hw
      rfl
    | some n =>
      rw [hr] at hw
      by_cases hn : [0 % 256].length ≤ n
      · simp only [hn, if_true] at hw
        cases hw
        rfl
      · simp only [hn, if_false] at hw
        cases hw
  · intro t0 rest
    simp [ChannelMsgType.Decode, ReadFull, ChannelMsgType.Valid, channelMsgTypeEnd]

/-- Instance of C10: the dummy type, written to an empty unbounded writer. -/
theorem ChannelMsgType.Decode_Encode_witness :
    ChannelMsgType.Encode ChannelDummy ⟨[], none⟩ = Except.ok ⟨[0], none⟩ ∧
      ChannelMsgType.Decode 7 [0] = (0, [], none) :=
  let h := ChannelMsgType.Decode_Encode ChannelDummy (by decide) ⟨[], none⟩ ⟨[0], none⟩
    (by decide)
  ⟨h.1, h.2.2 7 []⟩

end msg

namespace channel.mem

/-! ## Theorems: memory -/

theorem Extends.refl (h : Heap) : Extends h h := ⟨Nat.le_refl _, fun _ _ => rfl⟩

theorem Extends.trans {h h1 h2 : Heap} (e1 : Extends h h1) (e2 : Extends h1 h2) :
    Extends h h2 :=
  ⟨Nat.le_trans e1.1 e2.1, fun a ha => by
    rw [e2.2 a (Nat.lt_of_lt_of_le ha e1.1), e1.2 a ha]⟩

theorem Extends.append (h ext : Heap) : Extends h (h ++ ext) :=
  ⟨by simp, fun a ha => List.getElem?_append_left ha⟩

theorem window_congr {α : Type} (proj : Obj → Option (List α)) (h h1 : Heap) (r : SliceHdr)
    (e : h1[r.arr]? = h[r.arr]?) : window proj h1 r = window proj h r := by
  unfold window
  rw [e]

theorem window_bound {α : Type} (proj : Obj → Option (List α)) (h : Heap) (r : SliceHdr)
    (xs : List α) (e : window proj h r = some xs) : r.arr < h.length ∧ xs.length = r.len := by
  unfold window at e
  cases ho : h[r.arr]? with
  | none => rw [ho] at e; cases e
  | some o =>
    rw [ho] at e
    have hlt : r.arr < h.length := by
      by_contra hc
      rw [List.getElem?_eq_none (Nat.le_of_not_lt hc)] at ho
      cases ho
    cases hp : proj o with
    | none => simp [hp] at e
    | some slots =>
      simp only [hp] at e
      by_cases hle : r.off + r.len ≤ slots.length
      · rw [if_pos hle] at e
        cases e
        refine ⟨hlt, ?_⟩
        simp only [List.length_take, List.length_drop]
        omega
      · rw [if_neg hle] at e
        cases e

theorem loadAll_congr {α β : Type} (f g : α → Option β) (xs : List α)
    (e : ∀ x ∈ xs, f x = g x) : loadAll f xs = loadAll g xs := by
  induction xs with
  | nil => rfl
  | cons x t ih =>
    simp only [loadAll]
    rw [e x (List.mem_cons_self _ _), ih (fun y hy => e y (List.mem_cons_of_mem _ hy))]

theorem loadAll_eq_some_iff {α β : Type} (f : α → Option β) (xs : List α) :
    ∀ vs, loadAll f xs = some vs ↔ List.Forall₂ (fun x v => f x = some v) xs vs := by
  induction xs with
  | nil =>
    intro vs
    simp only [loadAll, Option.some.injEq, List.forall₂_nil_left_iff]
    exact eq_comm
  | cons x t ih =>
    intro vs
    simp only [loadAll]
    constructor
    · intro e
      cases hx : f x with
      | none => rw [hx] at e; cases e
      | some v =>
        cases ht : loadAll f t with
        | none => rw [hx, ht] at e; cases e
        | some ws =>
          rw [hx, ht] at e
          cases e
          exact List.Forall₂.cons hx ((ih ws).mp ht)
    · intro hf
      cases hf with
      | cons h1 h2 =>
        rw [h1, (ih _).mpr h2]

theorem loadAll_mem {α β : Type} (f : α → Option β) (xs : List α) :
    ∀ vs, loadAll f xs = some vs → ∀ x ∈ xs, ∃ v, f x = some v := by
  intro vs e x hx
  rw [loadAll_eq_some_iff] at e
  induction e with
  | nil => cases hx
  | cons h1 _ ih =>
    rcases List.mem_cons.mp hx with rfl | hmem
    · exact ⟨_, h1⟩
    · exact ih hmem

theorem loadSlice_eq_some_iff {α β : Type} (proj : Obj → Option (List α))
    (load : Heap → α → Option β) (h : Heap) (r : SliceHdr) (v : Slice β) :
    loadSlice proj load h (some r) = some v ↔
      ∃ xs vs, window proj h r = some xs ∧ loadAll (load h) xs = some vs ∧ v = some vs := by
  simp only [loadSlice]
  constructor
  · intro e
    cases hw : window proj h r with
    | none => rw [hw] at e; cases e
    | some xs =>
      rw [hw] at e
      cases hl : loadAll (load h) xs with
      | none => simp only [hl] at e; cases e
      | some vs =>
        simp only [hl, Option.some.injEq] at e
        exact ⟨xs, vs, rfl, hl, e.symm⟩
  · rintro ⟨xs, vs, hw, hl, rfl⟩
    rw [hw]
    simp only [hl]

theorem reachSlice_of_window {α : Type} (proj : Obj → Option (List α))
    (reach : Heap → α → List Nat) (h : Heap) (r : SliceHdr) (xs : List α)
    (hw : window proj h r = some xs) :
    reachSlice proj reach h (some r) = r.arr :: xs.flatMap (reach h) := by
  simp only [reachSlice]
  rw [hw]

/-- A slice is framed when its elements are. -/
theorem framed_slice {α β : Type} (proj : Obj → Option (List α))
    (load : Heap → α → Option β) (reach : Heap → α → List Nat) (hF : Framed load reach) :
    Framed (loadSlice proj load) (reachSlice proj reach) := by
  constructor
  · intro h s v hv a ha
    cases s with
    | none => simp [reachSlice] at ha
    | some r =>
      obtain ⟨xs, vs, hw, hl, -⟩ := (loadSlice_eq_some_iff proj load h r v).mp hv
      rw [reachSlice_of_window proj reach h r xs hw] at ha
      rcases List.mem_cons.mp ha with rfl | hmem
      · exact (window_bound proj h r xs hw).1
      · obtain ⟨x, hx, hax⟩ := List.mem_flatMap.mp hmem
        obtain ⟨w, hxw⟩ := loadAll_mem (load h) xs vs hl x hx
        exact hF.bound h x w hxw a hax
  · intro h h1 s v hv hagree
    cases s with
    | none => exact ⟨hv, rfl⟩
    | some r =>
      obtain ⟨xs, vs, hw, hl, hvs⟩ := (loadSlice_eq_some_iff proj load h r v).mp hv
      rw [reachSlice_of_window proj reach h r xs hw] at hagree
      have hw1 : window proj h1 r = some xs := by
        rw [window_congr proj h h1 r (hagree r.arr (List.mem_cons_self _ _)), hw]
      have helem : ∀ x ∈ xs, load h1 x = load h x ∧ reach h1 x = reach h x := by
        intro x hx
        obtain ⟨w, hxw⟩ := loadAll_mem (load h) xs vs hl x hx
        have := hF.frame h h1 x w hxw (fun a ha =>
          hagree a (List.mem_cons_of_mem _ (List.mem_flatMap.mpr ⟨x, hx, ha⟩)))
        exact ⟨by rw [this.1, hxw], this.2⟩
      constructor
      · rw [loadSlice_eq_some_iff]
        exact ⟨xs, vs, hw1, by
          rw [loadAll_congr (load h1) (load h) xs (fun x hx => (helem x hx).1), hl], hvs⟩
      · rw [reachSlice_of_window proj reach h r xs hw,
          reachSlice_of_window proj reach h1 r xs hw1]
        congr 1
        exact List.flatMap_congr (fun x hx => (helem x hx).2)

theorem Framed.extends {α β : Type} {load : Heap → α → Option β}
    {reach : Heap → α → List Nat} (hF : Framed load reach) {h h1 : Heap} {x : α} {v : β}
    (hv : load h x = some v) (e : Extends h h1) :
    load h1 x = some v ∧ reach h1 x = reach h x :=
  hF.frame h h1 x v hv (fun a ha => e.2 a (hF.bound h x v hv a ha))

theorem Framed.set {α β : Type} {load : Heap → α → Option β}
    {reach : Heap → α → List Nat} (hF : Framed load reach) {h : Heap} {x : α} {v : β}
    (hv : load h x = some v) (a : Nat) (o : Obj) (ha : a ∉ reach h x) :
    load (h.set a o) x = some v ∧ reach (h.set a o) x = reach h x :=
  hF.frame h (h.set a o) x v hv (fun b hb => by
    have : a ≠ b := fun e => ha (e ▸ hb)
    simp [List.getElem?_set, this])

theorem forall2_getElem? {α β : Type} {R : α → β → Prop} {xs : List α} {vs : List β}
    (hf : List.Forall₂ R xs vs) :
    ∀ (i : Nat) (x : α), xs[i]? = some x → ∃ v, vs[i]? = some v ∧ R x v := by
  induction hf with
  | nil => intro i x e; simp at e
  | cons h1 _ ih =>
    intro i x e
    cases i with
    | zero =>
      simp only [List.getElem?_cons_zero, Option.some.injEq] at e
      subst e
      exact ⟨_, by simp, h1⟩
    | succ j =>
      obtain ⟨v, hv, hr⟩ := ih j x (by simpa using e)
      exact ⟨v, by simpa using hv, hr⟩

theorem forall2_mem_left {α β : Type} {R : α → β → Prop} {xs : List α} {vs : List β}
    (hf : List.Forall₂ R xs vs) : ∀ x ∈ xs, ∃ v, R x v := by
  induction hf with
  | nil => intro x hx; cases hx
  | cons h1 _ ih =>
    intro x hx
    rcases List.mem_cons.mp hx with rfl | hmem
    · exact ⟨_, h1⟩
    · exact ih x hmem

theorem take_succ_set {α : Type} (l : List α) :
    ∀ (i : Nat) (y : α), i < l.length → (l.set i y).take (i + 1) = l.take i ++ [y] := by
  induction l with
  | nil => intro i y hi; simp at hi
  | cons x t ih =>
    intro i y hi
    cases i with
    | zero => simp
    | succ j =>
      have := ih j y (by simpa using hi)
      simp [this]

theorem take_succ_getElem? {α : Type} (l : List α) (i : Nat) (v : α) (e : l[i]? = some v) :
    l.take (i + 1) = l.take i ++ [v] := by
  rw [List.take_succ, e]
  rfl

/-- A value that is held above address `L` is not touched by a write at `L`. -/
theorem Framed.set_below {α β : Type} {load : Heap → α → Option β}
    {reach : Heap → α → List Nat} (hF : Framed load reach) {h : Heap} {x : α} {v : β}
    (L : Nat) (o : Obj) (hv : load h x = some v) (hr : ∀ a ∈ reach h x, L < a) :
    load (h.set L o) x = some v ∧ ∀ a ∈ reach (h.set L o) x, L < a := by
  have hn : L ∉ reach h x := fun hm => Nat.lt_irrefl L (hr L hm)
  obtain ⟨h1, h2⟩ := hF.set hv L o hn
  exact ⟨h1, by rw [h2]; exact hr⟩

/-- The copy loop: entered at index `i` with the first `i` slots of the clone
holding copies, it ends with every slot of the clone holding a copy. -/
theorem copyLoop_spec {α β : Type} (proj : Obj → Option (List α)) (inj : List α → Obj)
    (F : Heap → α → Except Panic (Heap × α))
    (load : Heap → α → Option β) (reach : Heap → α → List Nat)
    (good : β → Prop)
    (hpi : ∀ slots, proj (inj slots) = some slots)
    (hF : Framed load reach) (hC : Copies F load reach good)
    (h : Heap) (r : SliceHdr) (xs : List α) (vs : List β)
    (hw : window proj h r = some xs)
    (hvs : List.Forall₂ (fun x v => load h x = some v) xs vs)
    (hg : ∀ v ∈ vs, good v) :
    ∀ (k i : Nat) (H : Heap) (slots : List α), i + k = r.len → Extends h H →
      H[h.length]? = some (inj slots) → slots.length = r.len →
      List.Forall₂ (fun y v => load H y = some v ∧ ∀ a ∈ reach H y, h.length < a)
        (slots.take i) (vs.take i) →
      ∃ H1 slots1,
        copyLoop proj inj F r { arr := h.length, off := 0, len := r.len } k i H = Except.ok H1 ∧
        Extends h H1 ∧ H1[h.length]? = some (inj slots1) ∧ slots1.length = r.len ∧
        List.Forall₂ (fun y v => load H1 y = some v ∧ ∀ a ∈ reach H1 y, h.length < a)
          slots1 vs := by
  have hxs : xs.length = r.len := (window_bound proj h r xs hw).2
  have hra : r.arr < h.length := (window_bound proj h r xs hw).1
  have hlen : vs.length = r.len := by rw [← hvs.length_eq, hxs]
  intro k
  induction k with
  | zero =>
    intro i H slots hik hE hL hsl hR
    have hi : i = r.len := by omega
    subst hi
    refine ⟨H, slots, rfl, hE, hL, hsl, ?_⟩
    rw [List.take_of_length_le (Nat.le_of_eq hsl), List.take_of_length_le (Nat.le_of_eq hlen)] at hR
    exact hR
  | succ k ih =>
    intro i H slots hik hE hL hsl hR
    have hi : i < r.len := by omega
    have hLlt : h.length < H.length := by
      by_contra hc
      rw [List.getElem?_eq_none (Nat.le_of_not_lt hc)] at hL
      cases hL
    -- `orig[i]`
    have hwH : window proj H r = some xs := by
      rw [window_congr proj h H r (hE.2 r.arr hra), hw]
    obtain ⟨x, hx⟩ : ∃ x, xs[i]? = some x := ⟨xs[i], List.getElem?_eq_getElem (by omega)⟩
    obtain ⟨v, hv, hxv⟩ := forall2_getElem? hvs i x hx
    have hidx : index proj H r i = Except.ok x := by
      simp only [index, hwH, hx]
    -- `F(orig[i])`
    obtain ⟨H2, y, hFy, hE2, hy, hyr⟩ :=
      hC H x v (hF.extends hxv hE).1 (hg v (List.getElem?_mem hv))
    -- `clone[i] = ...`
    have hL2 : H2[h.length]? = some (inj slots) := by rw [hE2.2 _ hLlt, hL]
    have hasg : assign proj inj H2 { arr := h.length, off := 0, len := r.len } i y
        = Except.ok (H2.set h.length (inj (slots.set i y))) := by
      simp only [assign, hL2, hpi, hsl, Nat.zero_add, Nat.le_refl, if_true, hi]
    have hstep : copyLoop proj inj F r { arr := h.length, off := 0, len := r.len } (k + 1) i H
        = copyLoop proj inj F r { arr := h.length, off := 0, len := r.len } k (i + 1)
            (H2.set h.length (inj (slots.set i y))) := by
      simp only [copyLoop, hidx, hFy, hasg]
    rw [hstep]
    have hLlt2 : h.length < H2.length := Nat.lt_of_lt_of_le hLlt hE2.1
    apply ih (i + 1) (H2.set h.length (inj (slots.set i y))) (slots.set i y) (by omega)
    · refine ⟨by rw [List.length_set]; exact Nat.le_trans hE.1 hE2.1, fun a ha => ?_⟩
      rw [List.getElem?_set_ne (Nat.ne_of_gt ha), hE2.2 a (Nat.lt_of_lt_of_le ha hE.1), hE.2 a ha]
    · rw [List.getElem?_set_self hLlt2]
    · rw [List.length_set, hsl]
    · rw [take_succ_set slots i y (by omega), take_succ_getElem? vs i v hv]
      apply List.rel_append
      · refine hR.imp (fun y1 v1 hr1 => ?_)
        obtain ⟨e1, e2⟩ := hF.extends hr1.1 hE2
        exact hF.set_below h.length _ e1 (by rw [e2]; exact hr1.2)
      · refine List.Forall₂.cons ?_ List.Forall₂.nil
        exact hF.set_below h.length _ hy (fun a ha => Nat.lt_of_lt_of_le hLlt (hyr a ha))

/-- A slice is copied by `make` and the copy loop when its elements are copied
by the body of the loop. -/
theorem copies_slice {α β : Type} (proj : Obj → Option (List α)) (inj : List α → Obj) (zero : α)
    (F : Heap → α → Except Panic (Heap × α))
    (load : Heap → α → Option β) (reach : Heap → α → List Nat)
    (good : β → Prop)
    (hpi : ∀ slots, proj (inj slots) = some slots)
    (hF : Framed load reach) (hC : Copies F load reach good) :
    Copies (cloneSlice proj inj zero F) (loadSlice proj load) (reachSlice proj reach)
      (sliceGood good) := by
  intro h s v hv hgood
  cases s with
  | none => exact ⟨h, none, rfl, Extends.refl h, hv, by simp [reachSlice]⟩
  | some r =>
    obtain ⟨xs, vs, hw, hl, hvs⟩ := (loadSlice_eq_some_iff proj load h r v).mp hv
    subst hvs
    have hf := (loadAll_eq_some_iff (load h) xs vs).mp hl
    obtain ⟨H1, slots1, hloop, hE, hL, hsl, hR⟩ :=
      copyLoop_spec proj inj F load reach good hpi hF hC h r xs vs hw hf hgood r.len 0
        (h ++ [inj (List.replicate r.len zero)]) (List.replicate r.len zero) (by omega)
        (Extends.append h _) (by simp) (by simp) (by simp)
    have hwin : window proj H1 { arr := h.length, off := 0, len := r.len } = some slots1 := by
      simp only [window, hL, hpi, hsl, Nat.zero_add, Nat.le_refl, if_true, List.drop_zero]
      rw [List.take_of_length_le (Nat.le_of_eq hsl)]
    refine ⟨H1, some { arr := h.length, off := 0, len := r.len }, ?_, hE, ?_, ?_⟩
    · simp only [cloneSlice, make, hloop]
    · rw [loadSlice_eq_some_iff]
      exact ⟨slots1, vs, hwin, (loadAll_eq_some_iff (load H1) slots1 vs).mpr
        (hR.imp (fun _ _ hr => hr.1)), rfl⟩
    · intro a ha
      rw [reachSlice_of_window proj reach H1 _ slots1 hwin] at ha
      rcases List.mem_cons.mp ha with rfl | hmem
      · exact Nat.le_refl _
      · obtain ⟨y, hy, hay⟩ := List.mem_flatMap.mp hmem
        obtain ⟨w, hyw⟩ := forall2_mem_left hR y hy
        exact Nat.le_of_lt (hyw.2 a hay)

/-- The copy loop panics when an element it has still to copy is not
`good`. -/
theorem copyLoop_fails {α β : Type} (proj : Obj → Option (List α)) (inj : List α → Obj)
    (F : Heap → α → Except Panic (Heap × α))
    (load : Heap → α → Option β) (reach : Heap → α → List Nat)
    (good : β → Prop)
    (hF : Framed load reach) (hC : Copies F load reach good) (hX : Fails F load good)
    (h : Heap) (r : SliceHdr) (xs : List α) (vs : List β)
    (hw : window proj h r = some xs)
    (hvs : List.Forall₂ (fun x v => load h x = some v) xs vs) :
    ∀ (k i : Nat) (H : Heap), i + k = r.len → Extends h H →
      (∃ j v, i ≤ j ∧ vs[j]? = some v ∧ ¬ good v) →
      ∃ p, copyLoop proj inj F r { arr := h.length, off := 0, len := r.len } k i H
        = Except.error p := by
  have hxs : xs.length = r.len := (window_bound proj h r xs hw).2
  have hra : r.arr < h.length := (window_bound proj h r xs hw).1
  have hlen : vs.length = r.len := by rw [← hvs.length_eq, hxs]
  intro k
  induction k with
  | zero =>
    intro i H hik _ hbad
    obtain ⟨j, v, hij, hj, -⟩ := hbad
    rw [List.getElem?_eq_none (by omega)] at hj
    cases hj
  | succ k ih =>
    intro i H hik hE hbad
    have hwH : window proj H r = some xs := by
      rw [window_congr proj h H r (hE.2 r.arr hra), hw]
    obtain ⟨x, hx⟩ : ∃ x, xs[i]? = some x := ⟨xs[i], List.getElem?_eq_getElem (by omega)⟩
    obtain ⟨v, hv, hxv⟩ := forall2_getElem? hvs i x hx
    have hidx : index proj H r i = Except.ok x := by
      simp only [index, hwH, hx]
    by_cases hgv : good v
    · obtain ⟨H2, y, hFy, hE2, -, -⟩ := hC H x v (hF.extends hxv hE).1 hgv
      cases hasg : assign proj inj H2 { arr := h.length, off := 0, len := r.len } i y with
      | error p => exact ⟨p, by simp only [copyLoop, hidx, hFy, hasg]⟩
      | ok H3 =>
        have hH3 : ∃ o, H3 = H2.set h.length o := by
          simp only [assign] at hasg
          split at hasg
          · cases hasg
          · split at hasg
            · cases hasg
            · split at hasg
              · split at hasg
                · cases hasg
                  exact ⟨_, rfl⟩
                · cases hasg
              · cases hasg
        obtain ⟨o, rfl⟩ := hH3
        have hE3 : Extends h (H2.set h.length o) := by
          refine ⟨by rw [List.length_set]; exact Nat.le_trans hE.1 hE2.1, fun a ha => ?_⟩
          rw [List.getElem?_set_ne (Nat.ne_of_gt ha), hE2.2 a (Nat.lt_of_lt_of_le ha hE.1),
            hE.2 a ha]
        obtain ⟨j, w, hij, hj, hw1⟩ := hbad
        have hne : j ≠ i := by
          intro e
          subst e
          rw [hv] at hj
          cases hj
          exact hw1 hgv
        obtain ⟨p, hp⟩ := ih (i + 1) (H2.set h.length o) (by omega) hE3
          ⟨j, w, by omega, hj, hw1⟩
        exact ⟨p, by simp only [copyLoop, hidx, hFy, hasg, hp]⟩
    · obtain ⟨p, hp⟩ := hX H x v (hF.extends hxv hE).1 hgv
      exact ⟨p, by simp only [copyLoop, hidx, hp]⟩

/-- The copy of a slice panics when the body of the loop panics on one of its
elements. -/
theorem fails_slice {α β : Type} (proj : Obj → Option (List α)) (inj : List α → Obj) (zero : α)
    (F : Heap → α → Except Panic (Heap × α))
    (load : Heap → α → Option β) (reach : Heap → α → List Nat)
    (good : β → Prop)
    (hF : Framed load reach) (hC : Copies F load reach good) (hX : Fails F load good) :
    Fails (cloneSlice proj inj zero F) (loadSlice proj load) (sliceGood good) := by
  intro h s v hv hbad
  cases s with
  | none =>
    simp only [loadSlice, Option.some.injEq] at hv
    subst hv
    exact absurd (fun w hw => by cases hw) hbad
  | some r =>
    obtain ⟨xs, vs, hw, hl, hvs⟩ := (loadSlice_eq_some_iff proj load h r v).mp hv
    subst hvs
    have hf := (loadAll_eq_some_iff (load h) xs vs).mp hl
    have hex : ∃ j w, 0 ≤ j ∧ vs[j]? = some w ∧ ¬ good w := by
      by_contra hc
      apply hbad
      intro w hw
      by_contra hgw
      have hw2 : w ∈ vs := hw
      obtain ⟨j, hj, e⟩ := List.getElem_of_mem hw2
      exact hc ⟨j, w, Nat.zero_le _, by rw [List.getElem?_eq_getElem hj, e], hgw⟩
    obtain ⟨p, hp⟩ := copyLoop_fails proj inj F load reach good hF hC hX h r xs vs hw hf
      r.len 0 (h ++ [inj (List.replicate r.len zero)]) (by omega) (Extends.append h _) hex
    exact ⟨p, by simp only [cloneSlice, make, hp]⟩

/-! ### The elements: balances, balance vectors, sub-allocations, assets -/

theorem framed_bal : Framed loadBal reachBal := by
  constructor
  · intro h p v hv a ha
    cases p with
    | none => cases ha
    | some b =>
      simp only [reachBal, List.mem_singleton] at ha
      subst ha
      by_contra hc
      simp only [loadBal, List.getElem?_eq_none (Nat.le_of_not_lt hc)] at hv
      cases hv
  · intro h h1 p v hv hagree
    cases p with
    | none => exact ⟨hv, rfl⟩
    | some b =>
      refine ⟨?_, rfl⟩
      have := hagree b (by simp [reachBal])
      simp only [loadBal] at hv
      simp only [loadBal, this]
      exact hv

/-- A pointer whose balance is the number `w` points to a `big.Int` of value
`w`. -/
theorem loadBal_some (h : Heap) (x : Ptr) (w : Int) (hv : loadBal h x = some (some w)) :
    ∃ a, x = some a ∧ h[a]? = some (Obj.bigInt w) := by
  cases x with
  | none => simp [loadBal] at hv
  | some a =>
    refine ⟨a, rfl, ?_⟩
    simp only [loadBal] at hv
    split at hv
    · next v e =>
      simp only [Option.some.injEq] at hv
      rw [e, hv]
    · cases hv

/-- A pointer whose balance is nil is the nil pointer. -/
theorem loadBal_nil (h : Heap) (x : Ptr) (hv : loadBal h x = some none) : x = none := by
  cases x with
  | none => rfl
  | some a =>
    simp only [loadBal] at hv
    split at hv <;> cases hv

theorem copies_bal : Copies newBigIntSet loadBal reachBal balGood := by
  intro h x v hv hgood
  cases v with
  | none => cases hgood
  | some w =>
    have hx : loadBal (h ++ [Obj.bigInt 0]) x = some (some w) :=
      (framed_bal.extends hv (Extends.append h _)).1
    have hz : (h ++ [Obj.bigInt 0])[h.length]? = some (Obj.bigInt 0) := by simp
    refine ⟨(h ++ [Obj.bigInt 0]).set h.length (Obj.bigInt w), some h.length, ?_, ?_, ?_, ?_⟩
    · simp only [newBigIntSet, newBigInt, BigIntSet, hx, hz]
    · refine ⟨by simp, fun a ha => ?_⟩
      rw [List.getElem?_set_ne (Nat.ne_of_gt ha), List.getElem?_append_left ha]
    · have : ((h ++ [Obj.bigInt 0]).set h.length (Obj.bigInt w))[h.length]?
          = some (Obj.bigInt w) := by
        rw [List.getElem?_set_self (by simp)]
      simp only [loadBal, this]
    · intro a ha
      simp only [reachBal, List.mem_singleton] at ha
      omega

theorem fails_bal : Fails newBigIntSet loadBal balGood := by
  intro h x v hv hbad
  cases v with
  | some w => exact absurd rfl hbad
  | none =>
    have hx := loadBal_nil h x hv
    subst hx
    exact ⟨Panic.nilDereference, by simp only [newBigIntSet, newBigInt, BigIntSet, loadBal]⟩

theorem framed_bals : Framed loadBals reachBals :=
  framed_slice Obj.asBals loadBal reachBal framed_bal

theorem CloneBals_eq_cloneSlice (h : Heap) (orig : SliceRef) :
    CloneBals h orig = cloneSlice Obj.asBals Obj.bals none newBigIntSet h orig := by
  cases orig <;> rfl

theorem copies_bals : Copies CloneBals loadBals reachBals (sliceGood balGood) := by
  intro h x v hv hg
  rw [CloneBals_eq_cloneSlice]
  exact copies_slice Obj.asBals Obj.bals none newBigIntSet loadBal reachBal balGood
    (fun _ => rfl) framed_bal copies_bal h x v hv hg

theorem fails_bals : Fails CloneBals loadBals (sliceGood balGood) := by
  intro h x v hv hg
  rw [CloneBals_eq_cloneSlice]
  exact fails_slice Obj.asBals Obj.bals none newBigIntSet loadBal reachBal balGood
    framed_bal copies_bal fails_bal h x v hv hg

theorem framed_subAlloc : Framed loadSubAlloc (fun h l => reachBals h l.Bals) := by
  constructor
  · intro h l v hv a ha
    simp only [loadSubAlloc] at hv
    cases hb : loadBals h l.Bals with
    | none => rw [hb] at hv; cases hv
    | some bals => exact framed_bals.bound h l.Bals bals hb a ha
  · intro h h1 l v hv hagree
    simp only [loadSubAlloc] at hv
    cases hb : loadBals h l.Bals with
    | none => rw [hb] at hv; cases hv
    | some bals =>
      rw [hb] at hv
      obtain ⟨e1, e2⟩ := framed_bals.frame h h1 l.Bals bals hb hagree
      exact ⟨by simp only [loadSubAlloc, e1]; exact hv, e2⟩

theorem copies_subAlloc :
    Copies cloneSubAlloc loadSubAlloc (fun h l => reachBals h l.Bals) subAllocGood := by
  intro h l v hv hg
  simp only [loadSubAlloc] at hv
  cases hb : loadBals h l.Bals with
  | none => rw [hb] at hv; cases hv
  | some bals =>
    rw [hb] at hv
    have hgb : sliceGood balGood bals := by
      simp only [Option.some.injEq] at hv
      subst hv
      exact hg
    obtain ⟨h1, y, hc, hE, hy, hr⟩ := copies_bals h l.Bals bals hb hgb
    refine ⟨h1, { ID := l.ID, Bals := y }, ?_, hE, ?_, hr⟩
    · simp only [cloneSubAlloc, hc]
    · simp only [loadSubAlloc, hy]
      exact hv

theorem fails_subAlloc : Fails cloneSubAlloc loadSubAlloc subAllocGood := by
  intro h l v hv hg
  simp only [loadSubAlloc] at hv
  cases hb : loadBals h l.Bals with
  | none => rw [hb] at hv; cases hv
  | some bals =>
    rw [hb] at hv
    have hgb : ¬ sliceGood balGood bals := by
      simp only [Option.some.injEq] at hv
      subst hv
      exact hg
    obtain ⟨p, hp⟩ := fails_bals h l.Bals bals hb hgb
    exact ⟨p, by simp only [cloneSubAlloc, hp]⟩

theorem framed_asset : Framed (fun (_ : Heap) (x : Asset) => some x) (fun _ _ => []) :=
  ⟨fun _ _ _ _ _ ha => (by cases ha), fun _ _ _ _ hv _ => ⟨hv, rfl⟩⟩

theorem copies_asset :
    Copies (fun h1 (x : Asset) => Except.ok (h1, x)) (fun _ x => some x) (fun _ _ => [])
      (fun _ => True) :=
  fun h x _ hv _ => ⟨h, x, rfl, Extends.refl h, hv, fun _ ha => (by cases ha)⟩

theorem cloneAssets_eq_cloneSlice (h : Heap) (orig : SliceRef) :
    cloneAssets h orig
      = cloneSlice Obj.asAssets Obj.assets 0 (fun h1 x => Except.ok (h1, x)) h orig := by
  cases orig <;> rfl

theorem cloneOfParts_eq_cloneSlice (h : Heap) (orig : SliceRef) :
    cloneOfParts h orig = cloneSlice Obj.asRows Obj.rows none CloneBals h orig := by
  cases orig <;> rfl

theorem cloneLocked_eq_cloneSlice (h : Heap) (orig : SliceRef) :
    cloneLocked h orig
      = cloneSlice Obj.asSubs Obj.subs { ID := 0, Bals := none } cloneSubAlloc h orig := by
  cases orig <;> rfl

theorem framed_assets :
    Framed (loadSlice Obj.asAssets (fun _ x => some x)) (reachSlice Obj.asAssets (fun _ _ => [])) :=
  framed_slice _ _ _ framed_asset

theorem framed_rows :
    Framed (loadSlice Obj.asRows loadBals) (reachSlice Obj.asRows reachBals) :=
  framed_slice _ _ _ framed_bals

theorem framed_subs :
    Framed (loadSlice Obj.asSubs loadSubAlloc)
      (reachSlice Obj.asSubs (fun h1 l => reachBals h1 l.Bals)) :=
  framed_slice _ _ _ framed_subAlloc

theorem copies_assets :
    Copies cloneAssets (loadSlice Obj.asAssets (fun _ x => some x))
      (reachSlice Obj.asAssets (fun _ _ => [])) (fun _ => True) := by
  intro h x v hv _
  rw [cloneAssets_eq_cloneSlice]
  exact copies_slice _ _ _ _ _ _ (fun _ => True) (fun _ => rfl) framed_asset copies_asset
    h x v hv (fun _ _ => trivial)

theorem copies_rows :
    Copies cloneOfParts (loadSlice Obj.asRows loadBals) (reachSlice Obj.asRows reachBals)
      (sliceGood (sliceGood balGood)) := by
  intro h x v hv hg
  rw [cloneOfParts_eq_cloneSlice]
  exact copies_slice _ _ _ _ _ _ _ (fun _ => rfl) framed_bals copies_bals h x v hv hg

theorem fails_rows :
    Fails cloneOfParts (loadSlice Obj.asRows loadBals) (sliceGood (sliceGood balGood)) := by
  intro h x v hv hg
  rw [cloneOfParts_eq_cloneSlice]
  exact fails_slice _ _ _ _ _ _ _ framed_bals copies_bals fails_bals h x v hv hg

theorem copies_subs :
    Copies cloneLocked (loadSlice Obj.asSubs loadSubAlloc)
      (reachSlice Obj.asSubs (fun h1 l => reachBals h1 l.Bals)) (sliceGood subAllocGood) := by
  intro h x v hv hg
  rw [cloneLocked_eq_cloneSlice]
  exact copies_slice _ _ _ _ _ _ _ (fun _ => rfl) framed_subAlloc copies_subAlloc h x v hv hg

theorem fails_subs :
    Fails cloneLocked (loadSlice Obj.asSubs loadSubAlloc) (sliceGood subAllocGood) := by
  intro h x v hv hg
  rw [cloneLocked_eq_cloneSlice]
  exact fails_slice _ _ _ _ _ _ _ framed_subAlloc copies_subAlloc fails_subAlloc h x v hv hg

/-- A slice value is nil exactly when the slice in memory is nil. -/
theorem loadSlice_nil_iff {α β : Type} (proj : Obj → Option (List α))
    (load : Heap → α → Option β) (h : Heap) (s : SliceRef) (v : Slice β)
    (hv : loadSlice proj load h s = some v) : v = none ↔ s = none := by
  cases s with
  | none =>
    simp only [loadSlice, Option.some.injEq] at hv
    simp [← hv]
  | some r =>
    obtain ⟨xs, vs, -, -, e⟩ := (loadSlice_eq_some_iff proj load h r v).mp hv
    simp [e]

theorem load_eq_some_iff (h : Heap) (a : Allocation) (A : channel.Allocation) :
    load h a = some A ↔
      loadSlice Obj.asAssets (fun _ x => some x) h a.Assets = some A.Assets ∧
      loadSlice Obj.asRows loadBals h a.OfParts = some A.OfParts ∧
      loadSlice Obj.asSubs loadSubAlloc h a.Locked = some A.Locked := by
  simp only [load]
  constructor
  · intro e
    cases h1 : loadSlice Obj.asAssets (fun _ x => some x) h a.Assets with
    | none => simp [h1] at e
    | some v1 =>
      cases h2 : loadSlice Obj.asRows loadBals h a.OfParts with
      | none => simp [h1, h2] at e
      | some v2 =>
        cases h3 : loadSlice Obj.asSubs loadSubAlloc h a.Locked with
        | none => simp [h1, h2, h3] at e
        | some v3 =>
          simp only [h1, h2, h3, Option.some.injEq] at e
          subst e
          exact ⟨rfl, rfl, rfl⟩
  · rintro ⟨h1, h2, h3⟩
    simp only [h1, h2, h3]

/-- The value `load` reads depends only on the objects `reach` lists. -/
theorem framed_allocation : Framed load reach := by
  constructor
  · intro h a A hv x hx
    obtain ⟨h1, h2, h3⟩ := (load_eq_some_iff h a A).mp hv
    simp only [reach, List.mem_append] at hx
    rcases hx with (hx | hx) | hx
    · exact framed_assets.bound h _ _ h1 x hx
    · exact framed_rows.bound h _ _ h2 x hx
    · exact framed_subs.bound h _ _ h3 x hx
  · intro h H a A hv hagree
    obtain ⟨h1, h2, h3⟩ := (load_eq_some_iff h a A).mp hv
    obtain ⟨e1, r1⟩ := framed_assets.frame h H _ _ h1 (fun x hx =>
      hagree x (by simp only [reach, List.mem_append]; exact Or.inl (Or.inl hx)))
    obtain ⟨e2, r2⟩ := framed_rows.frame h H _ _ h2 (fun x hx =>
      hagree x (by simp only [reach, List.mem_append]; exact Or.inl (Or.inr hx)))
    obtain ⟨e3, r3⟩ := framed_subs.frame h H _ _ h3 (fun x hx =>
      hagree x (by simp only [reach, List.mem_append]; exact Or.inr hx))
    exact ⟨(load_eq_some_iff H a A).mpr ⟨e1, e2, e3⟩, by simp only [reach, r1, r2, r3]⟩

theorem nonNil_iff_good (A : channel.Allocation) :
    A.nonNil = true ↔
      sliceGood (sliceGood balGood) A.OfParts ∧ sliceGood subAllocGood A.Locked :=
  channel.nonNil_iff A

/-- `Clone` returns a copy of every allocation that has a value without nil
balance. -/
theorem copies_allocation : Copies Allocation.Clone load reach (fun A => A.nonNil = true) := by
  intro h a A hv hn
  obtain ⟨g2, g3⟩ := (nonNil_iff_good A).mp hn
  obtain ⟨l1, l2, l3⟩ := (load_eq_some_iff h a A).mp hv
  obtain ⟨H1, c1, hc1, hE1, hv1, hr1⟩ := copies_assets h a.Assets A.Assets l1 trivial
  obtain ⟨H2, c2, hc2, hE2, hv2, hr2⟩ :=
    copies_rows H1 a.OfParts A.OfParts (framed_rows.extends l2 hE1).1 g2
  obtain ⟨H3, c3, hc3, hE3, hv3, hr3⟩ :=
    copies_subs H2 a.Locked A.Locked (framed_subs.extends l3 (hE1.trans hE2)).1 g3
  refine ⟨H3, { Assets := c1, OfParts := c2, Locked := c3 }, ?_, (hE1.trans hE2).trans hE3,
    ?_, ?_⟩
  · simp only [Allocation.Clone, hc1, hc2, hc3]
  · rw [load_eq_some_iff]
    exact ⟨(framed_assets.extends hv1 (hE2.trans hE3)).1, (framed_rows.extends hv2 hE3).1, hv3⟩
  · intro x hx
    simp only [reach, List.mem_append] at hx
    rcases hx with (hx | hx) | hx
    · rw [(framed_assets.extends hv1 (hE2.trans hE3)).2] at hx
      exact hr1 x hx
    · rw [(framed_rows.extends hv2 hE3).2] at hx
      exact Nat.le_trans hE1.1 (hr2 x hx)
    · exact Nat.le_trans (hE1.trans hE2).1 (hr3 x hx)

/-- `Clone` panics on every allocation that has a value with a nil balance. -/
theorem fails_allocation : Fails Allocation.Clone load (fun A => A.nonNil = true) := by
  intro h a A hv hn
  obtain ⟨l1, l2, l3⟩ := (load_eq_some_iff h a A).mp hv
  obtain ⟨H1, c1, hc1, hE1, -, -⟩ := copies_assets h a.Assets A.Assets l1 trivial
  by_cases g2 : sliceGood (sliceGood balGood) A.OfParts
  · obtain ⟨H2, c2, hc2, hE2, -, -⟩ :=
      copies_rows H1 a.OfParts A.OfParts (framed_rows.extends l2 hE1).1 g2
    have g3 : ¬ sliceGood subAllocGood A.Locked :=
      fun g3 => hn ((nonNil_iff_good A).mpr ⟨g2, g3⟩)
    obtain ⟨p, hp⟩ :=
      fails_subs H2 a.Locked A.Locked (framed_subs.extends l3 (hE1.trans hE2)).1 g3
    exact ⟨p, by simp only [Allocation.Clone, hc1, hc2, hp]⟩
  · obtain ⟨p, hp⟩ := fails_rows H1 a.OfParts A.OfParts (framed_rows.extends l2 hE1).1 g2
    exact ⟨p, by simp only [Allocation.Clone, hc1, hp]⟩

/-! ### Every allocation can be held in memory -/

theorem storable_list {α β : Type} (load : Heap → α → Option β) (reach : Heap → α → List Nat)
    (hF : Framed load reach) (hS : Storable load) (vs : List β) :
    ∀ h : Heap, ∃ h1 xs, Extends h h1 ∧ List.Forall₂ (fun x v => load h1 x = some v) xs vs := by
  induction vs with
  | nil => intro h; exact ⟨h, [], Extends.refl h, List.Forall₂.nil⟩
  | cons v t ih =>
    intro h
    obtain ⟨h1, xs, hE1, hf⟩ := ih h
    obtain ⟨h2, x, hE2, hx⟩ := hS v h1
    exact ⟨h2, x :: xs, hE1.trans hE2,
      List.Forall₂.cons hx (hf.imp (fun _ _ hr => (hF.extends hr hE2).1))⟩

theorem storable_slice {α β : Type} (proj : Obj → Option (List α)) (inj : List α → Obj)
    (load : Heap → α → Option β) (reach : Heap → α → List Nat)
    (hpi : ∀ slots, proj (inj slots) = some slots)
    (hF : Framed load reach) (hS : Storable load) : Storable (loadSlice proj load) := by
  intro v h
  cases v with
  | none => exact ⟨h, none, Extends.refl h, rfl⟩
  | some vs =>
    obtain ⟨h1, xs, hE1, hf⟩ := storable_list load reach hF hS vs h
    have hE2 : Extends h1 (h1 ++ [inj xs]) := Extends.append h1 _
    refine ⟨h1 ++ [inj xs], some { arr := h1.length, off := 0, len := xs.length },
      hE1.trans hE2, ?_⟩
    rw [loadSlice_eq_some_iff]
    refine ⟨xs, vs, ?_, ?_, rfl⟩
    · simp [window, hpi]
    · rw [loadAll_eq_some_iff]
      exact hf.imp (fun _ _ hr => (hF.extends hr hE2).1)

theorem storable_bal : Storable loadBal := by
  intro v h
  cases v with
  | none => exact ⟨h, none, Extends.refl h, rfl⟩
  | some w =>
    refine ⟨h ++ [Obj.bigInt w], some h.length, Extends.append h _, ?_⟩
    simp [loadBal]

theorem storable_bals : Storable loadBals :=
  storable_slice Obj.asBals Obj.bals loadBal reachBal (fun _ => rfl) framed_bal storable_bal

theorem storable_subAlloc : Storable loadSubAlloc := by
  intro v h
  obtain ⟨h1, s, hE, hs⟩ := storable_bals v.Bals h
  exact ⟨h1, { ID := v.ID, Bals := s }, hE, by simp only [loadSubAlloc, hs]⟩

/-- Every allocation is the value of an allocation in memory. -/
theorem storable_allocation : Storable load := by
  intro A h
  obtain ⟨h1, s1, hE1, e1⟩ := storable_slice Obj.asAssets Obj.assets (fun _ x => some x)
    (fun _ _ => []) (fun _ => rfl) framed_asset (fun v h0 => ⟨h0, v, Extends.refl h0, rfl⟩)
    A.Assets h
  obtain ⟨h2, s2, hE2, e2⟩ := storable_slice Obj.asRows Obj.rows loadBals reachBals
    (fun _ => rfl) framed_bals storable_bals A.OfParts h1
  obtain ⟨h3, s3, hE3, e3⟩ := storable_slice Obj.asSubs Obj.subs loadSubAlloc
    (fun h0 l => reachBals h0 l.Bals) (fun _ => rfl) framed_subAlloc storable_subAlloc
    A.Locked h2
  refine ⟨h3, { Assets := s1, OfParts := s2, Locked := s3 }, (hE1.trans hE2).trans hE3, ?_⟩
  rw [load_eq_some_iff]
  exact ⟨(framed_assets.extends e1 (hE2.trans hE3)).1, (framed_rows.extends e2 hE3).1, e3⟩

/-! ## Theorems: `Clone` -/

/-- What `Clone` returns, when it returns, is the copy `copies_allocation`
speaks of: `Clone` returns only on allocations without nil balance. -/
theorem Clone_returns (h : Heap) (orig : Allocation) (A : channel.Allocation)
    (hv : load h orig = some A) (h1 : Heap) (clone : Allocation)
    (hc : Allocation.Clone h orig = Except.ok (h1, clone)) :
    A.nonNil = true ∧ Extends h h1 ∧ load h1 clone = some A ∧
      ∀ a ∈ reach h1 clone, h.length ≤ a := by
  by_cases hn : A.nonNil = true
  · obtain ⟨h2, clone2, hc2, hE, hl, hr⟩ := copies_allocation h orig A hv hn
    rw [hc] at hc2
    cases hc2
    exact ⟨hn, hE, hl, hr⟩
  · obtain ⟨p, hp⟩ := fails_allocation h orig A hv hn
    rw [hc] at hp
    cases hp

/-- The claim C7 as stated fails: the allocation `nilOrig` in `nilHeap` has
the value `nilBalance`, and `Clone` returns no clone of it: it panics on the
nil balance. -/
theorem Clone_panics_on_nilBalance :
    load nilHeap nilOrig = some nilBalance ∧
    Allocation.Clone nilHeap nilOrig = Except.error Panic.nilDereference := by
  refine ⟨by decide, by decide⟩

/-- C7, amended: every allocation `A` can be held in memory, and wherever one
without nil balance is held, `Clone` returns and the clone has the value `A` of
the original, field by field: the same assets in the same order, the same rows
with equal balances at every position, the same locked entries with equal IDs
and balances, a nil slice where the original has a nil slice and a non-nil one
elsewhere; `Assets`, `OfParts` and `Locked` of the clone are nil exactly when
those of the original are. On an allocation with a nil balance `Clone` panics.
`CloneBals(nil)` is nil, and the value of a slice in memory tells nil from
empty. -/
theorem Clone_equal_orig (A : channel.Allocation) :
    (∃ h orig, load h orig = some A) ∧
    ∀ (h : Heap) (orig : Allocation), load h orig = some A →
      (A.nonNil = true →
        ∃ h1 clone, Allocation.Clone h orig = Except.ok (h1, clone) ∧
          load h1 clone = some A ∧
          (clone.Assets = none ↔ orig.Assets = none) ∧
          (clone.OfParts = none ↔ orig.OfParts = none) ∧
          (clone.Locked = none ↔ orig.Locked = none)) ∧
      (A.nonNil = false → ∃ p, Allocation.Clone h orig = Except.error p) ∧
      CloneBals h none = Except.ok (h, none) ∧
      (∀ (H : Heap) (s : SliceRef) (v : Slice Bal), loadBals H s = some v →
        (v = none ↔ s = none)) := by
  refine ⟨?_, fun h orig hv => ⟨fun hn => ?_, fun hn => ?_, rfl, ?_⟩⟩
  · obtain ⟨h1, x, -, e⟩ := storable_allocation A []
    exact ⟨h1, x, e⟩
  · obtain ⟨h1, clone, hc, -, hl, -⟩ := copies_allocation h orig A hv hn
    obtain ⟨a1, a2, a3⟩ := (load_eq_some_iff h orig A).mp hv
    obtain ⟨c1, c2, c3⟩ := (load_eq_some_iff h1 clone A).mp hl
    refine ⟨h1, clone, hc, hl, ?_, ?_, ?_⟩
    · rw [← loadSlice_nil_iff _ _ _ _ _ c1, ← loadSlice_nil_iff _ _ _ _ _ a1]
    · rw [← loadSlice_nil_iff _ _ _ _ _ c2, ← loadSlice_nil_iff _ _ _ _ _ a2]
    · rw [← loadSlice_nil_iff _ _ _ _ _ c3, ← loadSlice_nil_iff _ _ _ _ _ a3]
  · exact fails_allocation h orig A hv (fun ht => by
      have ht1 : A.nonNil = true := ht
      rw [hn] at ht1
      cases ht1)
  · intro H s v e
    exact loadSlice_nil_iff _ _ _ _ _ e

/-- Instance of C7: the clone of the example allocation has its value. -/
theorem Clone_equal_orig_witness :
    load exampleHeap exampleOrig = some exampleValue ∧
    ∃ h1 clone, Allocation.Clone exampleHeap exampleOrig = Except.ok (h1, clone) ∧
      load h1 clone = some exampleValue :=
  ⟨by decide,
   let ⟨h1, clone, e1, e2, _⟩ :=
     ((Clone_equal_orig exampleValue).2 exampleHeap exampleOrig (by decide)).1 (by decide)
   ⟨h1, clone, e1, e2⟩⟩

/-- The claim C4 as stated fails: the allocation `nilBalance` is valid and is
held in `nilHeap`, and `Clone` returns no clone of it, valid or not. -/
theorem Clone_of_valid_panics :
    nilBalance.valid = none ∧ load nilHeap nilOrig = some nilBalance ∧
    ¬ ∃ h1 clone, Allocation.Clone nilHeap nilOrig = Except.ok (h1, clone) := by
  refine ⟨by decide, by decide, ?_⟩
  rintro ⟨h1, clone, hc⟩
  have e : Allocation.Clone nilHeap nilOrig = Except.error Panic.nilDereference := by decide
  rw [e] at hc
  cases hc

/-- C4, amended: every valid allocation `A` without nil balance can be held in
memory, and wherever it is held, `Clone` returns, the clone is valid, and `Sum`
returns the same totals on the clone as on the original: as many, and equal at
every index. -/
theorem Clone_valid_Sum (A : channel.Allocation) (hvalid : A.valid = none)
    (hn : A.nonNil = true) :
    (∃ h orig, load h orig = some A) ∧
    ∀ (h : Heap) (orig : Allocation), load h orig = some A →
      ∃ h1 clone A1, Allocation.Clone h orig = Except.ok (h1, clone) ∧
        load h1 clone = some A1 ∧ A1.valid = none ∧
        ∃ totals totals1, A.Sum = Except.ok totals ∧ A1.Sum = Except.ok totals1 ∧
          totals1.length = totals.length ∧
          ∀ i, i < totals.length → totals1[i]? = totals[i]? := by
  refine ⟨?_, fun h orig hv => ?_⟩
  · obtain ⟨h1, x, -, e⟩ := storable_allocation A []
    exact ⟨h1, x, e⟩
  obtain ⟨h1, clone, hc, -, hl, -⟩ := copies_allocation h orig A hv hn
  obtain ⟨totals, ht, -, -⟩ := Sum_of_valid A hvalid hn
  exact ⟨h1, clone, A, hc, hl, hvalid, totals, totals, ht, ht, rfl, fun _ _ => rfl⟩

/-- Instance of C4: the example allocation is valid, and so is its clone. -/
theorem Clone_valid_Sum_witness :
    exampleValue.valid = none ∧
    ∃ h1 clone A1, Allocation.Clone exampleHeap exampleOrig = Except.ok (h1, clone) ∧
      load h1 clone = some A1 ∧ A1.valid = none :=
  ⟨by decide,
   let ⟨h1, clone, A1, e1, e2, e3, _⟩ :=
     (Clone_valid_Sum exampleValue (by decide) (by decide)).2 exampleHeap exampleOrig
       (by decide)
   ⟨h1, clone, A1, e1, e2, e3⟩⟩

/-- C8: the clone shares no object with the original. Every allocation `A`
can be held in memory, `Clone` returns wherever one without nil balance is
held, and wherever `A` is held and `Clone` has returned: the original still has
its value, the clone has it too, and no object that holds the clone holds the
original. Overwriting any object that holds the clone (a `big.Int` when a
balance is changed in place, a backing array when a balance or a row is
replaced), and more generally changing the heap only at objects that hold the
clone, leaves the value of the original, and so its `Sum`, unchanged; and the
same holds with the clone and the original exchanged. -/
theorem Clone_independent (A : channel.Allocation) :
    (∃ h orig, load h orig = some A) ∧
    ∀ (h : Heap) (orig : Allocation), load h orig = some A →
      (A.nonNil = true → ∃ h1 clone, Allocation.Clone h orig = Except.ok (h1, clone)) ∧
      ∀ (h1 : Heap) (clone : Allocation), Allocation.Clone h orig = Except.ok (h1, clone) →
        load h1 orig = some A ∧ load h1 clone = some A ∧
        (∀ x ∈ reach h1 clone, x ∉ reach h1 orig) ∧
        (∀ x ∈ reach h1 clone, ∀ o : Obj,
          load (h1.set x o) orig = some A ∧
          Option.map channel.Allocation.Sum (load (h1.set x o) orig) = some A.Sum) ∧
        (∀ x ∈ reach h1 orig, ∀ o : Obj,
          load (h1.set x o) clone = some A ∧
          Option.map channel.Allocation.Sum (load (h1.set x o) clone) = some A.Sum) ∧
        (∀ h2 : Heap, (∀ x, x ∉ reach h1 clone → h2[x]? = h1[x]?) → load h2 orig = some A) ∧
        (∀ h2 : Heap, (∀ x, x ∉ reach h1 orig → h2[x]? = h1[x]?) → load h2 clone = some A) := by
  refine ⟨?_, fun h orig hv => ⟨fun hn => ?_, fun h1 clone hc => ?_⟩⟩
  · obtain ⟨h1, x, -, e⟩ := storable_allocation A []
    exact ⟨h1, x, e⟩
  · obtain ⟨h1, clone, hc, -⟩ := copies_allocation h orig A hv hn
    exact ⟨h1, clone, hc⟩
  obtain ⟨-, hE, hl, hr⟩ := Clone_returns h orig A hv h1 clone hc
  obtain ⟨ho, hro⟩ := framed_allocation.extends hv hE
  have hlt : ∀ x ∈ reach h1 orig, x < h.length := by
    intro x hx
    rw [hro] at hx
    exact framed_allocation.bound h orig A hv x hx
  have hdis : ∀ x ∈ reach h1 clone, x ∉ reach h1 orig := by
    intro x hx hxo
    have := hr x hx
    have := hlt x hxo
    omega
  refine ⟨ho, hl, hdis, ?_, ?_, ?_, ?_⟩
  · intro x hx o
    have e := (framed_allocation.set ho x o (hdis x hx)).1
    exact ⟨e, by rw [e]; rfl⟩
  · intro x hx o
    have e := (framed_allocation.set hl x o (fun hxc => hdis x hxc hx)).1
    exact ⟨e, by rw [e]; rfl⟩
  · intro h2 hagree
    exact (framed_allocation.frame h1 h2 orig A ho
      (fun x hx => hagree x (fun hxc => hdis x hxc hx))).1
  · intro h2 hagree
    exact (framed_allocation.frame h1 h2 clone A hl (fun x hx => hagree x (hdis x hx))).1

/-- Instance of C8: the clone of the example allocation is held in objects of
its own. -/
theorem Clone_independent_witness :
    ∃ h1 clone, Allocation.Clone exampleHeap exampleOrig = Except.ok (h1, clone) ∧
      load h1 exampleOrig = some exampleValue ∧ load h1 clone = some exampleValue ∧
      (∀ x ∈ reach h1 clone, x ∉ reach h1 exampleOrig) :=
  let ⟨h1, clone, e1⟩ :=
    ((Clone_independent exampleValue).2 exampleHeap exampleOrig (by decide)).1 (by decide)
  let ⟨e2, e3, e4, _⟩ :=
    ((Clone_independent exampleValue).2 exampleHeap exampleOrig (by decide)).2 h1 clone e1
  ⟨h1, clone, e1, e2, e3, e4⟩

end channel.mem

namespace msg

/-- C11: on a reader of bytes, `Decode` succeeds exactly when the reader yields
a first byte and that byte is below `channelMsgTypeEnd`, and it then stores
that byte; it returns an error on an empty reader and on every first byte that
is not below `channelMsgTypeEnd`; `Valid` is true exactly below
`channelMsgTypeEnd`, that is for `ChannelDummy` only. -/
theorem ChannelMsgType.Decode_ok_iff (t : ChannelMsgType) (reader : Reader)
    (hbytes : ∀ b ∈ reader, b < 256) :
    ((ChannelMsgType.Decode t reader).2.2 = none ↔
      ∃ b rest, reader = b :: rest ∧ b < channelMsgTypeEnd) ∧
    (∀ b rest, reader = b :: rest → b < channelMsgTypeEnd →
      ChannelMsgType.Decode t reader = (b, rest, none)) ∧
    (reader = [] →
      ChannelMsgType.Decode t reader = (t, [], some (TypeError.failedToRead IOError.EOF))) ∧
    (∀ b rest, reader = b :: rest → channelMsgTypeEnd ≤ b →
      ChannelMsgType.Decode t reader = (b, rest, some (TypeError.invalidEncoding b))) ∧
    (∀ u : ChannelMsgType, ChannelMsgType.Valid u = true ↔ u < channelMsgTypeEnd) ∧
    (∀ u : ChannelMsgType, u < channelMsgTypeEnd ↔ u = ChannelDummy) := by
  have hvalid : ∀ u : ChannelMsgType, ChannelMsgType.Valid u = true ↔ u < channelMsgTypeEnd := by
    intro u
    simp [ChannelMsgType.Valid]
  have hcons : ∀ b rest, reader = b :: rest →
      ChannelMsgType.Decode t reader
        = if b < channelMsgTypeEnd then (b, rest, none)
          else (b, rest, some (TypeError.invalidEncoding b)) := by
    intro b rest e
    have hb : b % 256 = b := Nat.mod_eq_of_lt (hbytes b (by simp [e]))
    subst e
    by_cases hlt : b < channelMsgTypeEnd
    · simp [ChannelMsgType.Decode, ReadFull, ChannelMsgType.Valid, hb, hlt]
    · simp [ChannelMsgType.Decode, ReadFull, ChannelMsgType.Valid, hb, hlt]
  have hnil : reader = [] →
      ChannelMsgType.Decode t reader = (t, [], some (TypeError.failedToRead IOError.EOF)) := by
    intro e
    subst e
    rfl
  refine ⟨⟨?_, ?_⟩, ?_, hnil, ?_, hvalid, ?_⟩
  · intro h
    cases hr : reader with
    | nil => rw [hnil hr] at h; cases h
    | cons b rest =>
      refine ⟨b, rest, rfl, ?_⟩
      by_contra hlt
      rw [hcons b rest hr, if_neg hlt] at h
      cases h
  · rintro ⟨b, rest, e, hlt⟩
    rw [hcons b rest e, if_pos hlt]
  · intro b rest e hlt
    rw [hcons b rest e, if_pos hlt]
  · intro b rest e hge
    rw [hcons b rest e, if_neg (Nat.not_lt.mpr hge)]
  · intro u
    exact Nat.lt_one_iff

/-- Instance of C11: the byte 0 decodes to `ChannelDummy`, the byte 1 does
not decode. -/
theorem ChannelMsgType.Decode_ok_iff_witness :
    ChannelMsgType.Decode 7 [0, 9] = (0, [9], none) ∧
    ChannelMsgType.Decode 7 [1, 9] = (1, [9], some (TypeError.invalidEncoding 1)) :=
  ⟨(ChannelMsgType.Decode_ok_iff 7 [0, 9] (by decide)).2.1 0 [9] rfl (by decide),
   (ChannelMsgType.Decode_ok_iff 7 [1, 9] (by decide)).2.2.2.1 1 [9] rfl (by decide)⟩

end msg

namespace channel

/-- The claim C18 as stated fails: `nilBalance` is valid, and
`equalSum(nilBalance, nilBalance)` is not `(true, nil)`: it panics. -/
theorem equalSum_not_reflexive :
    nilBalance.valid = none ∧
    equalSum nilBalance nilBalance ≠ Except.ok (true, none) ∧
    equalSum nilBalance nilBalance = Except.error Panic.nilDereference := by
  refine ⟨by decide, by decide, by decide⟩

/-- C18, amended: on valid allocations with the same number of assets
`equalSum` is reflexive on those that hold no nil balance, symmetric in its
result, and transitive; so it is an equivalence relation on the valid
allocations without nil balance. -/
theorem equalSum_equivalence (a b c : Allocation)
    (ha : a.valid = none) (hb : b.valid = none) (hc : c.valid = none)
    (hab : b.Assets.len = a.Assets.len) (hac : c.Assets.len = a.Assets.len) :
    (a.nonNil = true → equalSum a a = Except.ok (true, none)) ∧
    equalSum a b = equalSum b a ∧
    (equalSum a b = Except.ok (true, none) → equalSum b c = Except.ok (true, none) →
      equalSum a c = Except.ok (true, none)) := by
  have htrue : ∀ (x y : Allocation), x.valid = none → y.valid = none →
      x.nonNil = true → y.nonNil = true → y.Assets.len = x.Assets.len →
      (equalSum x y = Except.ok (true, none) ↔
        ∀ i, i < x.Assets.len → columnTotal x i = columnTotal y i) := by
    intro x y hx hy hnx hny hxy
    rw [equalSum_of_valid x y hx hy hnx hny hxy]
    by_cases hcond : ∀ i, i < x.Assets.len → columnTotal x i = columnTotal y i
    · rw [if_pos hcond]
      exact ⟨fun _ => hcond, fun _ => rfl⟩
    · rw [if_neg hcond]
      constructor
      · intro h
        simp at h
      · intro h
        exact absurd h hcond
  have hret : ∀ (x y : Allocation) r, x.valid = none → y.valid = none →
      equalSum x y = Except.ok r → x.nonNil = true ∧ y.nonNil = true := by
    intro x y r hx hy h
    constructor
    · cases hn : x.nonNil with
      | true => rfl
      | false =>
        rw [equalSum_valid_nil x y hx hy (Or.inl hn)] at h
        cases h
    · cases hn : y.nonNil with
      | true => rfl
      | false =>
        rw [equalSum_valid_nil x y hx hy (Or.inr hn)] at h
        cases h
  refine ⟨fun hna => (htrue a a ha ha hna hna rfl).mpr (fun _ _ => rfl), ?_, ?_⟩
  · cases hna : a.nonNil with
    | false =>
      rw [equalSum_valid_nil a b ha hb (Or.inl hna), equalSum_valid_nil b a hb ha (Or.inr hna)]
    | true =>
      cases hnb : b.nonNil with
      | false =>
        rw [equalSum_valid_nil a b ha hb (Or.inr hnb),
          equalSum_valid_nil b a hb ha (Or.inl hnb)]
      | true =>
        rw [equalSum_of_valid a b ha hb hna hnb hab,
          equalSum_of_valid b a hb ha hnb hna hab.symm]
        by_cases hcond : ∀ i, i < a.Assets.len → columnTotal a i = columnTotal b i
        · have hcond1 : ∀ i, i < b.Assets.len → columnTotal b i = columnTotal a i :=
            fun i hi => (hcond i (hab ▸ hi)).symm
          rw [if_pos hcond, if_pos hcond1]
        · have hcond1 : ¬ ∀ i, i < b.Assets.len → columnTotal b i = columnTotal a i :=
            fun h => hcond (fun i hi => (h i (hab.symm ▸ hi)).symm)
          rw [if_neg hcond, if_neg hcond1]
  · intro h1 h2
    obtain ⟨hna, hnb⟩ := hret a b _ ha hb h1
    obtain ⟨-, hnc⟩ := hret b c _ hb hc h2
    rw [htrue a b ha hb hna hnb hab] at h1
    rw [htrue b c hb hc hnb hnc (hac.trans hab.symm)] at h2
    rw [htrue a c ha hc hna hnc hac]
    intro i hi
    rw [h1 i hi, h2 i (hab ▸ hi)]

/-- Instance of C18: three valid allocations of one asset with total 7. -/
theorem equalSum_equivalence_witness :
    equalSum (Allocation.mk (some [1]) (some [balances [3], balances [4]]) none)
        (Allocation.mk (some [1]) (some [balances [3], balances [4]]) none)
      = Except.ok (true, none) ∧
    equalSum (Allocation.mk (some [1]) (some [balances [3], balances [4]]) none)
      (Allocation.mk (some [1]) (some [balances [5]]) (some [⟨9, balances [2]⟩]))
      = equalSum (Allocation.mk (some [1]) (some [balances [5]]) (some [⟨9, balances [2]⟩]))
          (Allocation.mk (some [1]) (some [balances [3], balances [4]]) none) :=
  ⟨(equalSum_equivalence (Allocation.mk (some [1]) (some [balances [3], balances [4]]) none)
    (Allocation.mk (some [1]) (some [balances [5]]) (some [⟨9, balances [2]⟩]))
    (Allocation.mk (some [1]) (some [balances [7]]) none)
    (by decide) (by decide) (by decide) (by decide) (by decide)).1 (by decide),
   (equalSum_equivalence (Allocation.mk (some [1]) (some [balances [3], balances [4]]) none)
    (Allocation.mk (some [1]) (some [balances [5]]) (some [⟨9, balances [2]⟩]))
    (Allocation.mk (some [1]) (some [balances [7]]) none)
    (by decide) (by decide) (by decide) (by decide) (by decide)).2.1⟩

end channel

namespace msg

/-! ## Theorems: channel messages -/

theorem idBytes_length (n : Nat) : ∀ id : Nat, (idBytes n id).length = n := by
  induction n with
  | zero => intro id; rfl
  | succ k ih => intro id; simp [idBytes, ih]

theorem idOfBytes_append_singleton (xs : List Nat) (b : Nat) :
    idOfBytes (xs ++ [b]) = idOfBytes xs * 256 + b % 256 := by
  simp [idOfBytes, List.foldl_append]

theorem idOfBytes_idBytes (n : Nat) : ∀ id : Nat, idOfBytes (idBytes n id) = id % 256 ^ n := by
  induction n with
  | zero => intro id; simp [idBytes, idOfBytes, Nat.mod_one]
  | succ k ih =>
    intro id
    rw [idBytes, idOfBytes_append_singleton, ih, Nat.mod_mod, pow_succ, Nat.mul_comm (256 ^ k) 256,
      Nat.mod_mul]
    ring

theorem ReadFull_append (xs rest : List Nat) :
    ReadFull (xs ++ rest) xs.length = Except.ok (xs, rest) := by
  simp [ReadFull]

theorem Decode_none_valid (t0 t : ChannelMsgType) (reader reader1 : Reader)
    (h : ChannelMsgType.Decode t0 reader = (t, reader1, none)) : t = ChannelDummy := by
  unfold ChannelMsgType.Decode at h
  cases hr : ReadFull reader 1 with
  | error e => rw [hr] at h; cases h
  | ok p =>
    obtain ⟨buf, rest⟩ := p
    rw [hr] at h
    simp only at h
    by_cases hv : ChannelMsgType.Valid (buf.getD 0 0 % 256) = true
    · rw [if_neg (not_not.mpr hv)] at h
      have h1 : buf.getD 0 0 % 256 = t := congrArg Prod.fst h
      rw [← h1]
      have : buf.getD 0 0 % 256 < 1 := by simpa [ChannelMsgType.Valid, channelMsgTypeEnd] using hv
      exact Nat.lt_one_iff.mp this
    · rw [if_pos hv] at h
      have h2 := congrArg (fun q => q.2.2) h
      cases h2

/-- C16: `decodeChannelMsg` never panics: on every input it returns, and what
it returns is one of its three errors (message type not read or invalid,
channel ID not read, body not decoded) or a message, whose type is then
`ChannelDummy`. -/
theorem decodeChannelMsg_never_panics {Body : Type} (idLen : Nat) (codec : BodyCodec Body)
    (reader : Reader) :
    (∀ p, decodeChannelMsg idLen codec reader ≠ Except.error p) ∧
    ((∃ e, decodeChannelMsg idLen codec reader
        = Except.ok (Except.error (DecodeError.failedToReadType e))) ∨
     (∃ e, decodeChannelMsg idLen codec reader
        = Except.ok (Except.error (DecodeError.failedToReadChannelID e))) ∨
     (∃ e, decodeChannelMsg idLen codec reader
        = Except.ok (Except.error (DecodeError.failedToDecode ChannelDummy e))) ∨
     (∃ m, decodeChannelMsg idLen codec reader = Except.ok (Except.ok m) ∧
        m.MsgType = ChannelDummy)) := by
  have key : (∃ e, decodeChannelMsg idLen codec reader
        = Except.ok (Except.error (DecodeError.failedToReadType e))) ∨
     (∃ e, decodeChannelMsg idLen codec reader
        = Except.ok (Except.error (DecodeError.failedToReadChannelID e))) ∨
     (∃ e, decodeChannelMsg idLen codec reader
        = Except.ok (Except.error (DecodeError.failedToDecode ChannelDummy e))) ∨
     (∃ m, decodeChannelMsg idLen codec reader = Except.ok (Except.ok m) ∧
        m.MsgType = ChannelDummy) := by
    unfold decodeChannelMsg
    cases hd : ChannelMsgType.Decode 0 reader with
    | mk t rest =>
      obtain ⟨reader1, err⟩ := rest
      cases err with
      | some e => exact Or.inl ⟨e, rfl⟩
      | none =>
        have ht : t = ChannelDummy := Decode_none_valid 0 t reader reader1 hd
        subst ht
        simp only
        cases hr : ReadFull reader1 idLen with
        | error e => exact Or.inr (Or.inl ⟨e, rfl⟩)
        | ok p =>
          obtain ⟨buf, reader2⟩ := p
          simp only [if_true]
          cases hb : codec.decode reader2 with
          | error e => exact Or.inr (Or.inr (Or.inl ⟨e, rfl⟩))
          | ok q =>
            obtain ⟨body, r3⟩ := q
            exact Or.inr (Or.inr (Or.inr ⟨_, rfl, rfl⟩))
  refine ⟨fun p hp => ?_, key⟩
  rcases key with ⟨e, h⟩ | ⟨e, h⟩ | ⟨e, h⟩ | ⟨m, h, -⟩ <;>
  · rw [h] at hp
    cases hp

/-- Instance of C16: a well-formed message, and an input that stops inside
the channel ID. -/
theorem decodeChannelMsg_never_panics_witness :
    decodeChannelMsg 2 byteCodec [0, 1, 2, 7] ≠ Except.error (Panic.unhandledType 0) ∧
    decodeChannelMsg 2 byteCodec [0, 1] ≠ Except.error (Panic.unhandledType 0) :=
  ⟨(decodeChannelMsg_never_panics 2 byteCodec [0, 1, 2, 7]).1 _,
   (decodeChannelMsg_never_panics 2 byteCodec [0, 1]).1 _⟩

/-- C17: for a message `m` of a valid type, written to an empty writer without
limit whose body `encode` appends the bytes `bs`: `encodeChannelMsg` writes the
type byte, then the bytes of `m.ChannelID()`, then the body; and
`decodeChannelMsg` on that output, followed by any bytes `rest`, reads the type
and the channel ID and hands the remaining bytes to the body `decode`: when the
body fails to decode it returns that error, and when the body decodes it
returns a message with the type and the channel ID of `m`. -/
theorem decodeChannelMsg_encodeChannelMsg {Body : Type} (idLen : Nat) (codec : BodyCodec Body)
    (m : ChannelMsg Body) (hvalid : ChannelMsgType.Valid m.MsgType = true)
    (hid : m.ChannelID < 256 ^ idLen) (bs : List Nat) (w3 : Writer)
    (henc : codec.encode m.body
      { out := [m.MsgType] ++ idBytes idLen m.ChannelID, room := none } = Except.ok w3)
    (hbs : w3.out = [m.MsgType] ++ idBytes idLen m.ChannelID ++ bs) :
    encodeChannelMsg idLen codec m { out := [], room := none } = Except.ok w3 ∧
    (idBytes idLen m.ChannelID).length = idLen ∧
    ∀ rest : List Nat,
      (∀ e, codec.decode (bs ++ rest) = Except.error e →
        decodeChannelMsg idLen codec (w3.out ++ rest)
          = Except.ok (Except.error (DecodeError.failedToDecode m.MsgType e))) ∧
      (∀ body r, codec.decode (bs ++ rest) = Except.ok (body, r) →
        ∃ m1, decodeChannelMsg idLen codec (w3.out ++ rest) = Except.ok (Except.ok m1) ∧
          m1.MsgType = m.MsgType ∧ m1.ChannelID = m.ChannelID ∧ m1.body = body) := by
  have ht1 : m.MsgType < 1 := by
    simpa [ChannelMsgType.Valid, channelMsgTypeEnd] using hvalid
  have ht : m.MsgType = 0 := Nat.lt_one_iff.mp ht1
  have hlen : (idBytes idLen m.ChannelID).length = idLen := idBytes_length idLen m.ChannelID
  have hidb : idOfBytes (idBytes idLen m.ChannelID) = m.ChannelID := by
    rw [idOfBytes_idBytes, Nat.mod_eq_of_lt hid]
  have hdec : ∀ tail : List Nat, ChannelMsgType.Decode 0 ([m.MsgType] ++ tail) = (0, tail, none) := by
    intro tail
    rw [ht]
    simp [ChannelMsgType.Decode, ReadFull, ChannelMsgType.Valid, channelMsgTypeEnd]
  have hread : ∀ tail : List Nat,
      ReadFull (idBytes idLen m.ChannelID ++ tail) idLen
        = Except.ok (idBytes idLen m.ChannelID, tail) := by
    intro tail
    have := ReadFull_append (idBytes idLen m.ChannelID) tail
    rwa [hlen] at this
  have hl : ∀ rest : List Nat, w3.out ++ rest
      = [m.MsgType] ++ (idBytes idLen m.ChannelID ++ (bs ++ rest)) := by
    intro rest
    rw [hbs]
    simp [List.append_assoc]
  refine ⟨?_, hlen, fun rest => ⟨?_, ?_⟩⟩
  · have h1 : ChannelMsgType.Encode m.MsgType { out := [], room := none }
        = Except.ok { out := [m.MsgType], room := none } := by
      rw [ht]
      rfl
    have h2 : Writer.Write { out := [m.MsgType], room := none } (idBytes idLen m.ChannelID)
        = Except.ok { out := [m.MsgType] ++ idBytes idLen m.ChannelID, room := none } := rfl
    simp only [encodeChannelMsg, h1, h2, henc]
  · intro e he
    rw [hl rest]
    simp only [decodeChannelMsg, hdec, hread, he]
    rw [ht]
    rfl
  · intro body r he
    rw [hl rest]
    refine ⟨DummyChannelMsg { channelID := idOfBytes (idBytes idLen m.ChannelID) } body, ?_, ?_,
      ?_, rfl⟩
    · simp only [decodeChannelMsg, hdec, hread, he]
      rfl
    · rw [ht]
      rfl
    · exact hidb

/-- Instance of C17: the message of type 0 with channel ID 258 and body 7,
with an ID of 32 bytes. -/
theorem decodeChannelMsg_encodeChannelMsg_witness :
    encodeChannelMsg 32 byteCodec ⟨0, ⟨258⟩, 7⟩ ⟨[], none⟩
      = Except.ok ⟨[0] ++ idBytes 32 258 ++ [7], none⟩ ∧
    ∃ m1, decodeChannelMsg 32 byteCodec ([0] ++ idBytes 32 258 ++ [7] ++ [])
        = Except.ok (Except.ok m1) ∧ m1.MsgType = 0 ∧ m1.ChannelID = 258 ∧ m1.body = 7 :=
  let h := decodeChannelMsg_encodeChannelMsg 32 byteCodec ⟨0, ⟨258⟩, 7⟩ (by decide) (by decide)
    [7] ⟨[0] ++ idBytes 32 258 ++ [7], none⟩ (by decide) (by decide)
  ⟨h.1, (h.2.2 []).2 7 [] (by decide)⟩

end msg

namespace ethtest

/-! ## Theorems: signature bytes -/

theorem bytesLE_length (fuel : Nat) :
    ∀ (k n : Nat), n < 256 ^ k → (bytesLE fuel n).length ≤ k := by
  induction fuel with
  | zero => intro k n _; simp [bytesLE]
  | succ f ih =>
    intro k n hn
    by_cases h0 : n = 0
    · simp [bytesLE, h0]
    · cases k with
      | zero =>
        simp only [pow_zero, Nat.lt_one_iff] at hn
        exact absurd hn h0
      | succ j =>
        have hdiv : n / 256 < 256 ^ j := by
          rw [Nat.div_lt_iff_lt_mul (by norm_num)]
          rw [pow_succ] at hn
          exact hn
        have := ih j (n / 256) hdiv
        simp only [bytesLE, h0, if_false, List.length_cons]
        omega

/-- The bytes `bytesLE` lists spell the number when the fuel is enough. -/
theorem bytesLE_value (fuel : Nat) :
    ∀ n : Nat, n < 256 ^ fuel → (bytesLE fuel n).foldr (fun b acc => b + 256 * acc) 0 = n := by
  induction fuel with
  | zero =>
    intro n hn
    simp only [pow_zero, Nat.lt_one_iff] at hn
    simp [bytesLE, hn]
  | succ f ih =>
    intro n hn
    by_cases h0 : n = 0
    · simp [bytesLE, h0]
    · have hdiv : n / 256 < 256 ^ f := by
        rw [Nat.div_lt_iff_lt_mul (by norm_num)]
        rw [pow_succ] at hn
        exact hn
      simp only [bytesLE, h0, if_false, List.foldr_cons, ih (n / 256) hdiv]
      omega

theorem Bytes_length (n : Nat) (hn : n < 2 ^ 256) : (Bytes n).length ≤ 32 := by
  unfold Bytes
  rw [List.length_reverse]
  exact bytesLE_length n 32 n (by norm_num at hn ⊢; exact hn)

theorem copyRightAligned_ok (sig : List Nat) (hi : Nat) (src : List Nat)
    (h1 : src.length ≤ hi) (h2 : hi ≤ sig.length) :
    ∃ sig1, copyRightAligned sig hi src = Except.ok sig1 ∧ sig1.length = sig.length := by
  refine ⟨sig.take (hi - src.length) ++ src ++ sig.drop hi, ?_, ?_⟩
  · simp [copyRightAligned, h1, h2]
  · simp only [List.length_append, List.length_take, List.length_drop]
    omega

theorem subByte_chain0 (rec : Nat) (hrec : rec = 0 ∨ rec = 1) :
    subByte (Uint64 (27 + rec) % 256) sigVSubtract = rec := by
  rcases hrec with rfl | rfl <;> decide

theorem subByte_chain (chainID : Int) (rec : Nat) (hrec : rec = 0 ∨ rec = 1)
    (h0 : 0 < chainID) (_h1 : chainID < 2 ^ 63) :
    subByte (Uint64 (2 * chainID + 35 + rec).toNat % 256)
      (byteOfInt64 (wrapInt64 (wrapInt64 (chainID * 2) + sigVAdd))) = rec := by
  simp only [subByte, Uint64, byteOfInt64, wrapInt64, sigVAdd]
  norm_num
  omega

theorem sigFromRSV_last (SigLen : Nat) (h65 : 65 ≤ SigLen) (r s : Nat)
    (hr : r < 2 ^ 256) (hs : s < 2 ^ 256) (_v : Nat) (chainID : Int) (rec : Nat)
    (hrec : rec = 0 ∨ rec = 1)
    (hlast : (if chainID = 0 then subByte (Uint64 _v % 256) sigVSubtract
      else subByte (Uint64 _v % 256)
        (byteOfInt64 (wrapInt64 (wrapInt64 (chainID * 2) + sigVAdd)))) = rec) :
    ∃ sig, sigFromRSV SigLen r s _v chainID = Except.ok sig ∧ sig.length = SigLen ∧
      sig[sigLen - 1]? = some rec := by
  obtain ⟨sig1, e1, l1⟩ := copyRightAligned_ok (List.replicate SigLen 0) elemLen (Bytes r)
    (Bytes_length r hr) (by simp only [List.length_replicate, elemLen]; omega)
  obtain ⟨sig2, e2, l2⟩ := copyRightAligned_ok sig1 (elemLen * 2) (Bytes s)
    (by have := Bytes_length s hs; simp only [elemLen]; omega)
    (by rw [l1]; simp only [List.length_replicate, elemLen]; omega)
  have hlen : sig2.length = SigLen := by rw [l2, l1, List.length_replicate]
  have hidx : sigLen - 1 < sig2.length := by
    rw [hlen]
    simp only [sigLen, elemLen]
    omega
  refine ⟨sig2.set (sigLen - 1) rec, ?_, by rw [List.length_set, hlen], ?_⟩
  · simp only [sigFromRSV, e1, e2, hlast, hidx, if_true, hrec]
  · rw [List.getElem?_set_self hidx]

/-- C20: `sigFromRSV` recovers the recovery id: with `r` and `s` of at most 32
bytes and a signature of at least 65 bytes, for `chainID = 0` and
`v = 27 + rec`, and for every `chainID > 0` of type `int64` and
`v = 2*chainID + 35 + rec`, with `rec` 0 or 1, it returns a signature (the
"Invalid v" check passes) whose byte `sigLen-1 = 64` is `rec`, whether or not
`2*chainID + 35` exceeds 255. -/
theorem sigFromRSV_recovers (SigLen : Nat) (h65 : 65 ≤ SigLen) (r s : Nat)
    (hr : r < 2 ^ 256) (hs : s < 2 ^ 256) (rec : Nat) (hrec : rec = 0 ∨ rec = 1) :
    (∃ sig, sigFromRSV SigLen r s (27 + rec) 0 = Except.ok sig ∧ sig.length = SigLen ∧
      sig[64]? = some rec) ∧
    (∀ chainID : Int, 0 < chainID → chainID < 2 ^ 63 →
      ∃ sig, sigFromRSV SigLen r s (2 * chainID + 35 + rec).toNat chainID = Except.ok sig ∧
        sig.length = SigLen ∧ sig[64]? = some rec) := by
  constructor
  · exact sigFromRSV_last SigLen h65 r s hr hs (27 + rec) 0 rec hrec
      (by rw [if_pos rfl]; exact subByte_chain0 rec hrec)
  · intro chainID h0 h1
    exact sigFromRSV_last SigLen h65 r s hr hs _ chainID rec hrec
      (by rw [if_neg (ne_of_gt h0)]; exact subByte_chain chainID rec hrec h0 h1)

/-- Instance of C20: chain id 1337, where `2*chainID + 35 = 2709` exceeds 255,
and chain id 0. -/
theorem sigFromRSV_recovers_witness :
    (∃ sig, sigFromRSV 65 258 3 (27 + 1) 0 = Except.ok sig ∧ sig.length = 65 ∧
      sig[64]? = some 1) ∧
    (∃ sig, sigFromRSV 65 258 3 (2 * 1337 + 35 + 1 : Int).toNat 1337 = Except.ok sig ∧
      sig.length = 65 ∧ sig[64]? = some 1) :=
  ⟨(sigFromRSV_recovers 65 (by decide) 258 3 (by decide) (by decide) 1 (by decide)).1,
   (sigFromRSV_recovers 65 (by decide) 258 3 (by decide) (by decide) 1 (by decide)).2 1337
     (by decide) (by decide)⟩

end ethtest

namespace ethchannel

/-! ## Theorems: the ETH depositor -/

/-- C12: `NumTX` is 1; a `Deposit` that returns a nil error returns a list of
exactly `NumTX` = 1 transactions; a `Deposit` that fails at binding the
contract, or at creating the transactor, returns nil transactions and an
error. -/
theorem Deposit_NumTX (env : Backend) (req : DepositReq) :
    NumTX = 1 ∧
    ((Deposit env req).2 = none →
      (∃ tx, (Deposit env req).1 = some [tx]) ∧ (Deposit env req).1.len = NumTX) ∧
    (∀ err, env.NewAssetHolderETH req.Asset req.CB = Except.error err →
      Deposit env req = (none, some (DepositError.bindingContract err))) ∧
    (∀ contract err, env.NewAssetHolderETH req.Asset req.CB = Except.ok contract →
      env.NewTransactor req.CB ETHDepositorGasLimit req.Account = Except.error err →
      Deposit env req = (none, some (DepositError.creatingTransactor err))) := by
  refine ⟨rfl, ?_, ?_, ?_⟩
  · intro h
    unfold Deposit at h ⊢
    cases hb : env.NewAssetHolderETH req.Asset req.CB with
    | error err => rw [hb] at h; cases h
    | ok contract =>
      rw [hb] at h
      cases ht : env.NewTransactor req.CB ETHDepositorGasLimit req.Account with
      | error err => simp only [ht] at h; cases h
      | ok opts => exact ⟨⟨_, rfl⟩, rfl⟩
  · intro err hb
    simp only [Deposit, hb]
  · intro contract err hb ht
    simp only [Deposit, hb, ht]

/-- Instance of C12: a deposit that succeeds, and one that fails at binding the
contract. -/
theorem Deposit_NumTX_witness :
    (Deposit goodBackend ⟨some 5, 1, 2, 3, 4⟩).1.len = NumTX ∧
    Deposit unboundBackend ⟨some 5, 1, 2, 3, 4⟩ = (none, some (DepositError.bindingContract 3)) :=
  ⟨((Deposit_NumTX goodBackend ⟨some 5, 1, 2, 3, 4⟩).2.1 rfl).2,
   (Deposit_NumTX unboundBackend ⟨some 5, 1, 2, 3, 4⟩).2.2.1 3 rfl⟩

end ethchannel

namespace wire

/-! ## Theorems: the envelope cache -/

/-- The assertions of `TestCache` hold on the cache as modelled. -/
theorem TestCache_assertions :
    MakeCache.Size = 0 ∧
    (MakeCache.Put ping0).2 = false ∧ (MakeCache.Put ping0).1.Size = 0 ∧
    ((MakeCache.Cache 7 isPing).Put ping0).2 = true ∧
    ((MakeCache.Cache 7 isPing).Put ping0).1.Size = 1 ∧
    (((MakeCache.Cache 7 isPing).Put ping0).1.Put pong).2 = false ∧
    ((((MakeCache.Cache 7 isPing).Put ping0).1.Put pong).1.Put ping1).2 = true ∧
    testCache.Size = 2 ∧
    (testCache.Messages (fun _ => false)).2.length = 0 ∧
    ((testCache.Release 7).Put ping2).2 = false ∧
    ((testCache.Release 7).Put ping2).1.Size = 2 ∧
    ((testCache.Release 7).Put ping2).1.preds.length = 0 ∧
    ((testCache.Release 7).Messages isPing0).1.Size = 1 ∧
    ((testCache.Release 7).Messages isPing0).2 = [ping0] ∧
    ((((testCache.Release 7).Messages isPing0).1.Cache 7 isPing).Flush).Size = 0 ∧
    (((((testCache.Release 7).Messages isPing0).1.Cache 7 isPing).Flush).Put ping0).2 = false := by
  decide

/-- C14: `Messages(f)` returns exactly the cached envelopes that satisfy `f`,
in their order and none for a filter that is always false; it removes exactly
those from the cache and keeps all others, so that `Size` decreases by the
number of envelopes returned; `Release` removes no cached envelope, and `Flush`
leaves `Size` zero. -/
theorem Messages_drains (c : Cache) (f : Predicate) :
    (c.Messages f).2 = c.msgs.filter f ∧
    (∀ e, e ∈ (c.Messages f).2 ↔ e ∈ c.msgs ∧ f e = true) ∧
    (∀ e, e ∈ (c.Messages f).1.msgs ↔ e ∈ c.msgs ∧ f e = false) ∧
    (c.Messages f).1.Size + (c.Messages f).2.length = c.Size ∧
    (c.Messages (fun _ => false)).2 = [] ∧
    (c.Messages f).1.preds = c.preds ∧
    (∀ handle : Nat, (c.Release handle).msgs = c.msgs ∧ (c.Release handle).Size = c.Size) ∧
    c.Flush.Size = 0 := by
  refine ⟨rfl, ?_, ?_, ?_, ?_, rfl, fun _ => ⟨rfl, rfl⟩, rfl⟩
  · intro e
    simp [Cache.Messages]
  · intro e
    simp [Cache.Messages]
  · simp only [Cache.Messages, Cache.Size]
    induction c.msgs with
    | nil => rfl
    | cons x t ih =>
      by_cases hx : f x = true
      · simp only [List.filter_cons, hx, Bool.not_true, Bool.false_eq_true, if_false, if_true,
          List.length_cons]
        omega
      · have hx1 : f x = false := by simpa using hx
        simp only [List.filter_cons, hx1, Bool.not_false, Bool.false_eq_true, if_false, if_true,
          List.length_cons]
        omega
  · simp [Cache.Messages]

/-- Instance of C14, the calls of `TestCache`: with `ping0` and `ping1` cached,
the filter that is always false returns nothing, and after the release of
`isPing` the filter for `ping0` returns `ping0` and leaves one envelope. -/
theorem Messages_drains_witness :
    (testCache.Messages (fun _ => false)).2 = [] ∧
    ((testCache.Release 7).Messages isPing0).2 = [ping0] ∧
    ((testCache.Release 7).Messages isPing0).1.Size = 1 :=
  ⟨(Messages_drains testCache isPing0).2.2.2.2.1,
   ((Messages_drains (testCache.Release 7) isPing0).1).trans (by decide),
   by
     have h := (Messages_drains (testCache.Release 7) isPing0).2.2.2.1
     have h2 : ((testCache.Release 7).Messages isPing0).2.length = 1 := by decide
     have h3 : (testCache.Release 7).Size = 2 := by decide
     omega⟩

end wire

namespace disputetest

/-! ## Theorems: the dispute test -/

theorem wrapInt64_of_range (x : Int) (h1 : -2 ^ 63 ≤ x) (h2 : x < 2 ^ 63) :
    ethtest.wrapInt64 x = x := by
  unfold ethtest.wrapInt64
  norm_num at h1 h2 ⊢
  omega

theorem netTransfer_in_range (n1 n2 a1 a2 : Int)
    (h1 : 0 ≤ n1) (h2 : n1 < 2 ^ 31) (h3 : 0 ≤ n2) (h4 : n2 < 2 ^ 31)
    (h5 : 0 ≤ a1) (h6 : a1 < 2 ^ 31) (h7 : 0 ≤ a2) (h8 : a2 < 2 ^ 31) :
    ethtest.wrapInt64
      (ethtest.wrapInt64 (ethtest.wrapInt64 n1 * ethtest.wrapInt64 a1)
        - ethtest.wrapInt64 (ethtest.wrapInt64 n2 * ethtest.wrapInt64 a2))
      = n1 * a1 - n2 * a2 := by
  have b1 : n1 * a1 < 2 ^ 31 * 2 ^ 31 := mul_lt_mul'' h2 h6 h1 h5
  have b2 : n2 * a2 < 2 ^ 31 * 2 ^ 31 := mul_lt_mul'' h4 h8 h3 h7
  have p1 : 0 ≤ n1 * a1 := mul_nonneg h1 h5
  have p2 : 0 ≤ n2 * a2 := mul_nonneg h3 h7
  norm_num at b1 b2 h2 h4 h6 h8
  rw [wrapInt64_of_range n1 (by omega) (by norm_num; omega),
    wrapInt64_of_range n2 (by omega) (by norm_num; omega),
    wrapInt64_of_range a1 (by omega) (by norm_num; omega),
    wrapInt64_of_range a2 (by omega) (by norm_num; omega),
    wrapInt64_of_range (n1 * a1) (by omega) (by norm_num; omega),
    wrapInt64_of_range (n2 * a2) (by omega) (by norm_num; omega),
    wrapInt64_of_range (n1 * a1 - n2 * a2) (by norm_num; omega) (by norm_num; omega)]

/-- The balances `TestDisputeMalloryCarol` expects are not (0, 100). -/
theorem finalBal_ne_0_100 : finalBal execConfig ≠ (0, 100) := by
  decide

/-- C15, amended: in the dispute scenario the first participant is funded with
100 and the second with 1; the first makes five payments of 20 and the second
none; the net transfer is 100 = 5*20 - 0*0, and the expected final balances are
(0, 101): the initial balance minus, respectively plus, the net transfer. For
every configuration the two final balances add up to the two initial balances,
and when the numbers of payments and the amounts are within 31 bits the net
transfer is the difference of the two products. -/
theorem finalBal_execConfig :
    execConfig.InitBals = (100, 1) ∧
    netTransfer execConfig = 100 ∧ netTransfer execConfig = 5 * 20 - 0 * 0 ∧
    finalBal execConfig = (0, 101) ∧
    finalBal execConfig
      = (execConfig.InitBals.1 - netTransfer execConfig,
         execConfig.InitBals.2 + netTransfer execConfig) ∧
    (∀ c : MalloryCarolExecConfig,
      (finalBal c).1 + (finalBal c).2 = c.InitBals.1 + c.InitBals.2) ∧
    (∀ c : MalloryCarolExecConfig,
      0 ≤ c.NumPayments.1 → c.NumPayments.1 < 2 ^ 31 →
      0 ≤ c.NumPayments.2 → c.NumPayments.2 < 2 ^ 31 →
      0 ≤ c.TxAmounts.1 → c.TxAmounts.1 < 2 ^ 31 →
      0 ≤ c.TxAmounts.2 → c.TxAmounts.2 < 2 ^ 31 →
      netTransfer c = c.NumPayments.1 * c.TxAmounts.1 - c.NumPayments.2 * c.TxAmounts.2) := by
  refine ⟨rfl, by decide, by decide, by decide, rfl, ?_, ?_⟩
  · intro c
    simp only [finalBal]
    ring
  · intro c h1 h2 h3 h4 h5 h6 h7 h8
    exact netTransfer_in_range c.NumPayments.1 c.NumPayments.2 c.TxAmounts.1 c.TxAmounts.2
      h1 h2 h3 h4 h5 h6 h7 h8

/-- Instance of C15: the configuration of the test. -/
theorem finalBal_execConfig_witness :
    netTransfer execConfig
      = execConfig.NumPayments.1 * execConfig.TxAmounts.1
        - execConfig.NumPayments.2 * execConfig.TxAmounts.2 :=
  finalBal_execConfig.2.2.2.2.2.2 execConfig (by decide) (by decide) (by decide) (by decide)
    (by decide) (by decide) (by decide) (by decide)

end disputetest

namespace wirenettest

/-! ## Theorems: the test connection -/

theorem Close_of_unset (c : TestConn) (res : Option ConnError) (w : World)
    (h : w.flags[c.closed]? = some false) :
    c.Close res w
      = ({ w with flags := w.flags.set c.closed true, closeCalls := w.closeCalls ++ [c.conn] },
         res.map Error.conn) := by
  simp only [TestConn.Close, TrySet, h, connClose]

theorem Close_of_set (c : TestConn) (res : Option ConnError) (w : World)
    (h : w.flags[c.closed]? = some true) :
    c.Close res w = (w, some Error.alreadyClosed) := by
  simp only [TestConn.Close, TrySet, h]

theorem flag_after_set (w : World) (f : Nat) (h : w.flags[f]? = some false) :
    (w.flags.set f true)[f]? = some true := by
  have hlt : f < w.flags.length := by
    by_contra hc
    rw [List.getElem?_eq_none (Nat.le_of_not_lt hc)] at h
    cases h
  rw [List.getElem?_set_self hlt]

/-- A call on an endpoint keeps the pair in one of two states: open with no
underlying `Close` yet, or closed with exactly one; a closed pair is not
changed by any call. -/
theorem Call.run_keeps (a b : TestConn) (f : Nat) (L : List Nat) (ha : a.closed = f)
    (hb : b.closed = f) (w : World) (call : Call)
    (h : (w.flags[f]? = some false ∧ w.closeCalls = L) ∨
      (w.flags[f]? = some true ∧ ∃ x, (x = a.conn ∨ x = b.conn) ∧ w.closeCalls = L ++ [x])) :
    ((Call.run a b w call).flags[f]? = some false ∧ (Call.run a b w call).closeCalls = L) ∨
    ((Call.run a b w call).flags[f]? = some true ∧
      ∃ x, (x = a.conn ∨ x = b.conn) ∧ (Call.run a b w call).closeCalls = L ++ [x]) := by
  have hclose : ∀ (first : Bool) (res : Option ConnError),
      (((if first then a else b).Close res w).1.flags[f]? = some false ∧
        ((if first then a else b).Close res w).1.closeCalls = L) ∨
      (((if first then a else b).Close res w).1.flags[f]? = some true ∧
        ∃ x, (x = a.conn ∨ x = b.conn) ∧
          ((if first then a else b).Close res w).1.closeCalls = L ++ [x]) := by
    intro first res
    have hc : (if first then a else b).closed = f := by
      cases first
      · simpa using hb
      · simpa using ha
    have hconn : (if first then a else b).conn = a.conn ∨ (if first then a else b).conn = b.conn := by
      cases first
      · exact Or.inr (by simp)
      · exact Or.inl (by simp)
    rcases h with ⟨h1, h2⟩ | ⟨h1, h2⟩
    · right
      rw [Close_of_unset _ res w (by rw [hc]; exact h1)]
      refine ⟨?_, _, hconn, ?_⟩
      · simp only [hc]
        exact flag_after_set w f h1
      · simp only [h2]
    · right
      rw [Close_of_set _ res w (by rw [hc]; exact h1)]
      exact ⟨h1, h2⟩
  cases call with
  | Close first res => exact hclose first res
  | Send first sendRes res =>
    cases sendRes with
    | none => exact h
    | some err => exact hclose first res
  | Recv first recvRes res =>
    cases recvRes with
    | none => exact h
    | some err => exact hclose first res

theorem runCalls_keeps (a b : TestConn) (f : Nat) (L : List Nat) (ha : a.closed = f)
    (hb : b.closed = f) (calls : List Call) :
    ∀ w : World,
      ((w.flags[f]? = some false ∧ w.closeCalls = L) ∨
        (w.flags[f]? = some true ∧ ∃ x, (x = a.conn ∨ x = b.conn) ∧ w.closeCalls = L ++ [x])) →
      (((runCalls a b w calls).flags[f]? = some false ∧ (runCalls a b w calls).closeCalls = L) ∨
        ((runCalls a b w calls).flags[f]? = some true ∧
          ∃ x, (x = a.conn ∨ x = b.conn) ∧ (runCalls a b w calls).closeCalls = L ++ [x])) := by
  induction calls with
  | nil => intro w h; exact h
  | cons call rest ih =>
    intro w h
    exact ih (Call.run a b w call) (Call.run_keeps a b f L ha hb w call h)

theorem runCalls_of_closed (a b : TestConn) (f : Nat) (ha : a.closed = f) (hb : b.closed = f)
    (calls : List Call) :
    ∀ w : World, w.flags[f]? = some true → runCalls a b w calls = w := by
  induction calls with
  | nil => intro w _; rfl
  | cons call rest ih =>
    intro w h
    have hclose : ∀ (first : Bool) (res : Option ConnError),
        ((if first then a else b).Close res w).1 = w := by
      intro first res
      have hc : (if first then a else b).closed = f := by
        cases first
        · simpa using hb
        · simpa using ha
      rw [Close_of_set _ res w (by rw [hc]; exact h)]
    have hstep : Call.run a b w call = w := by
      cases call with
      | Close first res => exact hclose first res
      | Send first sendRes res =>
        cases sendRes with
        | none => rfl
        | some err => exact hclose first res
      | Recv first recvRes res =>
        cases recvRes with
        | none => rfl
        | some err => exact hclose first res
    show runCalls a b (Call.run a b w call) rest = w
    rw [hstep]
    exact ih w h

/-- C19: the endpoints `a` and `b` of `NewTestConnPair` share one closed flag,
unset at first. After any sequence of calls on them, `IsClosed` is the same on
both, and either the pair is open and no underlying `Close` was called, or it
is closed and the underlying `Close` was called exactly once, on one of the two
connections. A `Close` on an open pair returns what the underlying `Close`
returns, calls it on the connection of that endpoint only, and leaves both
endpoints closed; a `Close` on a closed pair returns "already closed" and
changes nothing, and no later call changes anything. A failing `Send` or `Recv`
leaves the state a `Close` leaves; a succeeding one changes nothing. -/
theorem TestConnPair_closes_once (w0 w1 : World) (a b : TestConn)
    (hp : NewTestConnPair w0 = (w1, a, b)) (calls : List Call) (w : World)
    (hw : runCalls a b w1 calls = w) :
    a.closed = b.closed ∧ a.conn ≠ b.conn ∧
    a.IsClosed w1 = false ∧ b.IsClosed w1 = false ∧
    b.IsClosed w = a.IsClosed w ∧
    ((a.IsClosed w = false ∧ w.closeCalls = w0.closeCalls) ∨
      (a.IsClosed w = true ∧
        ∃ x, (x = a.conn ∨ x = b.conn) ∧ w.closeCalls = w0.closeCalls ++ [x])) ∧
    (a.IsClosed w = false → ∀ (first : Bool) (res : Option ConnError),
      ((if first then a else b).Close res w).2 = res.map Error.conn ∧
      ((if first then a else b).Close res w).1.closeCalls
        = w.closeCalls ++ [(if first then a else b).conn] ∧
      a.IsClosed ((if first then a else b).Close res w).1 = true ∧
      b.IsClosed ((if first then a else b).Close res w).1 = true) ∧
    (a.IsClosed w = true → ∀ (first : Bool) (res : Option ConnError),
      (if first then a else b).Close res w = (w, some Error.alreadyClosed)) ∧
    (a.IsClosed w = true → ∀ more : List Call, runCalls a b w more = w) ∧
    (∀ (first : Bool) (err : ConnError) (res : Option ConnError),
      (if first then a else b).Send (some err) res w
        = (((if first then a else b).Close res w).1, some (Error.conn err)) ∧
      (if first then a else b).Recv (some err) res w
        = (((if first then a else b).Close res w).1, some (Error.conn err))) ∧
    (∀ (first : Bool) (res : Option ConnError),
      (if first then a else b).Send none res w = (w, none) ∧
      (if first then a else b).Recv none res w = (w, none)) := by
  simp only [NewTestConnPair, Prod.mk.injEq] at hp
  obtain ⟨h1, h2, h3⟩ := hp
  subst h1 h2 h3
  have hf0 : (w0.flags ++ [false])[w0.flags.length]? = some false := by simp
  have hinv := runCalls_keeps
    { closed := w0.flags.length, conn := w0.conns }
    { closed := w0.flags.length, conn := w0.conns + 1 } w0.flags.length w0.closeCalls rfl rfl
    calls
    { w0 with flags := w0.flags ++ [false], conns := w0.conns + 2 } (Or.inl ⟨hf0, rfl⟩)
  rw [hw] at hinv
  have hc : ∀ first : Bool,
      (if first then ({ closed := w0.flags.length, conn := w0.conns } : TestConn)
        else { closed := w0.flags.length, conn := w0.conns + 1 }).closed = w0.flags.length := by
    intro first
    cases first <;> rfl
  have hset : ∀ v : World, v.flags[w0.flags.length]? = some true →
      IsSet v w0.flags.length = true := by
    intro v hv
    simp only [IsSet, hv]
  have hunset : ∀ v : World, v.flags[w0.flags.length]? = some false →
      IsSet v w0.flags.length = false := by
    intro v hv
    simp only [IsSet, hv]
  refine ⟨rfl, by simp, hunset _ hf0, hunset _ hf0, rfl, ?_, ?_, ?_, ?_, ?_, ?_⟩
  · rcases hinv with ⟨e1, e2⟩ | ⟨e1, e2⟩
    · exact Or.inl ⟨hunset w e1, e2⟩
    · exact Or.inr ⟨hset w e1, e2⟩
  · intro hopen first res
    have e1 : w.flags[w0.flags.length]? = some false := by
      rcases hinv with ⟨e1, -⟩ | ⟨e1, -⟩
      · exact e1
      · have := hset w e1
        simp only [TestConn.IsClosed] at hopen
        rw [this] at hopen
        cases hopen
    rw [Close_of_unset _ res w (by rw [hc first]; exact e1)]
    refine ⟨rfl, rfl, ?_, ?_⟩
    · simp only [TestConn.IsClosed, hc first]
      exact hset _ (flag_after_set w _ e1)
    · simp only [TestConn.IsClosed, hc first]
      exact hset _ (flag_after_set w _ e1)
  · intro hclosed first res
    have e1 : w.flags[w0.flags.length]? = some true := by
      rcases hinv with ⟨e1, -⟩ | ⟨e1, -⟩
      · have := hunset w e1
        simp only [TestConn.IsClosed] at hclosed
        rw [this] at hclosed
        cases hclosed
      · exact e1
    exact Close_of_set _ res w (by rw [hc first]; exact e1)
  · intro hclosed more
    have e1 : w.flags[w0.flags.length]? = some true := by
      rcases hinv with ⟨e1, -⟩ | ⟨e1, -⟩
      · have := hunset w e1
        simp only [TestConn.IsClosed] at hclosed
        rw [this] at hclosed
        cases hclosed
      · exact e1
    exact runCalls_of_closed _ _ w0.flags.length rfl rfl more w e1
  · intro first err res
    exact ⟨rfl, rfl⟩
  · intro first res
    exact ⟨rfl, rfl⟩

/-- Instance of C19: on a new pair the second endpoint fails to send, then
both endpoints are closed; the one underlying `Close` was on the second
connection. -/
theorem TestConnPair_closes_once_witness :
    runCalls ⟨0, 0⟩ ⟨0, 1⟩ ⟨[false], 2, []⟩
        [Call.Send false (some 5) none, Call.Close true none, Call.Close false none]
      = ⟨[true], 2, [1]⟩ ∧
    TestConn.Close ⟨0, 0⟩ none ⟨[true], 2, [1]⟩ = (⟨[true], 2, [1]⟩, some Error.alreadyClosed) :=
  ⟨by decide,
   (TestConnPair_closes_once ⟨[], 0, []⟩ ⟨[false], 2, []⟩ ⟨0, 0⟩ ⟨0, 1⟩ (by decide)
      [Call.Send false (some 5) none, Call.Close true none, Call.Close false none]
      ⟨[true], 2, [1]⟩ (by decide)).2.2.2.2.2.2.2.1 (by decide) true none⟩

end wirenettest
